import Mathlib

/-!
Pintos kernel (kiturolin/pintos): directories, path parsing, priority scheduling.

A shallow embedding of `filesys/directory.c`, the path handling of
`userprog/syscall.c` and the priority code of `threads/thread.c`.

Conventions of the embedding:

* a C string is a `List Char` (the bytes before the terminating NUL), a
  possibly-NULL `char *` is an `Option (List Char)`;
* a pointer to a kernel object is the number that identifies the object, a
  possibly-NULL pointer is an `Option Nat`;
* a function that can trip an `ASSERT`, run past a buffer or spin for ever
  returns an `Option`; `none` stands for "no normal return".
-/

namespace Pintos

/-! ## Definitions: file system -/

/-- Sector of the free-map inode (`filesys.h`). -/
def FREE_MAP_SECTOR : Nat := 0

/-- Sector of the root directory inode (`filesys.h`). -/
def ROOT_DIR_SECTOR : Nat := 1

/-- Longest file name component; `NAME_MAX` of `directory.h`, given as 14 by the
spec ("name (≤14 bytes, NUL-terminated)", `char name[15]`). -/
def NAME_MAX : Nat := 14

/-- The `struct dir_entry` of `directory.c`. -/
structure dir_entry where
  inode_sector : Nat
  name : List Char
  in_use : Bool
deriving DecidableEq

/-- Modelled from the spec: the on-disk inode of `inode.c`, which is not among
the sources. Only what the directory layer observes is kept: the `is_dir` flag
and the content of the file read as an array of directory entries (slot `i` is
the entry at byte offset `i * sizeof (struct dir_entry)`). -/
structure inode_disk where
  is_dir : Bool
  entries : List dir_entry

/-- The disk as the directory layer sees it: the inode stored at each sector. -/
abbrev Disk := Nat → inode_disk

/-- Replace the inode stored at one sector. -/
def Disk.set (fs : Disk) (sector : Nat) (ino : inode_disk) : Disk :=
  fun s => if s = sector then ino else fs s

/-- Write one entry into a list of slots: in place inside the file, appended at
the end of file, padded with zeroed slots beyond it. -/
def write_slot (es : List dir_entry) (slot : Nat) (e : dir_entry) : List dir_entry :=
  if slot < es.length then es.set slot e
  else es ++ List.replicate (slot - es.length) ⟨0, [], false⟩ ++ [e]

/-- Size in bytes of `struct dir_entry`: a 4-byte sector, `char name[15]` and a
1-byte flag. -/
def sizeof_dir_entry : Nat := 20

/-- The disk after a complete write of one entry into a slot of the file of an
inode. -/
def store_entry (fs : Disk) (inode : Nat) (slot : Nat) (e : dir_entry) : Disk :=
  fs.set inode { fs inode with entries := write_slot (fs inode).entries slot e }

/-- Modelled from the spec: `inode_write_at (inode, &e, sizeof e, ofs)` of
`inode.c`, which is not among the sources, with `ofs` counted in entries: the
number of bytes written and the disk afterwards. A write inside the file is
complete. A write at or past the end of the file makes the file grow, which
takes free sectors: it is complete when the growth succeeds (`grow_ok`) and
short otherwise. A short write stores nothing: the `in_use` flag is the last
byte of an entry, so a short write never stores an entry in use. -/
def inode_write_at (grow_ok : Bool) (fs : Disk) (inode : Nat) (slot : Nat) (e : dir_entry) :
    Nat × Disk :=
  if slot < (fs inode).entries.length then (sizeof_dir_entry, store_entry fs inode slot e)
  else if grow_ok then (sizeof_dir_entry, store_entry fs inode slot e)
  else (0, fs)

/-- The `struct dir` of `directory.c`: an open directory. -/
structure dir where
  inode : Nat
  pos : Nat
deriving DecidableEq

/-- C `dir_open (inode)` applied to an opened inode: null unless the inode is a
directory. (`inode_open (sector)` yields the inode of that sector.) -/
def dir_open (fs : Disk) (inode : Nat) : Option dir :=
  if (fs inode).is_dir then some ⟨inode, 0⟩ else none

/-- The scan of `lookup` over the slots of the directory file (`inode_read_at`
returns a whole entry exactly for the slots inside the file): the first in-use
slot whose name equals `name`, with its slot number. -/
def lookup_from (name : List Char) : List dir_entry → Nat → Option (dir_entry × Nat)
  | [], _ => none
  | e :: es, ofs =>
    if e.in_use && decide (name = e.name) then some (e, ofs)
    else lookup_from name es (ofs + 1)

/-- C `lookup (dir, name, &e, &ofs)`. -/
def lookup (fs : Disk) (d : dir) (name : List Char) : Option (dir_entry × Nat) :=
  lookup_from name (fs d.inode).entries 0

/-- C `dir_lookup (dir, name, &inode)`: the sector of the inode opened for the
entry found, or none (a null inode). -/
def dir_lookup (fs : Disk) (d : dir) (name : List Char) : Option Nat :=
  match lookup fs d name with
  | some (e, _) => some e.inode_sector
  | none => none

/-- First phase of `strtok_r (s, "/", &save_ptr)`: skip delimiters. -/
def skip_delims : List Char → List Char
  | [] => []
  | c :: cs => if c = '/' then skip_delims cs else c :: cs

/-- Second phase of `strtok_r`: the token runs up to the next delimiter, which
is overwritten by NUL; the save pointer is set just behind it (or on the final
NUL). Returns the token and the text left at the save pointer. -/
def take_token : List Char → List Char × List Char
  | [] => ([], [])
  | c :: cs =>
    if c = '/' then ([], cs)
    else ((c :: (take_token cs).1), (take_token cs).2)

/-- C `strtok_r (s, "/", &save_ptr)`: none when only delimiters are left,
otherwise the next token and the new save pointer. -/
def strtok_r (s : List Char) : Option (List Char × List Char) :=
  match skip_delims s with
  | [] => none
  | c :: cs => some (take_token (c :: cs))

/-- The `for` loop of `dir_parse`. `s` is the text at the save pointer, `d` the
directory currently open (none for a null `dir`), `ret` the sector found last.
The fuel bounds the number of iterations. -/
def dir_parse_loop (fs : Disk) : Nat → List Char → Option dir → Nat → Option Nat
  | 0, _, _, _ => none
  | fuel + 1, s, d, ret =>
    match strtok_r s with
    | none => some ret
    | some (token, save_ptr) =>
      match d with
      | none => some 0
      | some dd =>
        match dir_lookup fs dd token with
        | none => some 0
        | some sector => dir_parse_loop fs fuel save_ptr (dir_open fs sector) sector

/-- C `dir_parse (wd, path_)`. A null or empty path gives `wd`. The path is
copied into `char path[64]`: a path of 64 bytes or more runs past the buffer
(none). -/
def dir_parse (fs : Disk) (wd : Nat) (path_ : Option (List Char)) : Option Nat :=
  match path_ with
  | none => some wd
  | some [] => some wd
  | some (c :: cs) =>
    if 64 ≤ (c :: cs).length then none
    else
      let relative := decide (c ≠ '/')
      let ret := if relative then 0 else ROOT_DIR_SECTOR
      match dir_open fs (if relative then wd else ROOT_DIR_SECTOR) with
      | none => some 0
      | some d => dir_parse_loop fs ((c :: cs).length + 1) (c :: cs) (some d) ret

/-- The scan of `dir_add` for a free slot: the first slot not in use, or the
end of file. -/
def free_slot_from : List dir_entry → Nat → Nat
  | [], ofs => ofs
  | e :: es, ofs => if !e.in_use then ofs else free_slot_from es (ofs + 1)

/-- C `dir_add (dir, name, inode_sector)`: the result and the disk afterwards.
The result is whether `inode_write_at` wrote the whole entry; `grow_ok` tells
whether the file can grow during the call. -/
def dir_add (grow_ok : Bool) (fs : Disk) (d : dir) (name : List Char) (inode_sector : Nat) :
    Bool × Disk :=
  if name = [] ∨ NAME_MAX < name.length then (false, fs)
  else if (lookup fs d name).isSome then (false, fs)
  else
    let w := inode_write_at grow_ok fs d.inode (free_slot_from (fs d.inode).entries 0)
      ⟨inode_sector, name, true⟩
    (decide (w.1 = sizeof_dir_entry), w.2)

/-- C `dir_remove (dir, name)`: the entry found is written back with `in_use`
cleared, and the call fails when that write is short. (`inode_remove` only
marks the in-memory inode; the sectors are reclaimed at the last close, outside
this model.) -/
def dir_remove (grow_ok : Bool) (fs : Disk) (d : dir) (name : List Char) : Bool × Disk :=
  match lookup fs d name with
  | none => (false, fs)
  | some (e, ofs) =>
    let w := inode_write_at grow_ok fs d.inode ofs { e with in_use := false }
    if w.1 ≠ sizeof_dir_entry then (false, w.2) else (true, w.2)

/-- The `while` loop of `dir_readdir` over the slots from the current position:
the name found, if any, and the new position. -/
def readdir_from : List dir_entry → Nat → Option (List Char) × Nat
  | [], pos => (none, pos)
  | e :: es, pos =>
    if e.in_use && !(decide (e.name = ['.']) || decide (e.name = ['.', '.'])) then
      (some e.name, pos + 1)
    else readdir_from es (pos + 1)

/-- C `dir_readdir (dir, name)`: the name stored (none when the call returns
false) and the directory with its position advanced. -/
def dir_readdir (fs : Disk) (d : dir) : Option (List Char) × dir :=
  let r := readdir_from ((fs d.inode).entries.drop d.pos) d.pos
  (r.1, { d with pos := r.2 })

/-- C `dir_is_empty (dir)`: it returns what `dir_readdir` returns. -/
def dir_is_empty (fs : Disk) (d : dir) : Bool :=
  (dir_readdir fs d).1.isSome

/-- Modelled from the spec: `inode_create (sector, length, is_dir)` of `inode.c`,
which is not among the sources. On success the sector holds a fresh inode whose
`length` bytes are zero, that is `length / sizeof (struct dir_entry)` slots not
in use. `alloc_ok` tells whether the sectors could be allocated. -/
def inode_create (alloc_ok : Bool) (fs : Disk) (sector : Nat) (length : Nat)
    (is_dir : Bool) : Bool × Disk :=
  if alloc_ok then
    (true, fs.set sector ⟨is_dir, List.replicate (length / sizeof_dir_entry) ⟨0, [], false⟩⟩)
  else (false, fs)

/-- C `dir_create (sector, prev, name, entry_cnt)`. The size is computed in
32-bit `size_t`. The results of the three `dir_add` calls are dropped, as in
the source; a null `prev_dir` trips the `ASSERT` of `dir_add` (none).
`grow_ok i` tells whether the file written by the `dir_add` call number `i`
(0, 1, 2) can grow during that call. -/
def dir_create (alloc_ok : Bool) (grow_ok : Nat → Bool) (fs : Disk) (sector prev : Nat)
    (name : List Char) (entry_cnt : Nat) : Option (Bool × Disk) :=
  match inode_create alloc_ok fs sector ((entry_cnt * sizeof_dir_entry) % 2 ^ 32) true with
  | (false, _) => some (false, fs)
  | (true, fs1) =>
    match dir_open fs1 sector with
    | none => none
    | some new_dir =>
      let prev_dir := dir_open fs1 prev
      let fs2 := (dir_add (grow_ok 0) fs1 new_dir ['.'] sector).2
      let fs3 := (dir_add (grow_ok 1) fs2 new_dir ['.', '.'] prev).2
      match prev_dir with
      | none => none
      | some pd => some (true, (dir_add (grow_ok 2) fs3 pd name sector).2)

/-! ## Definitions: path handling of the system calls (userprog/syscall.c) -/

/-- C `strrchr (path, '/')` as a split: the text before the last slash and the
text behind it, none when the path has no slash. -/
def strrchr_split : List Char → Option (List Char × List Char)
  | [] => none
  | c :: cs =>
    match strrchr_split cs with
    | some (pre, post) => some (c :: pre, post)
    | none => if c = '/' then some ([], cs) else none

/-- C `separate_path (path, &directory, &filename)`: the two strings the
pointers designate on return (none for NULL). The length is held in a
`uint16_t`. For the one-byte path "/" the name "." is written two bytes behind
the start of the buffer. -/
def separate_path (path : List Char) : Option (List Char) × Option (List Char) :=
  let len := path.length % 65536
  if len = 0 then (none, none)
  else if len = 1 then
    if path.head? = some '/' then
      (some (if path.length = 1 then path else path.take 2 ++ ['.']), some ['.'])
    else (none, some path)
  else
    match strrchr_split path with
    | some (pre, post) =>
      if post = [] then (some path, none)
      else (some pre, some post)
    | none => (none, some path)

/-- The path handling of `syscall_create` up to the call of `filesys_create`:
the directory sector and the file name handed over, an inner none when the call
leaves with `success = false` before that, an outer none when a buffer is
overrun (`strlcpy` of 65 bytes into `char path_to_name[64]`). -/
def syscall_create_target (fs : Disk) (wd : Nat) (name_ : List Char) :
    Option (Option (Nat × List Char)) :=
  if 64 < name_.length then some none
  else if name_.length = 64 then none
  else
    match separate_path name_ with
    | (_, none) => some none
    | (directory, some filename) =>
      match dir_parse fs wd directory with
      | none => none
      | some dir_sector =>
        if dir_sector = 0 then some none else some (some (dir_sector, filename))

/-- The path handling of `syscall_open` up to the call of `filesys_open`. -/
def syscall_open_target (fs : Disk) (wd : Nat) (file_name : List Char) :
    Option (Option (Nat × List Char)) :=
  match separate_path file_name with
  | (_, none) => some none
  | (directory, some filename) =>
    match dir_parse fs wd directory with
    | none => none
    | some dir_sector =>
      if dir_sector = 0 then some none else some (some (dir_sector, filename))

/-- The path handling of `syscall_remove` up to the test on the directory. -/
def syscall_remove_target (fs : Disk) (wd : Nat) (file_name : List Char) :
    Option (Option (Nat × List Char)) :=
  match separate_path file_name with
  | (_, none) => some none
  | (directory, some filename) =>
    match dir_parse fs wd directory with
    | none => none
    | some dir_sector =>
      if dir_sector = 0 then some none else some (some (dir_sector, filename))

/-- The path handling of `syscall_mkdir` up to the lookup in the parent: a null
`directory` is replaced by ".". -/
def syscall_mkdir_target (fs : Disk) (wd : Nat) (dir_ : List Char) :
    Option (Option (Nat × List Char)) :=
  match separate_path dir_ with
  | (_, none) => some none
  | (directory, some filename) =>
    match dir_parse fs wd (some (directory.getD ['.'])) with
    | none => none
    | some dir_inode_sector =>
      if dir_inode_sector = 0 then some none else some (some (dir_inode_sector, filename))

/-- Modelled from the spec: what makes a directory non-empty for `remove`: an
in-use entry other than "." and "..". -/
def has_real_entry (es : List dir_entry) : Bool :=
  es.any (fun e => e.in_use && !(decide (e.name = ['.']) || decide (e.name = ['.', '.'])))

/-- Modelled from the spec: `filesys_remove (dir_sector, name)` of `filesys.c`,
which is not among the sources (only its declaration in `filesys.h`). By the
spec, "`remove(dir_sector, name)` clears the `in_use` bit in the entry, then
marks the inode as removed", and "Removing a non-empty directory fails": the
directory at `dir_sector` is opened and the entry looked up; the call fails
when the entry names a directory that holds an in-use entry other than "." and
"..", and otherwise `dir_remove` is applied. -/
def filesys_remove (grow_ok : Bool) (fs : Disk) (dir_sector : Nat) (name : List Char) :
    Bool × Disk :=
  match dir_open fs dir_sector with
  | none => (false, fs)
  | some d =>
    match dir_lookup fs d name with
    | none => (false, fs)
    | some sector =>
      if (fs sector).is_dir && has_real_entry (fs sector).entries then (false, fs)
      else dir_remove grow_ok fs d name

/-- C `syscall_remove`: the value returned to the user and the disk afterwards.
`dir` and `data` are taken from `dir_sector`, the sector `dir_parse` returned
for the directory part of the path. -/
def syscall_remove (grow_ok : Bool) (fs : Disk) (wd : Nat) (file_name : List Char) :
    Option (Bool × Disk) :=
  match syscall_remove_target fs wd file_name with
  | none => none
  | some none => some (false, fs)
  | some (some (dir_sector, filename)) =>
    let d := dir_open fs dir_sector
    let data := fs dir_sector
    if data.is_dir && !(match d with
        | some dd => dir_is_empty fs dd
        | none => false) then some (false, fs)
    else some (filesys_remove grow_ok fs dir_sector filename)

/-! ## Definitions: the reference path walk of the specification -/

/-- All pieces of a path between slashes, empty pieces included. -/
def split_slash : List Char → List (List Char)
  | [] => [[]]
  | c :: cs =>
    if c = '/' then [] :: split_slash cs
    else
      match split_slash cs with
      | [] => [[c]]
      | p :: ps => (c :: p) :: ps

/-- The maximal non-empty slash-free components of a path. -/
def components (path : List Char) : List (List Char) :=
  (split_slash path).filter (fun t => decide (t ≠ []))

/-- The sector recorded for `name` among the in-use entries of the directory
stored at `sector`. -/
def entry_sector (fs : Disk) (sector : Nat) (name : List Char) : Option Nat :=
  ((fs sector).entries.find? (fun e => e.in_use && decide (e.name = name))).map
    (fun e => e.inode_sector)

/-- The reference walk of the specification from the directory at `cur` along
the components: each component is looked up in the directory reached so far;
the result is the sector recorded for the last one, and 0 when a component is
not found or a component before the last is not a directory. -/
def reference_walk (fs : Disk) : Nat → List (List Char) → Nat
  | cur, [] => cur
  | cur, c :: cs =>
    match entry_sector fs cur c with
    | none => 0
    | some s =>
      if cs = [] then s
      else if (fs s).is_dir then reference_walk fs s cs else 0

/-- The reference result of `parse (wd, path)`: start at the root for a path
that begins with a slash, at `wd` otherwise. -/
def reference_parse (fs : Disk) (wd : Nat) (path : List Char) : Nat :=
  reference_walk fs (if path.head? = some '/' then ROOT_DIR_SECTOR else wd) (components path)

/-- The names of the in-use entries of a directory, in slot order. -/
def in_use_names (es : List dir_entry) : List (List Char) :=
  (es.filter (fun e => e.in_use)).map (fun e => e.name)

/-- Name uniqueness of a directory: no two in-use entries share a name. -/
def names_unique (es : List dir_entry) : Prop :=
  (in_use_names es).Nodup

/-- The loop of `dir_parse` read over the list of tokens that `strtok_r`
delivers: `d` is the open directory, `ret` the sector found last. -/
def token_walk (fs : Disk) : Option dir → Nat → List (List Char) → Nat
  | _, ret, [] => ret
  | none, _, _ :: _ => 0
  | some d, _, c :: cs =>
    match dir_lookup fs d c with
    | none => 0
    | some s => token_walk fs (dir_open fs s) s cs

/-- What `dir_parse` computes for a non-empty path with the given tokens. -/
def parse_walk (fs : Disk) (wd : Nat) (absolute : Bool) (comps : List (List Char)) : Nat :=
  match dir_open fs (if absolute then ROOT_DIR_SECTOR else wd) with
  | none => 0
  | some d => token_walk fs (some d) (if absolute then ROOT_DIR_SECTOR else 0) comps

/-- A small disk used as concrete input: the root directory (sector 1) holds
the directory `a` (sector 2) and the file `f` (sector 4); `a` holds the
directory `b` (sector 3), which is empty. -/
def sample_disk : Disk := fun s =>
  if s = 1 then
    ⟨true, [⟨1, ['.'], true⟩, ⟨1, ['.', '.'], true⟩, ⟨2, ['a'], true⟩, ⟨4, ['f'], true⟩]⟩
  else if s = 2 then ⟨true, [⟨2, ['.'], true⟩, ⟨1, ['.', '.'], true⟩, ⟨3, ['b'], true⟩]⟩
  else if s = 3 then ⟨true, [⟨3, ['.'], true⟩, ⟨2, ['.', '.'], true⟩]⟩
  else ⟨false, []⟩

/-- A second small disk: the root directory (sector 1) holds the directory `a`
(sector 2), and `a` holds a regular file that is also named `a` (sector 5). -/
def sample_disk_nested : Disk := fun s =>
  if s = 1 then ⟨true, [⟨1, ['.'], true⟩, ⟨1, ['.', '.'], true⟩, ⟨2, ['a'], true⟩]⟩
  else if s = 2 then ⟨true, [⟨2, ['.'], true⟩, ⟨1, ['.', '.'], true⟩, ⟨5, ['a'], true⟩]⟩
  else ⟨false, []⟩

/-! ## Definitions: threads and priorities (threads/thread.c) -/

/-- Lowest priority (`thread.h`). -/
def PRI_MIN : Int := 0

/-- Default priority (`thread.h`). -/
def PRI_DEFAULT : Int := 31

/-- Highest priority (`thread.h`). -/
def PRI_MAX : Int := 63

/-- Size of the `lock_holding` array of a thread (`thread.h`). -/
def MAX_LOCKS : Nat := 10

/-- The `enum thread_status` of `thread.h`. -/
inductive thread_status where
  | THREAD_RUNNING
  | THREAD_READY
  | THREAD_BLOCKED
  | THREAD_DYING
deriving DecidableEq

/-- Modelled from the spec: the `struct lock` of `synch.h`, which is not among
the sources; the two fields that `thread.c` reads and writes. -/
structure lock where
  holder : Option Nat
  priority : Int

/-- The scheduling fields of `struct thread` (`thread.h`). `lock_holding` is the
array of held locks, cell `i` being `lock_holding[i]`; the cells of index
`lock_cnt` and above are not part of the held-lock list. -/
structure thread where
  status : thread_status
  priority : Int
  base_priority : Int
  lock_waiting : Option Nat
  lock_holding : Nat → Option Nat
  lock_cnt : Nat
  nice : Int
  recent_cpu_fp : Int

/-- The global state of `thread.c`: the thread and lock objects by address, the
ready list, the all-threads list, the running thread, the idle thread and the
two scheduler switches. -/
structure Kernel where
  threads : Nat → thread
  locks : Nat → lock
  ready_list : List Nat
  all_list : List Nat
  running : Nat
  idle_thread : Option Nat
  thread_mlfqs : Bool
  thread_pri_sch : Bool

/-- Store a thread object. -/
def Kernel.set_thread (K : Kernel) (t : Nat) (th : thread) : Kernel :=
  { K with threads := fun u => if u = t then th else K.threads u }

/-- Store a lock object. -/
def Kernel.set_lock (K : Kernel) (l : Nat) (lk : lock) : Kernel :=
  { K with locks := fun m => if m = l then lk else K.locks m }

/-- The held-lock list of a thread: the first `lock_cnt` cells of
`lock_holding`. -/
def held_locks (th : thread) : List (Option Nat) :=
  (List.range th.lock_cnt).map th.lock_holding

/-- C `thread_receive_donation (t, priority)`. -/
def thread_receive_donation (K : Kernel) (t : Nat) (priority : Int) : Kernel :=
  K.set_thread t { K.threads t with priority := priority }

/-- The first `for` loop of `thread_restore_priority`: `j` is the loop index,
`h` the array, `cnt` the current `lock_cnt`. A match moves the last held lock
into cell `j`, decrements `lock_cnt` and clears the cell left. The fuel bounds
the number of iterations. -/
def restore_remove_loop (lock : Nat) :
    Nat → Nat → (Nat → Option Nat) → Nat → Bool → Option ((Nat → Option Nat) × Nat × Bool)
  | 0, _, _, _, _ => none
  | fuel + 1, j, h, cnt, found =>
    if j < cnt then
      if h j = some lock then
        restore_remove_loop lock fuel (j + 1)
          (fun i => if i = cnt - 1 then none else if i = j then h (cnt - 1) else h i)
          (cnt - 1) true
      else restore_remove_loop lock fuel (j + 1) h cnt found
    else some (h, cnt, found)

/-- The second `for` loop of `thread_restore_priority` over the held locks:
the running maximum of the lock priorities. A null cell is a null-pointer
dereference (none). -/
def max_priority_loop (locks : Nat → lock) : List (Option Nat) → Int → Option Int
  | [], m => some m
  | none :: _, _ => none
  | some l :: rest, m =>
    max_priority_loop locks rest (if (locks l).priority > m then (locks l).priority else m)

/-- C `thread_restore_priority (t, lock)`. The two `ASSERT`s give none. -/
def thread_restore_priority (K : Kernel) (t : Nat) (lock : Nat) : Option Kernel :=
  let th := K.threads t
  if th.lock_cnt = 0 then none
  else
    match restore_remove_loop lock (th.lock_cnt + 1) 0 th.lock_holding th.lock_cnt false with
    | none => none
    | some (h, cnt, found) =>
      if !found then none
      else if cnt = 0 then
        some (K.set_thread t
          { th with lock_holding := h, lock_cnt := cnt, priority := th.base_priority })
      else
        match h 0 with
        | none => none
        | some l0 =>
          match max_priority_loop K.locks ((List.range cnt).map h) (K.locks l0).priority with
          | none => none
          | some max_priority =>
            some (K.set_thread t
              { th with lock_holding := h, lock_cnt := cnt, priority := max_priority })

/-- The body of the `for` loop of `thread_recursive_set_priority` for the
thread `t`: when `priority` is greater than the priority of `t`, the lock `t`
waits on (if any) and `t` itself receive it. -/
def donate_step (priority : Int) (t : Nat) (K : Kernel) : Kernel :=
  if priority > (K.threads t).priority then
    thread_receive_donation
      (match (K.threads t).lock_waiting with
        | some l => K.set_lock l { K.locks l with priority := priority }
        | none => K)
      t priority
  else K

/-- The `for` loop of `thread_recursive_set_priority`: `t` is the loop variable
(none for a null pointer). The fuel bounds the number of iterations. -/
def donate_loop : Nat → Int → Option Nat → Kernel → Option Kernel
  | _, _, none, K => some K
  | 0, _, some _, _ => none
  | fuel + 1, priority, some t, K =>
    match ((donate_step priority t K).threads t).lock_waiting with
    | none => some (donate_step priority t K)
    | some l =>
      donate_loop fuel priority ((donate_step priority t K).locks l).holder
        (donate_step priority t K)

/-- C `thread_recursive_set_priority (priority)`, run by the running thread. -/
def thread_recursive_set_priority (fuel : Nat) (priority : Int) (K : Kernel) : Option Kernel :=
  match (K.threads K.running).lock_waiting with
  | none => some K
  | some l => donate_loop fuel priority (K.locks l).holder K

/-- C `thread_compare_priority`: strictly greater priority. -/
def thread_compare_priority (K : Kernel) (t1 t2 : Nat) : Bool :=
  decide ((K.threads t1).priority > (K.threads t2).priority)

/-- Modelled from the spec: `list_insert_ordered` of the kernel list library
(`list.c`, not among the sources): the element is inserted before the first
element it is less than, at the end when there is none. -/
def list_insert_ordered (less : Nat → Nat → Bool) (elem : Nat) : List Nat → List Nat
  | [] => [elem]
  | e :: es => if less elem e then elem :: e :: es else e :: list_insert_ordered less elem es

/-- C `thread_unblock (t)`; the `ASSERT` on the status gives none. -/
def thread_unblock (K : Kernel) (t : Nat) : Option Kernel :=
  if (K.threads t).status ≠ thread_status.THREAD_BLOCKED then none
  else
    some ({ K with ready_list := list_insert_ordered (thread_compare_priority K) t K.ready_list
          }.set_thread t { K.threads t with status := thread_status.THREAD_READY })

/-- C `next_thread_to_run`: the thread chosen (none for a null `idle_thread`)
and the state with the ready list popped. -/
def next_thread_to_run (K : Kernel) : Option Nat × Kernel :=
  match K.ready_list with
  | [] => (K.idle_thread, K)
  | t :: rest => (some t, { K with ready_list := rest })

/-- C `next_thread_to_run_PriSch`. -/
def next_thread_to_run_PriSch (K : Kernel) : Option Nat × Kernel :=
  match K.ready_list with
  | [] => (K.idle_thread, K)
  | next :: rest =>
    if (K.threads next).priority ≥ (K.threads K.running).priority
        ∨ (K.threads K.running).status = thread_status.THREAD_DYING
        ∨ (K.threads K.running).status = thread_status.THREAD_BLOCKED then
      (some next, { K with ready_list := rest })
    else (some K.running, { K with ready_list := rest })

/-- C `schedule` followed by `thread_schedule_tail`: the next thread becomes the
running thread and is marked running. The `ASSERT`s give none. -/
def schedule (K : Kernel) : Option Kernel :=
  if (K.threads K.running).status = thread_status.THREAD_RUNNING then none
  else
    match (if K.thread_pri_sch then next_thread_to_run_PriSch K else next_thread_to_run K) with
    | (none, _) => none
    | (some next, K1) =>
      some ({ K1 with running := next }.set_thread next
        { K1.threads next with status := thread_status.THREAD_RUNNING })

/-- C `thread_yield`; `thread_current` asserts that the caller is running. -/
def thread_yield (K : Kernel) : Option Kernel :=
  if (K.threads K.running).status ≠ thread_status.THREAD_RUNNING then none
  else
    let K1 :=
      if some K.running ≠ K.idle_thread then
        { K with ready_list :=
            list_insert_ordered (thread_compare_priority K) K.running K.ready_list }
      else K
    schedule (K1.set_thread K.running
      { K1.threads K.running with status := thread_status.THREAD_READY })

/-- The scan of `thread_yield_on_priority` over the ready list: true when the
loop reaches a thread of strictly greater priority before one of equal
priority. -/
def yield_scan (K : Kernel) (cur_priority : Int) : List Nat → Bool
  | [] => false
  | t :: ts =>
    if (K.threads t).priority > cur_priority then true
    else if (K.threads t).priority = cur_priority then false
    else yield_scan K cur_priority ts

/-- C `thread_yield_on_priority`. -/
def thread_yield_on_priority (K : Kernel) : Option Kernel :=
  if (K.threads K.running).status ≠ thread_status.THREAD_RUNNING then none
  else if yield_scan K (K.threads K.running).priority K.ready_list then thread_yield K
  else some K

/-- C `thread_set_priority (new_priority)`. -/
def thread_set_priority (K : Kernel) (new_priority : Int) : Option Kernel :=
  if !K.thread_mlfqs then
    if (K.threads K.running).status ≠ thread_status.THREAD_RUNNING then none
    else
      let cur := K.threads K.running
      let cur1 := if cur.base_priority = cur.priority then { cur with priority := new_priority }
        else cur
      thread_yield_on_priority
        (K.set_thread K.running { cur1 with base_priority := new_priority })
  else some K

/-- Modelled from the spec: `fp_divide_by_int` of `fixed-point.h` (not among the
sources), 17.14 fixed point: C integer division. -/
def fp_divide_by_int (x : Int) (n : Int) : Int := Int.tdiv x n

/-- Modelled from the spec: `fp_convert_to_int_rdn` of `fixed-point.h` (not
among the sources), 17.14 fixed point: division by `2 ^ 14`. -/
def fp_convert_to_int_rdn (x : Int) : Int := Int.tdiv x (2 ^ 14)

/-- C `thread_calc_priority (t)`: the state after the call (the priority field
is assigned before the range test, which only selects the return value). -/
def thread_calc_priority (K : Kernel) (t : Nat) : Kernel :=
  K.set_thread t { K.threads t with
    priority := PRI_MAX - fp_convert_to_int_rdn (fp_divide_by_int (K.threads t).recent_cpu_fp 4)
      - (K.threads t).nice * 2 }

/-- C `thread_calc_all_priority`: `thread_calc_priority` on every thread of the
all-threads list. -/
def thread_calc_all_priority (K : Kernel) : Kernel :=
  K.all_list.foldl thread_calc_priority K

/-- The ready list is sorted by effective priority, descending. -/
def ready_sorted (K : Kernel) : Prop :=
  K.ready_list.Pairwise (fun a b => (K.threads b).priority ≤ (K.threads a).priority)

/-- Effective priority is at least the base priority, for every thread. -/
def priority_ge_base (K : Kernel) : Prop :=
  ∀ t, (K.threads t).base_priority ≤ (K.threads t).priority

/-- A wait chain from thread `t`: `t` waits on a lock held by the first thread
of the list, each thread of the list waits on a lock held by the next one, and
the last one (or `t` itself for the empty list) waits on no lock. -/
def wait_chain (K : Kernel) : Nat → List Nat → Prop
  | t, [] => (K.threads t).lock_waiting = none
  | t, u :: rest =>
    (∃ l, (K.threads t).lock_waiting = some l ∧ (K.locks l).holder = some u) ∧
      wait_chain K u rest

/-- A thread object with the given priorities, waiting on `w` and holding the
locks `held`. -/
def mk_thread (st : thread_status) (priority base : Int) (w : Option Nat)
    (held : List Nat) : thread :=
  ⟨st, priority, base, w, fun i => held.get? i, held.length, 0, 0⟩

/-- A kernel state used as concrete input. Thread 1 runs (priority 50) and
waits on lock 10, held by thread 2 (priority 30, on the ready list), which
waits on lock 11, held by thread 3 (priority 20). Thread 4 (priority 40) is on
the ready list. Thread 5 (base 31) holds the locks 12 and 13 of priority 20.
Every other thread has base priority 31, a donated priority 40 and holds
lock 14. -/
def sample_kernel : Kernel where
  threads := fun t =>
    if t = 1 then mk_thread thread_status.THREAD_RUNNING 50 50 (some 10) []
    else if t = 2 then mk_thread thread_status.THREAD_READY 30 30 (some 11) [10]
    else if t = 3 then mk_thread thread_status.THREAD_BLOCKED 20 20 none [11]
    else if t = 4 then mk_thread thread_status.THREAD_READY 40 40 none []
    else if t = 5 then mk_thread thread_status.THREAD_BLOCKED 31 31 none [12, 13]
    else mk_thread thread_status.THREAD_BLOCKED 40 31 none [14]
  locks := fun l =>
    if l = 10 then ⟨some 2, 50⟩
    else if l = 11 then ⟨some 3, 30⟩
    else if l = 12 then ⟨some 5, 20⟩
    else if l = 13 then ⟨some 5, 20⟩
    else ⟨some 6, 40⟩
  ready_list := [4, 2]
  all_list := [1, 2, 3, 4, 5, 6]
  running := 1
  idle_thread := some 0
  thread_mlfqs := false
  thread_pri_sch := true

/-- The sample kernel with thread 6 running: base priority 31, donated priority
40. -/
def sample_kernel_donated : Kernel :=
  { sample_kernel with
    running := 6
    threads := fun t =>
      if t = 6 then mk_thread thread_status.THREAD_RUNNING 40 31 none [14]
      else sample_kernel.threads t }

/-! ## Definitions: mlfqs priority and yielding (threads/thread.c) -/

/-- C `thread_calc_priority (t)`: the value returned, 0 when the priority just
assigned is outside `PRI_MIN .. PRI_MAX`. -/
def thread_calc_priority_result (K : Kernel) (t : Nat) : Int :=
  if ¬ (((thread_calc_priority K t).threads t).priority ≥ PRI_MIN ∧
      ((thread_calc_priority K t).threads t).priority ≤ PRI_MAX) then 0
  else ((thread_calc_priority K t).threads t).priority

/-- A value clamped to the range `PRI_MIN .. PRI_MAX`. -/
def clamp_priority (x : Int) : Int :=
  max PRI_MIN (min PRI_MAX x)

/-- The sample kernel with the nice value of thread 4 set to -20 (its
`recent_cpu` is 0). -/
def sample_kernel_nice : Kernel :=
  sample_kernel.set_thread 4 { sample_kernel.threads 4 with nice := -20 }

/-- The sample kernel with thread 7 running at priority 35, below the head of
the ready list (thread 4 of priority 40). -/
def sample_kernel_low : Kernel :=
  { sample_kernel with
    running := 7
    threads := fun t =>
      if t = 7 then mk_thread thread_status.THREAD_RUNNING 35 35 none []
      else sample_kernel.threads t }

/-! ## Definitions: waiting for a child and starting a process
(userprog/process.c, userprog/syscall.c) -/

/-- Modelled from the spec: `sema_up` of `synch.c` (not among the sources) on
the value of a semaphore nobody waits on. -/
def sema_up (value : Nat) : Nat := value + 1

/-- Modelled from the spec: `sema_down` of `synch.c` (not among the sources):
the new value of the semaphore, none when the value is 0 and the caller
blocks until somebody ups the semaphore. -/
def sema_down (value : Nat) : Option Nat :=
  if value = 0 then none else some (value - 1)

/-- The `struct pwait_node_` of `thread.h`, with the value of its semaphore. -/
structure pwait_node_ where
  child_pid : Nat
  status : Int
  waited : Bool
  sema : Nat
deriving DecidableEq

/-- What a call that may block does: it returns a value, or the caller is
put to sleep on a semaphore of value 0. -/
inductive call_result (α : Type) where
  | returned : α → call_result α
  | blocked : call_result α
deriving DecidableEq

/-- The scan of `process_wait` over the `pwait_list`: the position of the
first node whose `child_pid` is `child_tid`. -/
def find_pwait_node (child_tid : Nat) : List pwait_node_ → Nat → Option Nat
  | [], _ => none
  | node :: rest, i =>
    if node.child_pid = child_tid then some i else find_pwait_node child_tid rest (i + 1)

/-- C `process_wait (child_tid)` on the `pwait_list` of the caller: the status
returned and the list afterwards, or the caller blocked in `sema_down`. No
path reads or writes the `waited` flag. -/
def process_wait (pwait_list : List pwait_node_) (child_tid : Nat) :
    call_result (Int × List pwait_node_) :=
  match find_pwait_node child_tid pwait_list 0 with
  | none => call_result.returned (-1, pwait_list)
  | some i =>
    match pwait_list.get? i with
    | none => call_result.returned (-1, pwait_list)
    | some node =>
      match sema_down node.sema with
      | none => call_result.blocked
      | some v => call_result.returned (node.status, pwait_list.set i { node with sema := v })

/-- The exit of a child as `syscall_exit` does it on the wait node the child
shares with its parent: the status is stored and the semaphore is upped. -/
def child_exit (node : pwait_node_) (status : Int) : pwait_node_ :=
  { node with status := status, sema := sema_up node.sema }

/-- How `start_process` ends: by jumping to user code or by `thread_exit`. -/
inductive start_outcome where
  | runs_user_code
  | thread_exits
deriving DecidableEq

/-- C `start_process`: `load_success` is the value `load` returns and
`exec_sema` the value of the semaphore `exec_sema` of the parent. Gives the
value of that semaphore when the function ends and the way it ends. When
`load` fails the function calls `thread_exit` before the `sema_up`; neither
`thread_exit` nor `process_exit` touches `exec_sema`. -/
def start_process (load_success : Bool) (exec_sema : Nat) : Nat × start_outcome :=
  if !load_success then (exec_sema, start_outcome.thread_exits)
  else (sema_up exec_sema, start_outcome.runs_user_code)

/-- C `syscall_exec` after `process_execute` returned `pid`: the parent downs
its own `exec_sema`, then returns -1 when `pid` is `TID_ERROR` or `load_failed`
is set, and `pid` otherwise. -/
def syscall_exec (pid : Int) (load_failed : Bool) (exec_sema : Nat) : call_result Int :=
  match sema_down exec_sema with
  | none => call_result.blocked
  | some _ => call_result.returned (if pid = -1 ∨ load_failed then -1 else pid)

/-! ## Definitions: virtual memory areas and mappings (vm/page.c) -/

/-- Bytes in a page (`vaddr.h`). -/
def PGSIZE : Nat := 4096

/-- Modelled from the spec: `PHYS_BASE`, the end of user space; `vaddr.h` takes
it from `loader.h`, which is not among the sources. `page.c` writes
`PHYS_BASE - 8 MiB` as the literal `0xbf800000`. -/
def PHYS_BASE : Nat := 0xc0000000

/-- C `pg_ofs` (`vaddr.h`). -/
def pg_ofs (va : Nat) : Nat := va % PGSIZE

/-- C `pg_round_down` (`vaddr.h`). -/
def pg_round_down (va : Nat) : Nat := va - va % PGSIZE

/-- The `struct mmap_vma_node` of `thread.h` (the file handle is left out). -/
structure mmap_vma_node where
  fd : Nat
  mapid : Int
  mmap_seg_begin : Nat
  mmap_seg_end : Nat
deriving DecidableEq

/-- The `struct vma` of `thread.h`; `mapid` is a `uint8_t`. -/
structure vma where
  loading_exe : Bool
  mapid : Nat
  code_seg_begin : Nat
  code_seg_end : Nat
  data_seg_begin : Nat
  data_seg_end : Nat
  stack_seg_begin : Nat
  stack_seg_end : Nat
  mmap_vma_list : List mmap_vma_node
deriving DecidableEq

/-- Modelled from the spec: the `enum role` of `page.h`, which is not among the
sources. -/
inductive role where
  | SEG_CODE
  | SEG_DATA
  | SEG_STACK
  | SEG_MMAP
  | SEG_UNUSED
deriving DecidableEq

/-- The memory-management state of one process: the `vma` of its thread and the
user page addresses that have an entry in its supplemental page table (the
`page_list` of its `process_node`). -/
structure vm_thread where
  vma : vma
  page_list : List Nat
deriving DecidableEq

/-- How a kernel path can fail to return. -/
inductive kernel_fault where
  | assertion_failed
  | out_of_fuel
deriving DecidableEq

/-- The value `USE_ADDR` of `page.c`, passed as map-id to search by address. -/
def USE_ADDR : Int := -1

/-- The value `USE_MAPID` of `page.c`, passed as address to search by map-id. -/
def USE_MAPID : Nat := 0

/-- The test in the loop of `page_mmap_seek`. -/
def mmap_seek_match (mapid : Int) (addr : Nat) (mnode : mmap_vma_node) : Bool :=
  decide (mnode.mapid = mapid) ||
    (decide (addr ≥ mnode.mmap_seg_begin) && decide (addr < mnode.mmap_seg_end))

/-- C `page_mmap_seek (t, mapid, addr)`: the first node that matches. -/
def page_mmap_seek (t : vm_thread) (mapid : Int) (addr : Nat) : Option mmap_vma_node :=
  t.vma.mmap_vma_list.find? (mmap_seek_match mapid addr)

/-- C `page_check_role (t, uaddr)`. -/
def page_check_role (t : vm_thread) (uaddr : Nat) : role :=
  if uaddr ≥ t.vma.code_seg_begin ∧ uaddr < t.vma.code_seg_end then role.SEG_CODE
  else if uaddr ≥ 0xbf800000 ∧ uaddr < t.vma.stack_seg_end then role.SEG_STACK
  else if (page_mmap_seek t USE_ADDR uaddr).isSome then role.SEG_MMAP
  else role.SEG_UNUSED

/-- The classification of the specification: a stack address is at or above
`PHYS_BASE - 8 MiB` and lies in the stack extent or at most 32 bytes below the
user stack pointer `esp`. -/
def stack_by_spec (t : vm_thread) (esp : Nat) (a : Nat) : Prop :=
  a ≥ PHYS_BASE - 8 * 1024 * 1024 ∧
    ((t.vma.stack_seg_begin ≤ a ∧ a < t.vma.stack_seg_end) ∨ (a < esp ∧ esp ≤ a + 32))

/-- The loop of `page_mmap_overlap` over the mappings: false as soon as the
range meets a mapping. -/
def mmap_overlap_loop (b e : Nat) : List mmap_vma_node → Bool
  | [] => true
  | mnode :: rest =>
    if ¬ (b ≥ mnode.mmap_seg_end ∨ e ≤ mnode.mmap_seg_begin) then false
    else mmap_overlap_loop b e rest

/-- C `page_mmap_overlap (t, addr, filesize)`; true stands for "no overlap".
The end of the range is computed in 32-bit pointer arithmetic. -/
def page_mmap_overlap (t : vm_thread) (addr filesize : Nat) : Bool :=
  if ¬ (addr ≥ t.vma.code_seg_end ∧ (addr + filesize) % 2 ^ 32 ≤ t.vma.code_seg_begin) then false
  else mmap_overlap_loop addr ((addr + filesize) % 2 ^ 32) t.vma.mmap_vma_list

/-- C `page_allocate_mapid (t)`: the `uint8_t` counter is incremented and its
new value returned. -/
def page_allocate_mapid (t : vm_thread) : Int × vm_thread :=
  (((t.vma.mapid + 1) % 256 : Nat),
    { t with vma := { t.vma with mapid := (t.vma.mapid + 1) % 256 } })

/-- The map-ids returned by `n` successive calls of `page_allocate_mapid`. -/
def page_allocate_mapid_seq : Nat → vm_thread → List Int
  | 0, _ => []
  | n + 1, t => (page_allocate_mapid t).1 :: page_allocate_mapid_seq n (page_allocate_mapid t).2

/-- C `page_mmap_map (t, file, addr)` for a file of `filesize` bytes
(`file_length (file)`): the map-id returned, -1 on failure, and the state
afterwards. `fd` fills the `fd` field of the new node, which the function
itself leaves to its caller. The allocation of the node is taken to succeed. -/
def page_mmap_map (t : vm_thread) (fd : Nat) (filesize : Nat) (addr : Nat) : Int × vm_thread :=
  if pg_ofs addr ≠ 0 ∨ addr = 0 then (-1, t)
  else if filesize = 0 then (-1, t)
  else if page_mmap_overlap t addr filesize then
    ((page_allocate_mapid t).1,
      { (page_allocate_mapid t).2 with
        vma := { (page_allocate_mapid t).2.vma with
          mmap_vma_list := (page_allocate_mapid t).2.vma.mmap_vma_list ++
            [⟨fd, (page_allocate_mapid t).1, addr, (addr + filesize) % 2 ^ 32⟩] } })
  else (-1, t)

/-- C `page_free_page (t, uaddr)` on the page list: the entry of the page of
`uaddr` is deleted; the `ASSERT` fails when there is none. -/
def page_free_page (page_list : List Nat) (uaddr : Nat) : Except kernel_fault (List Nat) :=
  if pg_round_down uaddr ∈ page_list then Except.ok (page_list.erase (pg_round_down uaddr))
  else Except.error kernel_fault.assertion_failed

/-- The `while` loop of `page_free_multiple`. -/
def page_free_loop : Nat → List Nat → Nat → Nat → Except kernel_fault (List Nat)
  | 0, _, _, _ => Except.error kernel_fault.out_of_fuel
  | fuel + 1, page_list, b, e =>
    if b < e then
      match page_free_page page_list b with
      | Except.error f => Except.error f
      | Except.ok pl => page_free_loop fuel pl (b + PGSIZE) e
    else Except.ok page_list

/-- C `page_free_multiple (t, begin, end)`. -/
def page_free_multiple (page_list : List Nat) (b e : Nat) : Except kernel_fault (List Nat) :=
  if ¬ b < e then Except.error kernel_fault.assertion_failed
  else page_free_loop ((e - pg_round_down b) / PGSIZE + 2) page_list (pg_round_down b) e

/-- C `page_mmap_unmap (t, mapid)`. -/
def page_mmap_unmap (t : vm_thread) (mapid : Int) : Except kernel_fault vm_thread :=
  match page_mmap_seek t mapid USE_MAPID with
  | none => Except.ok t
  | some mnode =>
    match page_free_multiple t.page_list mnode.mmap_seg_begin mnode.mmap_seg_end with
    | Except.error f => Except.error f
    | Except.ok pl =>
      Except.ok ⟨{ t.vma with
        mmap_vma_list := List.eraseP (mmap_seek_match mapid USE_MAPID) t.vma.mmap_vma_list }, pl⟩

/-- A process state used as concrete input: code at 0x08048000 .. 0x08049000,
stack extent 0xbffff000 .. 0xc0000000, one file of 4097 bytes mapped with
map-id 1 at 0x10000000, and no page of the mapping in the page table. -/
def sample_vm : vm_thread where
  vma := {
    loading_exe := false
    mapid := 1
    code_seg_begin := 0x08048000
    code_seg_end := 0x08049000
    data_seg_begin := 0
    data_seg_end := 0
    stack_seg_begin := 0xbffff000
    stack_seg_end := 0xc0000000
    mmap_vma_list := [⟨3, 1, 0x10000000, 0x10001001⟩] }
  page_list := [0x08048000, 0xbffff000]

/-- The sample process before any mapping was made. -/
def sample_vm_fresh : vm_thread :=
  { sample_vm with vma := { sample_vm.vma with mapid := 0, mmap_vma_list := [] } }

/-! ## Definitions: the index tree of an inode (filesys/index.c) -/

/-- Bytes in a sector (`block.h`). -/
def BLOCK_SECTOR_SIZE : Nat := 512

/-- Modelled from the spec: `DIRECT_BLOCKS` of `inode.h`, which is not among
the sources: "12 direct pointers". -/
def DIRECT_BLOCKS : Nat := 12

/-- C `INDIRECT_PER_BLOCK`: sector numbers in one index block. -/
def INDIRECT_PER_BLOCK : Nat := BLOCK_SECTOR_SIZE / 4

/-- C `MAX_FILE_SECTORS`. -/
def MAX_FILE_SECTORS : Nat :=
  DIRECT_BLOCKS + INDIRECT_PER_BLOCK + INDIRECT_PER_BLOCK * INDIRECT_PER_BLOCK

/-- The three `uint8_t` outputs of `index_where_the_sector`. -/
structure index_position where
  level : Nat
  idx1 : Nat
  idx2 : Nat
deriving DecidableEq

/-- Subtraction of 32-bit unsigned integers. -/
def sub32 (a b : Nat) : Nat := (a + 2 ^ 32 - b % 2 ^ 32) % 2 ^ 32

/-- C `index_where_the_sector (length, &level, &idx1, &idx2)` for a length that
is not negative; none for the `PANIC`. `sectors` is a `uint32_t`, the outputs
are `uint8_t`. -/
def index_where_the_sector (length : Nat) : Option index_position :=
  let sectors := ((length + BLOCK_SECTOR_SIZE - 1) / BLOCK_SECTOR_SIZE) % 2 ^ 32
  if sectors ≥ MAX_FILE_SECTORS then none
  else if sectors ≤ DIRECT_BLOCKS then some ⟨0, sub32 sectors 1 % 256, 255⟩
  else
    let sectors1 := sub32 sectors DIRECT_BLOCKS
    if sectors1 > INDIRECT_PER_BLOCK then
      let sectors2 := sub32 sectors1 (DIRECT_BLOCKS + INDIRECT_PER_BLOCK)
      let idx1 := (sub32 sectors2 1 / INDIRECT_PER_BLOCK) % 256
      some ⟨2, idx1, sub32 (sub32 sectors2 ((INDIRECT_PER_BLOCK * idx1) % 2 ^ 32)) 1 % 256⟩
    else some ⟨1, sub32 sectors1 1 % 256, 255⟩

/-- The fields of `struct inode_disk` that `index.c` uses: the length and the
roots of the index tree (`direct` is the array of direct sector numbers). -/
structure inode_disk_map where
  length : Nat
  direct : Nat → Nat
  indirect : Nat
  double_indirect : Nat

/-- Modelled from the spec: the free map (`free-map.c`) and the buffer cache
(`cache.c`), which are not among the sources. `free` lists the sectors that
`free_map_allocate (1, &sector)` hands out, in order; `blocks s i` is entry `i`
of sector `s` read as an array of sector numbers. -/
structure index_disk where
  free : List Nat
  blocks : Nat → Nat → Nat

/-- Modelled from the spec: `cache_write (sector, table, true)`. -/
def cache_write (st : index_disk) (sector : Nat) (table : Nat → Nat) : index_disk :=
  { st with blocks := fun s => if s = sector then table else st.blocks s }

/-- C `index_allocate_single_sector (&sector)`: the result, the value of
`*sector` afterwards (`old` when the allocation fails) and the disk. -/
def index_allocate_single_sector (st : index_disk) (old : Nat) : Bool × Nat × index_disk :=
  match st.free with
  | [] => (false, old, st)
  | s :: rest => (true, s, cache_write { st with free := rest } s (fun _ => 0))

/-- One turn of the `while` loop of `index_extend` for the position
`(level, idx1, idx2)`: the inode and the disk afterwards. The results of
`index_allocate_single_sector` are dropped, as in the source. In the branch of
level 2 the first-level table is a fresh zeroed buffer that is never read
from disk. -/
def index_extend_step (st : index_disk) (data : inode_disk_map) (pos : index_position) :
    Except kernel_fault (inode_disk_map × index_disk) :=
  if pos.level = 0 then
    let r := index_allocate_single_sector st (data.direct pos.idx1)
    Except.ok ({ data with direct := fun i => if i = pos.idx1 then r.2.1 else data.direct i },
      r.2.2)
  else if pos.level = 1 then
    let r0 := if data.indirect = 0 then index_allocate_single_sector st data.indirect
      else (true, data.indirect, st)
    let data1 := { data with indirect := r0.2.1 }
    let table := r0.2.2.blocks data1.indirect
    if table pos.idx1 ≠ 0 then Except.error kernel_fault.assertion_failed
    else
      let r1 := index_allocate_single_sector r0.2.2 (table pos.idx1)
      Except.ok (data1,
        cache_write r1.2.2 data1.indirect (fun i => if i = pos.idx1 then r1.2.1 else table i))
  else if pos.level = 2 then
    let r0 := if data.double_indirect = 0 then
        index_allocate_single_sector st data.double_indirect
      else (true, data.double_indirect, st)
    let data1 := { data with double_indirect := r0.2.1 }
    let table2 := r0.2.2.blocks data1.double_indirect
    let r1 := if table2 pos.idx1 = 0 then index_allocate_single_sector r0.2.2 (table2 pos.idx1)
      else (true, table2 pos.idx1, r0.2.2)
    let table2a : Nat → Nat := fun i => if i = pos.idx1 then r1.2.1 else table2 i
    let r2 := index_allocate_single_sector r1.2.2 0
    let table1 : Nat → Nat := fun i => if i = pos.idx2 then r2.2.1 else 0
    Except.ok (data1,
      cache_write (cache_write r2.2.2 data1.double_indirect table2a) (table2a pos.idx1) table1)
  else Except.error kernel_fault.assertion_failed

/-- The `while` loop of `index_extend`; `now_length` is the local variable. -/
def index_extend_loop : Nat → index_disk → inode_disk_map → Nat → Nat →
    Except kernel_fault (Bool × inode_disk_map × index_disk)
  | 0, _, _, _, _ => Except.error kernel_fault.out_of_fuel
  | fuel + 1, st, data, now_length, new_length =>
    if now_length < new_length then
      match index_where_the_sector (now_length + BLOCK_SECTOR_SIZE) with
      | none => Except.error kernel_fault.assertion_failed
      | some pos =>
        match index_extend_step st data pos with
        | Except.error f => Except.error f
        | Except.ok (data1, st1) =>
          index_extend_loop fuel st1 data1 (now_length + BLOCK_SECTOR_SIZE) new_length
    else Except.ok (true, data, st)

/-- C `ROUND_UP (x, BLOCK_SECTOR_SIZE)` (`round.h`). -/
def round_up_sector (x : Nat) : Nat :=
  (x + BLOCK_SECTOR_SIZE - 1) / BLOCK_SECTOR_SIZE * BLOCK_SECTOR_SIZE

/-- C `index_extend (data, new_length)`: the result, the inode and the disk
afterwards. -/
def index_extend (st : index_disk) (data : inode_disk_map) (new_length : Nat) :
    Except kernel_fault (Bool × inode_disk_map × index_disk) :=
  if round_up_sector data.length ≥ new_length then Except.ok (true, data, st)
  else index_extend_loop (new_length / BLOCK_SECTOR_SIZE + 2) st data data.length new_length

/-- An empty inode: length 0, no sector in its index tree. -/
def empty_inode : inode_disk_map := ⟨0, fun _ => 0, 0, 0⟩

/-- A disk whose free map has no free sector. -/
def full_disk : index_disk := ⟨[], fun _ _ => 0⟩

/-- An inode of 100 bytes whose only sector is sector 10, in direct slot 0. -/
def inode_100 : inode_disk_map := ⟨100, fun i => if i = 0 then 10 else 0, 0, 0⟩

/-- A disk whose free map hands out the sectors 50, 51, 52 and 53. -/
def sample_index_disk : index_disk := ⟨[50, 51, 52, 53], fun _ _ => 0⟩

/-- An inode of 153 sectors whose double-indirect block is sector 20. -/
def inode_153 : inode_disk_map := ⟨153 * 512, fun i => 30 + i, 19, 20⟩

/-- A disk on which sector 20 is a second-level table whose entry 0 names the
first-level table in sector 21, whose entry 0 names the data sector 22. -/
def sample_tree_disk : index_disk :=
  ⟨[50, 51], fun s i =>
    if s = 20 ∧ i = 0 then 21 else if s = 21 ∧ i = 0 then 22 else 0⟩

/-! ## Definitions: the argument stack of a new process (userprog/process.c) -/

/-- Size of the `argv` array of `process_push_arguments` (`process.h`). -/
def MAX_CMDLINE_TOKENS : Nat := 32

/-- User memory: the byte stored at each address. -/
abbrev Memory := Nat → Nat

/-- First phase of `strtok_r (s, delimiters, &save_ptr)` for the one delimiter
`d`: skip delimiters. -/
def skip_delims_of (d : Char) : List Char → List Char
  | [] => []
  | c :: cs => if c = d then skip_delims_of d cs else c :: cs

/-- Second phase of `strtok_r` for the one delimiter `d`: the token and the
text left at the save pointer. -/
def take_token_of (d : Char) : List Char → List Char × List Char
  | [] => ([], [])
  | c :: cs =>
    if c = d then ([], cs)
    else ((c :: (take_token_of d cs).1), (take_token_of d cs).2)

/-- C `strtok_r (s, delimiters, &save_ptr)` for the one delimiter `d`. -/
def strtok_r_of (d : Char) (s : List Char) : Option (List Char × List Char) :=
  match skip_delims_of d s with
  | [] => none
  | c :: cs => some (take_token_of d (c :: cs))

/-- All pieces of a string between occurrences of `d`, empty pieces
included. -/
def split_on_delim (d : Char) : List Char → List (List Char)
  | [] => [[]]
  | c :: cs =>
    if c = d then [] :: split_on_delim d cs
    else
      match split_on_delim d cs with
      | [] => [[c]]
      | p :: ps => (c :: p) :: ps

/-- The tokens of a string: its maximal non-empty pieces free of `d`. -/
def tokens_of (d : Char) (s : List Char) : List (List Char) :=
  (split_on_delim d s).filter (fun t => decide (t ≠ []))

/-- C `strlcpy ((char *) a, token, strlen (token) + 1)`: the bytes of the token
and the terminating NUL are stored from address `a` on. -/
def write_string (m : Memory) (a : Nat) (token : List Char) : Memory :=
  fun x =>
    if a ≤ x ∧ x < a + token.length then (token.getD (x - a) ' ').toNat
    else if x = a + token.length then 0
    else m x

/-- A store of the 32-bit word `v` at address `a`, little-endian. -/
def write_word (m : Memory) (a v : Nat) : Memory :=
  fun x =>
    if x = a then v % 256
    else if x = a + 1 then v / 256 % 256
    else if x = a + 2 then v / 65536 % 256
    else if x = a + 3 then v / 16777216 % 256
    else m x

/-- The 32-bit word at address `a`, little-endian. -/
def read_word (m : Memory) (a : Nat) : Nat :=
  m a + 256 * m (a + 1) + 65536 * m (a + 2) + 16777216 * m (a + 3)

/-- The memory holds a NUL-terminated copy of the string at address `p`. -/
def string_at (m : Memory) (p : Nat) (s : List Char) : Prop :=
  (∀ j, j < s.length → m (p + j) = (s.getD j ' ').toNat) ∧ m (p + s.length) = 0

/-- The first `for` loop of `process_push_arguments`: every token is copied
below the stack pointer and its address entered in `argv` (the list holds
`argv[0 .. argc - 1]`). A token beyond the end of the `argv` array is a write
out of bounds (none). The fuel bounds the number of iterations. -/
def push_tokens_loop : Nat → List Char → Nat → Memory → List Nat →
    Option (Nat × Memory × List Nat)
  | 0, _, _, _, _ => none
  | fuel + 1, s, esp, m, argv =>
    match strtok_r_of ' ' s with
    | none => some (esp, m, argv)
    | some (token, save_ptr) =>
      if argv.length ≥ MAX_CMDLINE_TOKENS then none
      else
        push_tokens_loop fuel save_ptr (sub32 esp (token.length + 1))
          (write_string m (sub32 esp (token.length + 1)) token)
          (argv ++ [sub32 esp (token.length + 1)])

/-- The `while` loop that aligns the stack pointer to 4 bytes. -/
def align_stack : Nat → Nat → Nat
  | 0, esp => esp
  | fuel + 1, esp => if esp % 4 ≠ 0 then align_stack fuel (sub32 esp 1) else esp

/-- The `for` loop that pushes `argv[j]` for `j` from `n - 1` down to 0,
skipping null entries (the entries from `argc` on are null). -/
def push_argv_loop (argv : List Nat) : Nat → Nat → Memory → Nat × Memory
  | 0, esp, m => (esp, m)
  | j + 1, esp, m =>
    if argv.getD j 0 = 0 then push_argv_loop argv j esp m
    else push_argv_loop argv j (sub32 esp 4) (write_word m (sub32 esp 4) (argv.getD j 0))

/-- The part of `process_push_arguments` behind the first loop, for the stack
pointer `esp1`, the memory `m1` and the array `argv` the loop leaves: align,
push the terminating null pointer, the `argv` entries, `argv`, `argc` and the
dummy return address. -/
def push_frame (esp1 : Nat) (m1 : Memory) (argv : List Nat) : Nat × Memory :=
  let esp3 := sub32 (align_stack 4 esp1) 4
  let m3 := write_word m1 esp3 0
  let r := push_argv_loop argv MAX_CMDLINE_TOKENS esp3 m3
  let esp5 := sub32 r.1 4
  let m5 := write_word r.2 esp5 ((esp5 + 4) % 2 ^ 32)
  let esp6 := sub32 esp5 4
  let m6 := write_word m5 esp6 argv.length
  let esp7 := sub32 esp6 4
  (esp7, write_word m6 esp7 0)

/-- C `process_push_arguments (esp, args)` on the memory `m`: the stack pointer
returned and the memory afterwards. -/
def process_push_arguments (esp : Nat) (args : List Char) (m : Memory) : Option (Nat × Memory) :=
  match push_tokens_loop (args.length + 1) args esp m [] with
  | none => none
  | some (esp1, m1, argv) => some (push_frame esp1 m1 argv)

/-- The first loop of `process_push_arguments` read over the list of tokens
that `strtok_r` delivers. -/
def push_strings : List (List Char) → Nat → Memory → List Nat →
    Option (Nat × Memory × List Nat)
  | [], esp, m, argv => some (esp, m, argv)
  | token :: rest, esp, m, argv =>
    if argv.length ≥ MAX_CMDLINE_TOKENS then none
    else
      push_strings rest (sub32 esp (token.length + 1))
        (write_string m (sub32 esp (token.length + 1)) token)
        (argv ++ [sub32 esp (token.length + 1)])

/-- The bytes that the strings of the tokens take on the stack. -/
def strings_size (tokens : List (List Char)) : Nat :=
  (tokens.map (fun t => t.length + 1)).sum

/-! ## Definitions: waking sleeping threads (threads/thread.c) -/

/-- The value `INT32_MAX` of `stdint.h`. -/
def INT32_MAX : Int := 2147483647

/-- Conversion of an integer to `int32_t`. -/
def to_int32 (x : Int) : Int := (x + 2 ^ 31) % 2 ^ 32 - 2 ^ 31

/-- The state of `thread.c` that `thread_wakeUp` works on: the kernel, the
sleep list (threads by address, front first), the `wake_time` field of every
thread (an `int64_t`) and the global `time_to_wake` (an `int32_t`). -/
structure Sleep where
  kernel : Kernel
  sleep_list : List Nat
  wake_time : Nat → Int
  time_to_wake : Int

/-- The update of the pair (`first_min`, `second_min`) in one turn of the loop
of `thread_wakeUp`; both are `int32_t`, the comparisons are made in 64 bits. -/
def wakeUp_minima (wake_time : Int) (m : Int × Int) : Int × Int :=
  if wake_time < m.1 then (to_int32 wake_time, m.1)
  else if wake_time < m.2 ∧ wake_time ≠ m.1 then (m.1, to_int32 wake_time)
  else m

/-- The `for` loop of `thread_wakeUp` over the elements of the sleep list from
the current one on: the kernel, the elements left on the list and the two
minima; none when the `ASSERT` of `thread_unblock` fails. -/
def thread_wakeUp_loop (wake_time : Nat → Int) (wakeTime : Int) :
    List Nat → Kernel → Int × Int → Option (Kernel × List Nat × (Int × Int))
  | [], K, m => some (K, [], m)
  | t :: rest, K, m =>
    if wake_time t = wakeTime then
      match thread_unblock K t with
      | none => none
      | some K1 =>
        thread_wakeUp_loop wake_time wakeTime rest K1 (wakeUp_minima (wake_time t) m)
    else
      match thread_wakeUp_loop wake_time wakeTime rest K (wakeUp_minima (wake_time t) m) with
      | none => none
      | some (K1, kept, m1) => some (K1, t :: kept, m1)

/-- C `thread_wakeUp (wakeTime)`. -/
def thread_wakeUp (S : Sleep) (wakeTime : Int) : Option Sleep :=
  if S.sleep_list = [] then some S
  else
    match thread_wakeUp_loop S.wake_time wakeTime S.sleep_list S.kernel
        (INT32_MAX, INT32_MAX) with
    | none => none
    | some (K, kept, m) =>
      let time_to_wake1 := if kept = [] then -1 else S.time_to_wake
      some ⟨K, kept, S.wake_time, if m.2 ≠ INT32_MAX then m.2 else time_to_wake1⟩

/-- A sleep list used as concrete input, on the sample kernel: the blocked
threads 3, 5 and 6 sleep until the ticks 100, 250 and 100; the next wake-up
is due at tick 100. -/
def sample_sleep : Sleep :=
  ⟨sample_kernel, [3, 5, 6], fun t => if t = 5 then 250 else 100, 100⟩

/-- A sleep list on which thread 5 sleeps until tick `INT32_MAX` and thread 3
until tick 100. -/
def sample_sleep_late : Sleep :=
  ⟨sample_kernel, [3, 5], fun t => if t = 5 then INT32_MAX else 100, 100⟩

/-- The invariant of the two minima after the values `P` were seen. -/
def minima_inv (P : List Int) (m : Int × Int) : Prop :=
  (∀ x ∈ P, m.1 ≤ x) ∧ (m.1 = INT32_MAX ∨ m.1 ∈ P) ∧
  (∀ x ∈ P, x ≠ m.1 → m.2 ≤ x) ∧ (m.2 = INT32_MAX ∨ (m.2 ∈ P ∧ m.2 ≠ m.1))

/-! ## Definitions: checking a segment of an executable (userprog/process.c) -/

/-- C `PGMASK` (`vaddr.h`): the bits of the offset in a page. -/
def PGMASK : Nat := ((1 <<< 12) - 1) <<< 0

/-- C `is_user_vaddr` (`vaddr.h`). -/
def is_user_vaddr (vaddr : Nat) : Bool := decide (vaddr < PHYS_BASE)

/-- The `struct Elf32_Phdr` of `process.c`; every field is a 32-bit unsigned
integer. -/
structure Elf32_Phdr where
  p_type : Nat
  p_offset : Nat
  p_vaddr : Nat
  p_paddr : Nat
  p_filesz : Nat
  p_memsz : Nat
  p_flags : Nat
  p_align : Nat
deriving DecidableEq

/-- C `validate_segment (phdr, file)` for a file of `file_length` bytes
(`file_length (file)`, an `off_t` that the test converts to `Elf32_Off`). The
sum `p_vaddr + p_memsz` is computed in 32 bits. -/
def validate_segment (phdr : Elf32_Phdr) (file_length : Int) : Bool :=
  if phdr.p_offset &&& PGMASK ≠ phdr.p_vaddr &&& PGMASK then false
  else if phdr.p_offset > (file_length % 2 ^ 32).toNat then false
  else if phdr.p_memsz < phdr.p_filesz then false
  else if phdr.p_memsz = 0 then false
  else if !is_user_vaddr phdr.p_vaddr then false
  else if !is_user_vaddr ((phdr.p_vaddr + phdr.p_memsz) % 2 ^ 32) then false
  else if (phdr.p_vaddr + phdr.p_memsz) % 2 ^ 32 < phdr.p_vaddr then false
  else if phdr.p_vaddr < PGSIZE then false
  else true

/-- A loadable segment used as concrete input: 0x2345 bytes of file content at
offset 0x1000, loaded at 0x08048000 into 0x3000 bytes of memory. -/
def sample_phdr : Elf32_Phdr := ⟨1, 0x1000, 0x08048000, 0x08048000, 0x2345, 0x3000, 5, 0x1000⟩

/-! ## Definitions: the supplemental page table (vm/page.c) -/

/-- Modelled from the spec: the `enum location` of `page.h`, which is not among
the sources: "location ∈ {Memory, NotPresent, Swap}". -/
inductive location where
  | LOC_MEMORY
  | LOC_NOT_PRESENT
  | LOC_SWAP
deriving DecidableEq

/-- The `struct page_node` of `page.h` as `page_add_page` fills it; `sharing`
is the value of `flags & PG_SHARING`. -/
structure page_node where
  owner : Nat
  upage : Nat
  sharing : Nat
  loc : location
  frame_node : Option Nat
  role : role
deriving DecidableEq

/-- The supplemental page tables: for each pid the elements of the `page_list`
hash of its `process_node`, none when `process_list` has no node of that pid. -/
abbrev process_list := Nat → Option (List page_node)

/-- What `page.c` reads of a `struct thread`: its `tid`, and for each user
address whether `lookup_page (t->pagedir, uaddr, false)` finds a page-table
entry. -/
structure page_thread where
  tid : Nat
  pagedir : Nat → Bool

/-- C `page_hash_less`. -/
def page_hash_less (node1 node2 : page_node) : Bool :=
  decide (node1.upage < node2.upage)

/-- Modelled from the spec: `hash_find` of `lib/kernel/hash.c`, which is not
among the sources: the element of the table that is equal to the key, two
elements being equal when neither is less than the other. -/
def hash_find (h : List page_node) (key : page_node) : Option page_node :=
  h.find? (fun n => !page_hash_less n key && !page_hash_less key n)

/-- Modelled from the spec: `hash_insert` of `lib/kernel/hash.c`, which is not
among the sources: the equal element already in the table, and the table left
as it is, or null and the table with the new element. -/
def hash_insert (h : List page_node) (new : page_node) : Option page_node × List page_node :=
  match hash_find h new with
  | some old => (some old, h)
  | none => (none, new :: h)

/-- C `find_process_node (t)`: the page hash of the process. -/
def find_process_node (pl : process_list) (t : page_thread) : Option (List page_node) :=
  pl t.tid

/-- C `find_page_node (pnode, uaddr)`; the key has only its `upage` set. -/
def find_page_node (pnode : List page_node) (uaddr : Nat) : Option page_node :=
  hash_find pnode ⟨0, pg_round_down uaddr, 0, location.LOC_NOT_PRESENT, none, role.SEG_UNUSED⟩

/-- C `page_add_page (t, uaddr, flags, loc, role)`: the node returned (none for
`NULL`) and the tables afterwards; a failed `ASSERT` is a fault. `sharing` is
the value of `flags & PG_SHARING`; the `malloc` of the node is taken to
succeed. -/
def page_add_page (pl : process_list) (t : page_thread) (uaddr sharing : Nat) (loc : location)
    (r : role) : Except kernel_fault (Option page_node × process_list) :=
  if r = role.SEG_UNUSED then Except.error kernel_fault.assertion_failed
  else if loc = location.LOC_MEMORY ∧ t.pagedir uaddr = false then
    Except.error kernel_fault.assertion_failed
  else
    let node : page_node := ⟨t.tid, pg_round_down uaddr, sharing, loc, none, r⟩
    match find_process_node pl t with
    | none => Except.error kernel_fault.assertion_failed
    | some page_list =>
      if ¬ page_list.length ≤ 1024 then Except.error kernel_fault.assertion_failed
      else
        match hash_insert page_list node with
        | (some _, _) => Except.ok (none, pl)
        | (none, page_list1) =>
          Except.ok (some node, fun pid => if pid = t.tid then some page_list1 else pl pid)

/-- C `page_seek (t, uaddr)`. -/
def page_seek (pl : process_list) (t : page_thread) (uaddr : Nat) : Option page_node :=
  match find_process_node pl t with
  | none => none
  | some page_list => find_page_node page_list uaddr

/-- The pages of a table are pairwise different. -/
def pages_unique (h : List page_node) : Prop :=
  h.Pairwise (fun a b => a.upage ≠ b.upage)

/-- Page tables used as concrete input: process 7 has the code page 0x08048000
in memory and the stack page 0xbffff000 not present; no other process is
registered. -/
def sample_spt : process_list := fun pid =>
  if pid = 7 then
    some [⟨7, 0x08048000, 0, location.LOC_MEMORY, some 1, role.SEG_CODE⟩,
      ⟨7, 0xbffff000, 0, location.LOC_NOT_PRESENT, none, role.SEG_STACK⟩]
  else none

/-- The thread of process 7, without any page-table entry. -/
def sample_page_thread : page_thread := ⟨7, fun _ => false⟩

/-! ## Definitions: changing the working directory (userprog/syscall.c) -/

/-- C `syscall_chdir`: the value returned to the user and the `wd` field of the
thread afterwards; none when `dir_parse` does not return. The pointer taken
from the user stack goes to `dir_parse` unchecked. -/
def syscall_chdir (fs : Disk) (wd : Nat) (dir : Option (List Char)) : Option (Bool × Nat) :=
  match dir_parse fs wd dir with
  | none => none
  | some dir_sector => if dir_sector = 0 then some (false, wd) else some (true, dir_sector)

/-! ## Theorems: path parsing -/

theorem components_nil : components [] = [] := by
  simp [components, split_slash]

theorem components_cons_slash (cs : List Char) : components ('/' :: cs) = components cs := by
  simp [components, split_slash]

theorem split_slash_take_token (s : List Char) :
    ∃ Y, split_slash s = (take_token s).1 :: Y ∧
      Y.filter (fun t => decide (t ≠ [])) = components (take_token s).2 := by
  induction s with
  | nil => exact ⟨[], by simp [split_slash, take_token], by simp [take_token, components_nil]⟩
  | cons c cs ih =>
    by_cases hc : c = '/'
    · subst hc
      exact ⟨split_slash cs, by simp [split_slash, take_token], by simp [take_token, components]⟩
    · obtain ⟨Y, hY, hf⟩ := ih
      refine ⟨Y, ?_, ?_⟩
      · simp [split_slash, take_token, hc, hY]
      · simpa [take_token, hc] using hf

theorem components_take_token (c : Char) (cs : List Char) (hc : c ≠ '/') :
    components (c :: cs) = (take_token (c :: cs)).1 :: components (take_token (c :: cs)).2 := by
  obtain ⟨Y, hY, hf⟩ := split_slash_take_token (c :: cs)
  have h1 : (take_token (c :: cs)).1 ≠ [] := by simp [take_token, hc]
  unfold components at hf ⊢
  rw [hY, List.filter_cons, hf]
  simp [h1]

theorem components_skip_delims (s : List Char) : components (skip_delims s) = components s := by
  induction s with
  | nil => simp [skip_delims]
  | cons c cs ih =>
    by_cases hc : c = '/'
    · subst hc
      simp [skip_delims, components_cons_slash, ih]
    · simp [skip_delims, hc]

theorem skip_delims_head (s : List Char) (c : Char) (cs : List Char)
    (h : skip_delims s = c :: cs) : c ≠ '/' := by
  induction s with
  | nil => simp [skip_delims] at h
  | cons a as ih =>
    by_cases ha : a = '/'
    · subst ha
      simp only [skip_delims, if_true] at h
      exact ih h
    · simp only [skip_delims, ha, if_false] at h
      cases h
      exact ha

theorem skip_delims_length (s : List Char) : (skip_delims s).length ≤ s.length := by
  induction s with
  | nil => simp [skip_delims]
  | cons a as ih =>
    by_cases ha : a = '/'
    · subst ha
      simp only [skip_delims, if_true, List.length_cons]
      omega
    · simp [skip_delims, ha]

theorem take_token_length (s : List Char) : (take_token s).2.length ≤ s.length := by
  induction s with
  | nil => simp [take_token]
  | cons a as ih =>
    by_cases ha : a = '/'
    · subst ha
      simp [take_token]
    · simp only [take_token, ha, if_false, List.length_cons]
      omega

theorem take_token_length_cons (c : Char) (cs : List Char) :
    (take_token (c :: cs)).2.length ≤ cs.length := by
  by_cases hc : c = '/'
  · subst hc
    simp [take_token]
  · simp only [take_token, hc, if_false]
    exact take_token_length cs

/-- With more fuel than bytes in the text, the loop of `dir_parse` ends and
returns what the walk over the components of the text returns. -/
theorem dir_parse_loop_eq (fs : Disk) :
    ∀ (fuel : Nat) (s : List Char) (d : Option dir) (ret : Nat), s.length < fuel →
      dir_parse_loop fs fuel s d ret = some (token_walk fs d ret (components s)) := by
  intro fuel
  induction fuel with
  | zero => intro s d ret h; omega
  | succ n ih =>
    intro s d ret h
    unfold dir_parse_loop strtok_r
    cases hs : skip_delims s with
    | nil =>
      have : components s = [] := by rw [← components_skip_delims, hs, components_nil]
      simp [this, token_walk]
    | cons c cs =>
      have hc := skip_delims_head s c cs hs
      have hcomp : components s = (take_token (c :: cs)).1 :: components (take_token (c :: cs)).2 := by
        rw [← components_skip_delims, hs, components_take_token c cs hc]
      have hlen : (take_token (c :: cs)).2.length < n := by
        have h1 := take_token_length_cons c cs
        have h2 := skip_delims_length s
        rw [hs, List.length_cons] at h2
        omega
      rw [hcomp]
      cases d with
      | none => simp [token_walk]
      | some dd =>
        simp only [token_walk]
        cases hl : dir_lookup fs dd (take_token (c :: cs)).1 with
        | none => simp
        | some sector => simp [ih _ _ _ hlen]

/-- For a non-empty path of fewer than 64 bytes `dir_parse` returns, and the
value is the walk over the components of the path. -/
theorem dir_parse_eq (fs : Disk) (wd : Nat) (c : Char) (cs : List Char)
    (hlen : (c :: cs).length < 64) :
    dir_parse fs wd (some (c :: cs)) =
      some (parse_walk fs wd (decide (c = '/')) (components (c :: cs))) := by
  unfold dir_parse parse_walk
  have h64 : ¬ 64 ≤ (c :: cs).length := by omega
  simp only [h64, if_false]
  by_cases hc : c = '/'
  · subst hc
    cases hd : dir_open fs ROOT_DIR_SECTOR with
    | none => simp [hd]
    | some d =>
      simp only [hd, ne_eq, not_true_eq_false, decide_False, decide_True, if_true,
        Bool.false_eq_true, if_false]
      exact dir_parse_loop_eq fs _ _ _ _ (by omega)
  · cases hd : dir_open fs wd with
    | none => simp [hd, hc]
    | some d =>
      simp only [hd, hc, ne_eq, not_false_eq_true, decide_True, decide_False, if_true,
        Bool.false_eq_true, if_false]
      exact dir_parse_loop_eq fs _ _ _ _ (by omega)

theorem lookup_from_sector (name : List Char) (es : List dir_entry) (ofs : Nat) :
    (lookup_from name es ofs).map (fun r => r.1.inode_sector) =
      (es.find? (fun e => e.in_use && decide (e.name = name))).map (fun e => e.inode_sector) := by
  induction es generalizing ofs with
  | nil => rfl
  | cons e es ih =>
    have hsym : (e.in_use && decide (name = e.name)) = (e.in_use && decide (e.name = name)) := by
      congr 1
      exact decide_eq_decide.mpr eq_comm
    cases hb : (e.in_use && decide (e.name = name)) with
    | true =>
      rw [hb] at hsym
      rw [List.find?_cons, hb]
      unfold lookup_from
      rw [hsym]
      rfl
    | false =>
      rw [hb] at hsym
      rw [List.find?_cons, hb]
      unfold lookup_from
      rw [hsym]
      exact ih (ofs + 1)

theorem dir_lookup_eq (fs : Disk) (d : dir) (name : List Char) :
    dir_lookup fs d name = entry_sector fs d.inode name := by
  have h := lookup_from_sector name (fs d.inode).entries 0
  unfold dir_lookup entry_sector lookup
  rw [← h]
  cases lookup_from name (fs d.inode).entries 0 with
  | none => rfl
  | some r => rfl

theorem token_walk_after_open (fs : Disk) :
    ∀ (cs : List (List Char)) (s : Nat),
      token_walk fs (dir_open fs s) s cs =
        if cs = [] then s else if (fs s).is_dir then reference_walk fs s cs else 0 := by
  intro cs
  induction cs with
  | nil => intro s; simp [token_walk]
  | cons c cs ih =>
    intro s
    by_cases hd : (fs s).is_dir = true
    · have ho : dir_open fs s = some ⟨s, 0⟩ := by simp [dir_open, hd]
      rw [ho]
      simp only [token_walk, reference_walk, dir_lookup_eq, hd, if_true]
      cases entry_sector fs s c with
      | none => simp
      | some t => simp [ih t]
    · have ho : dir_open fs s = none := by simp [dir_open, hd]
      rw [ho]
      simp [token_walk, hd]

theorem token_walk_reference (fs : Disk) (cur ret : Nat) (c : List Char) (cs : List (List Char)) :
    token_walk fs (some ⟨cur, 0⟩) ret (c :: cs) = reference_walk fs cur (c :: cs) := by
  simp only [token_walk, reference_walk, dir_lookup_eq]
  cases entry_sector fs cur c with
  | none => rfl
  | some t => simp [token_walk_after_open fs cs t]

/-- C1: for a working directory `wd` that is a directory (on a disk whose root
sector is a directory) and every non-empty path of fewer than 64 bytes,
`dir_parse (wd, path)` returns the result of the reference walk: start at the
root for a leading slash and at `wd` otherwise, split the path into its maximal
non-empty slash-free components, look each one up among the in-use entries of
the directory reached so far; the result is the sector recorded for the last
component (the root sector when there is none) and 0 when a component is not
found or a component before the last is not a directory. -/
theorem dir_parse_reference_walk (fs : Disk) (wd : Nat) (path : List Char)
    (hroot : (fs ROOT_DIR_SECTOR).is_dir = true) (hwd : (fs wd).is_dir = true)
    (hne : path ≠ []) (hlen : path.length < 64) :
    dir_parse fs wd (some path) = some (reference_parse fs wd path) := by
  cases path with
  | nil => exact absurd rfl hne
  | cons c cs =>
    rw [dir_parse_eq fs wd c cs hlen]
    unfold parse_walk reference_parse
    by_cases hc : c = '/'
    · subst hc
      simp only [decide_True, if_true, dir_open, hroot, List.head?_cons]
      cases hk : components ('/' :: cs) with
      | nil => simp [token_walk, reference_walk]
      | cons k ks => rw [token_walk_reference fs _ _ k ks]
    · have hh : ¬ (some c = some '/') := fun h => hc (Option.some.inj h)
      simp only [hc, decide_False, Bool.false_eq_true, if_false, dir_open, hwd, if_true,
        List.head?_cons, hh]
      rw [components_take_token c cs hc, token_walk_reference fs _ _ _ _]

/-- Witness of `dir_parse_reference_walk`: the path "/a//b" from the working
directory 2 of the sample disk. -/
theorem dir_parse_reference_walk_witness :
    dir_parse sample_disk 2 (some ['/', 'a', '/', '/', 'b'])
      = some (reference_parse sample_disk 2 ['/', 'a', '/', '/', 'b']) :=
  dir_parse_reference_walk sample_disk 2 ['/', 'a', '/', '/', 'b'] (by decide) (by decide)
    (by decide) (by decide)


/-! ### Runs of slashes -/

theorem split_slash_ne_nil (s : List Char) : split_slash s ≠ [] := by
  cases s with
  | nil => simp [split_slash]
  | cons c cs =>
    by_cases hc : c = '/'
    · simp [split_slash, hc]
    · simp only [split_slash, hc, if_false]
      cases split_slash cs <;> simp

theorem split_slash_cons (c : Char) (cs : List Char) (hc : c ≠ '/') :
    split_slash (c :: cs) = (c :: (split_slash cs).headI) :: (split_slash cs).tail := by
  simp only [split_slash, hc, if_false]
  cases h : split_slash cs with
  | nil => exact absurd h (split_slash_ne_nil cs)
  | cons p ps => simp

theorem split_slash_double (pre rest : List Char) :
    (split_slash (pre ++ '/' :: '/' :: rest)).headI = (split_slash (pre ++ '/' :: rest)).headI ∧
    (split_slash (pre ++ '/' :: '/' :: rest)).tail.filter (fun t => decide (t ≠ [])) =
      (split_slash (pre ++ '/' :: rest)).tail.filter (fun t => decide (t ≠ [])) := by
  induction pre with
  | nil => simp [split_slash]
  | cons c pre ih =>
    by_cases hc : c = '/'
    · subst hc
      simp only [List.cons_append, split_slash, if_true, List.headI_cons, List.tail_cons, true_and]
      have h1 := split_slash_ne_nil (pre ++ '/' :: '/' :: rest)
      have h2 := split_slash_ne_nil (pre ++ '/' :: rest)
      cases hx : split_slash (pre ++ '/' :: '/' :: rest) with
      | nil => exact absurd hx h1
      | cons p ps =>
        cases hy : split_slash (pre ++ '/' :: rest) with
        | nil => exact absurd hy h2
        | cons q qs =>
          rw [hx, hy] at ih
          simp only [List.headI_cons, List.tail_cons] at ih
          rw [List.filter_cons, List.filter_cons, ih.1, ih.2]
    · simp only [List.cons_append, split_slash_cons c _ hc, List.headI_cons, List.tail_cons]
      exact ⟨by rw [ih.1], ih.2⟩

theorem components_double (pre rest : List Char) :
    components (pre ++ '/' :: '/' :: rest) = components (pre ++ '/' :: rest) := by
  have h := split_slash_double pre rest
  have h1 := split_slash_ne_nil (pre ++ '/' :: '/' :: rest)
  have h2 := split_slash_ne_nil (pre ++ '/' :: rest)
  unfold components
  cases hx : split_slash (pre ++ '/' :: '/' :: rest) with
  | nil => exact absurd hx h1
  | cons p ps =>
    cases hy : split_slash (pre ++ '/' :: rest) with
    | nil => exact absurd hy h2
    | cons q qs =>
      rw [hx, hy] at h
      simp only [List.headI_cons, List.tail_cons] at h
      rw [List.filter_cons, List.filter_cons, h.1, h.2]

theorem components_run (pre post : List Char) (n : Nat) :
    components (pre ++ List.replicate (n + 2) '/' ++ post) = components (pre ++ '/' :: post) := by
  induction n with
  | zero =>
    have := components_double pre post
    simpa [List.replicate] using this
  | succ k ih =>
    have h := components_double pre (List.replicate k '/' ++ post)
    have e1 : pre ++ List.replicate (k + 1 + 2) '/' ++ post
        = pre ++ '/' :: '/' :: '/' :: (List.replicate k '/' ++ post) := by
      simp [List.replicate_succ]
    have e2 : pre ++ List.replicate (k + 2) '/' ++ post
        = pre ++ '/' :: '/' :: (List.replicate k '/' ++ post) := by
      simp [List.replicate_succ]
    rw [e2] at ih
    rw [e1]
    have h3 := components_double pre ('/' :: (List.replicate k '/' ++ post))
    rw [h3, ih]

/-- C6: replacing a run of two or more consecutive slashes of a path of fewer
than 64 bytes by a single slash does not change what `dir_parse (wd, path)`
returns, for every `wd`; `dir_parse` returns on both paths. -/
theorem dir_parse_slash_run (fs : Disk) (wd : Nat) (pre post : List Char) (n : Nat)
    (hlen : (pre ++ List.replicate (n + 2) '/' ++ post).length < 64) :
    ∃ r, dir_parse fs wd (some (pre ++ List.replicate (n + 2) '/' ++ post)) = some r ∧
      dir_parse fs wd (some (pre ++ '/' :: post)) = some r := by
  have hc := components_run pre post n
  have hl2 : (pre ++ '/' :: post).length < 64 := by
    simp only [List.length_append, List.length_replicate, List.length_cons] at hlen ⊢
    omega
  cases pre with
  | nil =>
    simp only [List.nil_append] at hc hlen hl2 ⊢
    have e : List.replicate (n + 2) '/' ++ post = '/' :: (List.replicate (n + 1) '/' ++ post) := by
      simp [List.replicate_succ]
    rw [e] at hc hlen ⊢
    rw [dir_parse_eq fs wd _ _ hlen, dir_parse_eq fs wd _ _ hl2, hc]
    exact ⟨_, rfl, rfl⟩
  | cons c pre =>
    simp only [List.cons_append] at hc hlen hl2 ⊢
    rw [dir_parse_eq fs wd _ _ hlen, dir_parse_eq fs wd _ _ hl2, hc]
    exact ⟨_, rfl, rfl⟩

/-- Witness of `dir_parse_slash_run`: "/a///b" against "/a/b". -/
theorem dir_parse_slash_run_witness :
    ∃ r, dir_parse sample_disk 2
        (some (['/', 'a'] ++ List.replicate (1 + 2) '/' ++ ['b'])) = some r ∧
      dir_parse sample_disk 2 (some (['/', 'a'] ++ '/' :: ['b'])) = some r :=
  dir_parse_slash_run sample_disk 2 ['/', 'a'] ['b'] 1 (by decide)

/-! ## Theorems: absolute paths in the system calls -/

theorem strrchr_split_none (name : List Char) (h : '/' ∉ name) : strrchr_split name = none := by
  induction name with
  | nil => rfl
  | cons c cs ih =>
    have hc : c ≠ '/' := fun e => h (by simp [e])
    have hcs : '/' ∉ cs := fun e => h (List.mem_cons_of_mem _ e)
    simp [strrchr_split, ih hcs, hc]

theorem separate_path_absolute (name : List Char) (hne : name ≠ []) (hs : '/' ∉ name)
    (hlen : name.length < 63) : separate_path ('/' :: name) = (some [], some name) := by
  have h1 : name.length ≠ 0 := fun e => hne (List.length_eq_zero.mp e)
  have hl : (name.length + 1) % 65536 = name.length + 1 := Nat.mod_eq_of_lt (by omega)
  unfold separate_path
  simp only [List.length_cons, hl]
  have h2 : ¬ (name.length + 1 = 0) := by omega
  have h3 : ¬ (name.length + 1 = 1) := by omega
  simp only [h2, h3, if_false]
  simp [strrchr_split, strrchr_split_none name hs, hne]

/-- C2 (as the code behaves): for a one-component absolute path "/name" the
create, open, remove and mkdir system calls hand the working directory `wd`,
not the root sector, to the file-system operation: `separate_path` cuts the
path at its only slash, the directory part becomes the empty string, and
`dir_parse (wd, "")` returns `wd`. -/
theorem absolute_component_resolved_in_wd (fs : Disk) (wd : Nat) (name : List Char)
    (hne : name ≠ []) (hs : '/' ∉ name) (hlen : name.length < 63) (hwd : wd ≠ 0) :
    syscall_create_target fs wd ('/' :: name) = some (some (wd, name)) ∧
    syscall_open_target fs wd ('/' :: name) = some (some (wd, name)) ∧
    syscall_remove_target fs wd ('/' :: name) = some (some (wd, name)) ∧
    syscall_mkdir_target fs wd ('/' :: name) = some (some (wd, name)) := by
  have hsep := separate_path_absolute name hne hs hlen
  have h1 : ¬ (64 < name.length + 1) := by omega
  have h2 : ¬ (name.length + 1 = 64) := by omega
  refine ⟨?_, ?_, ?_, ?_⟩
  · simp [syscall_create_target, hsep, dir_parse, hwd, h1, h2]
  · simp [syscall_open_target, hsep, dir_parse, hwd]
  · simp [syscall_remove_target, hsep, dir_parse, hwd]
  · simp [syscall_mkdir_target, hsep, dir_parse, hwd]

/-- Witness of `absolute_component_resolved_in_wd`: the path "/a" with the
working directory at sector 2 of the sample disk; the root sector is 1. -/
theorem absolute_component_resolved_in_wd_witness :
    (syscall_create_target sample_disk 2 ['/', 'a'] = some (some (2, ['a'])) ∧
     syscall_open_target sample_disk 2 ['/', 'a'] = some (some (2, ['a'])) ∧
     syscall_remove_target sample_disk 2 ['/', 'a'] = some (some (2, ['a'])) ∧
     syscall_mkdir_target sample_disk 2 ['/', 'a'] = some (some (2, ['a']))) ∧
    ROOT_DIR_SECTOR ≠ 2 :=
  ⟨absolute_component_resolved_in_wd sample_disk 2 ['a'] (by decide) (by decide) (by decide)
    (by decide), by decide⟩

/-! ## Theorems: removing a directory -/

/-- The test of `has_real_entry`: some entry is in use under a name other than
"." and "..". -/
theorem has_real_entry_iff (es : List dir_entry) :
    has_real_entry es = true ↔
      ∃ e ∈ es, e.in_use = true ∧ e.name ≠ ['.'] ∧ e.name ≠ ['.', '.'] := by
  unfold has_real_entry
  rw [List.any_eq_true]
  constructor
  · rintro ⟨e, he, hp⟩
    simp only [Bool.and_eq_true, Bool.not_eq_true', Bool.or_eq_false_iff,
      decide_eq_false_iff_not] at hp
    exact ⟨e, he, hp.1, hp.2.1, hp.2.2⟩
  · rintro ⟨e, he, h1, h2, h3⟩
    exact ⟨e, he, by simp [h1, h2, h3]⟩

/-- When the path of `syscall_remove`, split by `separate_path` and resolved by
`dir_parse` as the system call does, names an entry `filename` of the
directory `dir_sector`, and that entry is a directory holding at least one
in-use entry other than "." and "..", the call returns false and leaves the
disk unchanged. The test of `syscall_remove` itself looks at the parent
directory only; the refusal comes from `filesys_remove`, which is modelled
from the spec. -/
theorem syscall_remove_refuses_nonempty_target (g : Bool) (fs : Disk) (wd : Nat)
    (file_name : List Char) (dir_sector : Nat) (filename : List Char) (d : dir) (sector : Nat)
    (ht : syscall_remove_target fs wd file_name = some (some (dir_sector, filename)))
    (hd : dir_open fs dir_sector = some d)
    (hl : dir_lookup fs d filename = some sector)
    (hdir : (fs sector).is_dir = true)
    (hne : ∃ e ∈ (fs sector).entries, e.in_use = true ∧ e.name ≠ ['.'] ∧ e.name ≠ ['.', '.']) :
    syscall_remove g fs wd file_name = some (false, fs) := by
  have hr : has_real_entry (fs sector).entries = true := (has_real_entry_iff _).mpr hne
  have hf : filesys_remove g fs dir_sector filename = (false, fs) := by
    simp only [filesys_remove, hd, hl, hdir, hr, Bool.and_self, if_true]
  unfold syscall_remove
  simp only [ht]
  split
  · rfl
  · rw [hf]

/-- Witness of `syscall_remove_refuses_nonempty_target`: on the sample disk, with the
root as working directory, the path "a" names the directory at sector 2, which
holds the in-use entry "b"; the call returns false and the disk is unchanged. -/
theorem syscall_remove_refuses_nonempty_target_witness :
    syscall_remove_target sample_disk 1 ['a'] = some (some (1, ['a'])) ∧
    dir_lookup sample_disk ⟨1, 0⟩ ['a'] = some 2 ∧
    (⟨3, ['b'], true⟩ : dir_entry) ∈ (sample_disk 2).entries ∧
    syscall_remove false sample_disk 1 ['a'] = some (false, sample_disk) :=
  ⟨by decide, by decide, by decide,
    syscall_remove_refuses_nonempty_target false sample_disk 1 ['a'] 1 ['a'] ⟨1, 0⟩ 2 (by decide)
      (by decide) (by decide) (by decide)
      ⟨⟨3, ['b'], true⟩, by decide, by decide, by decide, by decide⟩⟩

/-- C3 (as the code behaves): on the nested sample disk the path "/a" names the
directory `a` of the root (sector 2), which holds the in-use entry `a`. With
`a` as working directory `syscall_remove` hands the empty directory part of
the path to `dir_parse`, which returns the working directory (the defect of
C2), so the name `a` is removed from sector 2 instead of the root: the entry
found there is a regular file, the call returns true and clears it, where the
claim has the call return false. -/
theorem syscall_remove_absolute_nonempty_directory :
    reference_parse sample_disk_nested 2 ['/', 'a'] = 2 ∧
    (sample_disk_nested 2).is_dir = true ∧
    (⟨5, ['a'], true⟩ : dir_entry) ∈ (sample_disk_nested 2).entries ∧
    syscall_remove_target sample_disk_nested 2 ['/', 'a'] = some (some (2, ['a'])) ∧
    (syscall_remove false sample_disk_nested 2 ['/', 'a']).map
        (fun r => (r.1, (r.2 1).entries, (r.2 2).entries)) =
      some (true, (sample_disk_nested 1).entries,
        [⟨2, ['.'], true⟩, ⟨1, ['.', '.'], true⟩, ⟨5, ['a'], false⟩]) := by
  decide

/-! ## Theorems: directory entries -/

theorem write_slot_nil (e : dir_entry) : write_slot [] 0 e = [e] := by
  simp [write_slot]

theorem write_slot_zero_cons (x e : dir_entry) (xs : List dir_entry) :
    write_slot (x :: xs) 0 e = e :: xs := by
  simp [write_slot]

theorem write_slot_cons_succ (x e : dir_entry) (xs : List dir_entry) (k : Nat) :
    write_slot (x :: xs) (k + 1) e = x :: write_slot xs k e := by
  unfold write_slot
  by_cases h : k < xs.length
  · simp [h]
  · simp [h]

theorem free_slot_from_add (es : List dir_entry) (ofs : Nat) :
    free_slot_from es ofs = free_slot_from es 0 + ofs := by
  induction es generalizing ofs with
  | nil => simp [free_slot_from]
  | cons x xs ih =>
    cases hx : x.in_use with
    | false => simp [free_slot_from, hx]
    | true =>
      simp only [free_slot_from, hx, Bool.not_true, Bool.false_eq_true, if_false]
      rw [ih (ofs + 1), ih (0 + 1)]
      omega

theorem lookup_from_add (name : List Char) (es : List dir_entry) (ofs : Nat) :
    lookup_from name es ofs = (lookup_from name es 0).map (fun r => (r.1, r.2 + ofs)) := by
  induction es generalizing ofs with
  | nil => rfl
  | cons x xs ih =>
    cases hb : (x.in_use && decide (name = x.name)) with
    | true => simp [lookup_from, hb]
    | false =>
      simp only [lookup_from, hb, Bool.false_eq_true, if_false]
      rw [ih (ofs + 1), ih (0 + 1), Option.map_map]
      congr 1
      funext r
      simp only [Function.comp, Prod.mk.injEq, true_and]
      omega

theorem in_use_names_cons (x : dir_entry) (xs : List dir_entry) :
    in_use_names (x :: xs) = if x.in_use then x.name :: in_use_names xs else in_use_names xs := by
  unfold in_use_names
  cases hx : x.in_use <;> simp [List.filter_cons, hx]

theorem lookup_from_none_iff (name : List Char) (es : List dir_entry) (ofs : Nat) :
    lookup_from name es ofs = none ↔ name ∉ in_use_names es := by
  induction es generalizing ofs with
  | nil => simp [lookup_from, in_use_names]
  | cons x xs ih =>
    rw [in_use_names_cons]
    cases hx : x.in_use with
    | false => simp [lookup_from, hx, ih]
    | true =>
      by_cases hn : name = x.name
      · simp [lookup_from, hx, hn]
      · simp [lookup_from, hx, hn, ih]

theorem mem_in_use_names (name : List Char) (es : List dir_entry) :
    name ∈ in_use_names es ↔ ∃ e ∈ es, e.in_use = true ∧ e.name = name := by
  unfold in_use_names
  simp [List.mem_map, List.mem_filter, and_assoc]

/-- Writing an in-use entry into the slot `dir_add` selects adds its name to
the in-use names and keeps all the others. -/
theorem in_use_names_add (es : List dir_entry) (e : dir_entry) (he : e.in_use = true) :
    (in_use_names (write_slot es (free_slot_from es 0) e)).Perm (e.name :: in_use_names es) := by
  induction es with
  | nil => simp [free_slot_from, write_slot_nil, in_use_names, he]
  | cons x xs ih =>
    cases hx : x.in_use with
    | false =>
      simp only [free_slot_from, hx, Bool.not_false, if_true, write_slot_zero_cons]
      rw [in_use_names_cons, in_use_names_cons]
      simp [he, hx]
    | true =>
      simp only [free_slot_from, hx, Bool.not_true, Bool.false_eq_true, if_false]
      rw [free_slot_from_add xs (0 + 1), write_slot_cons_succ, in_use_names_cons,
        in_use_names_cons]
      simp only [hx, if_true]
      exact (List.Perm.cons _ ih).trans (List.Perm.swap _ _ _)

theorem mem_write_free_old (es : List dir_entry) (e x : dir_entry) (hx : x ∈ es)
    (hu : x.in_use = true) : x ∈ write_slot es (free_slot_from es 0) e := by
  induction es with
  | nil => cases hx
  | cons y ys ih =>
    cases hy : y.in_use with
    | false =>
      simp only [free_slot_from, hy, Bool.not_false, if_true, write_slot_zero_cons]
      rcases List.mem_cons.mp hx with h | h
      · subst h
        rw [hu] at hy
        cases hy
      · exact List.mem_cons_of_mem _ h
    | true =>
      simp only [free_slot_from, hy, Bool.not_true, Bool.false_eq_true, if_false]
      rw [free_slot_from_add ys (0 + 1), write_slot_cons_succ]
      rcases List.mem_cons.mp hx with h | h
      · subst h
        exact List.mem_cons_self _ _
      · exact List.mem_cons_of_mem _ (ih h)

theorem mem_write_free_new (es : List dir_entry) (e : dir_entry) :
    e ∈ write_slot es (free_slot_from es 0) e := by
  induction es with
  | nil => simp [free_slot_from, write_slot_nil]
  | cons y ys ih =>
    cases hy : y.in_use with
    | false => simp [free_slot_from, hy, write_slot_zero_cons]
    | true =>
      simp only [free_slot_from, hy, Bool.not_true, Bool.false_eq_true, if_false]
      rw [free_slot_from_add ys (0 + 1), write_slot_cons_succ]
      exact List.mem_cons_of_mem _ ih

/-- Clearing `in_use` in the slot that `lookup` found removes names only. -/
theorem in_use_names_remove (name : List Char) (es : List dir_entry) (x : dir_entry) (i : Nat)
    (h : lookup_from name es 0 = some (x, i)) :
    (in_use_names (write_slot es i { x with in_use := false })).Sublist (in_use_names es) := by
  induction es generalizing i with
  | nil => simp [lookup_from] at h
  | cons y ys ih =>
    cases hb : (y.in_use && decide (name = y.name)) with
    | true =>
      simp only [lookup_from, hb, if_true, Option.some.injEq, Prod.mk.injEq] at h
      obtain ⟨h1, h2⟩ := h
      subst h1 h2
      rw [write_slot_zero_cons, in_use_names_cons, in_use_names_cons]
      simp only [Bool.false_eq_true, if_false]
      cases y.in_use with
      | false => exact List.Sublist.refl _
      | true => exact List.sublist_cons_self _ _
    | false =>
      simp only [lookup_from, hb, Bool.false_eq_true, if_false] at h
      rw [lookup_from_add] at h
      cases hl : lookup_from name ys 0 with
      | none => simp [hl] at h
      | some r =>
        obtain ⟨x1, j⟩ := r
        simp only [hl, Option.map_some', Option.some.injEq, Prod.mk.injEq] at h
        obtain ⟨h1, h2⟩ := h
        subst h1 h2
        rw [write_slot_cons_succ, in_use_names_cons, in_use_names_cons]
        have hs := ih j hl
        cases y.in_use with
        | false => simpa using hs
        | true => simpa using hs

theorem store_entry_same (fs : Disk) (i slot : Nat) (e : dir_entry) :
    (store_entry fs i slot e i).entries = write_slot (fs i).entries slot e := by
  simp [store_entry, Disk.set]

theorem store_entry_other (fs : Disk) (i k slot : Nat) (e : dir_entry) (h : k ≠ i) :
    store_entry fs i slot e k = fs k := by
  simp [store_entry, Disk.set, h]

theorem store_entry_is_dir (fs : Disk) (i k slot : Nat) (e : dir_entry) :
    (store_entry fs i slot e k).is_dir = (fs k).is_dir := by
  by_cases h : k = i
  · subst h
    simp [store_entry, Disk.set]
  · rw [store_entry_other fs i k slot e h]

/-- The write either leaves the disk as it was or stores the entry. -/
theorem inode_write_at_snd (g : Bool) (fs : Disk) (i slot : Nat) (e : dir_entry) :
    (inode_write_at g fs i slot e).2 = fs ∨
      (inode_write_at g fs i slot e).2 = store_entry fs i slot e := by
  unfold inode_write_at
  split
  · exact Or.inr rfl
  · split
    · exact Or.inr rfl
    · exact Or.inl rfl

/-- A write inside the file, or one for which the file can grow, is complete. -/
theorem inode_write_at_complete (g : Bool) (fs : Disk) (i slot : Nat) (e : dir_entry)
    (h : slot < (fs i).entries.length ∨ g = true) :
    inode_write_at g fs i slot e = (sizeof_dir_entry, store_entry fs i slot e) := by
  unfold inode_write_at
  split
  · rfl
  · next h1 =>
    rcases h with h | h
    · exact absurd h h1
    · simp [h]

theorem inode_write_at_is_dir (g : Bool) (fs : Disk) (i k slot : Nat) (e : dir_entry) :
    ((inode_write_at g fs i slot e).2 k).is_dir = (fs k).is_dir := by
  rcases inode_write_at_snd g fs i slot e with h | h
  · rw [h]
  · rw [h, store_entry_is_dir]

/-- The slot that `lookup_from` finds lies inside the file. -/
theorem lookup_from_lt (name : List Char) (es : List dir_entry) :
    ∀ (ofs : Nat) (e : dir_entry) (j : Nat),
      lookup_from name es ofs = some (e, j) → j < ofs + es.length := by
  induction es with
  | nil => intro ofs e j h; simp [lookup_from] at h
  | cons y ys ih =>
    intro ofs e j h
    unfold lookup_from at h
    split at h
    · simp only [Option.some.injEq, Prod.mk.injEq] at h
      simp only [List.length_cons]
      omega
    · have := ih (ofs + 1) e j h
      simp only [List.length_cons]
      omega

/-- The write of `dir_remove` goes to a slot inside the file and is complete:
the call fails only when the name is not found. -/
theorem dir_remove_eq (g : Bool) (fs : Disk) (d : dir) (name : List Char) :
    dir_remove g fs d name =
      match lookup fs d name with
      | none => (false, fs)
      | some (e, ofs) => (true, store_entry fs d.inode ofs { e with in_use := false }) := by
  unfold dir_remove
  cases hl : lookup fs d name with
  | none => rfl
  | some r =>
    obtain ⟨e, ofs⟩ := r
    have hlt : ofs < (fs d.inode).entries.length := by
      have := lookup_from_lt name (fs d.inode).entries 0 e ofs hl
      omega
    simp only [inode_write_at_complete g fs d.inode ofs _ (Or.inl hlt), ne_eq,
      not_true_eq_false, if_false]

/-- The disk after `dir_add`: as it was, or with the entry stored in the free
slot when the name is valid and not in use. -/
theorem dir_add_snd (g : Bool) (fs : Disk) (d : dir) (name : List Char) (s : Nat) :
    (dir_add g fs d name s).2 = fs ∨
      (lookup fs d name = none ∧
        (dir_add g fs d name s).2 =
          store_entry fs d.inode (free_slot_from (fs d.inode).entries 0) ⟨s, name, true⟩) := by
  unfold dir_add
  split
  · exact Or.inl rfl
  · cases hl : lookup fs d name with
    | some r => simp
    | none =>
      simp only [Option.isSome_none, Bool.false_eq_true, if_false]
      rcases inode_write_at_snd g fs d.inode (free_slot_from (fs d.inode).entries 0)
        ⟨s, name, true⟩ with h | h
      · exact Or.inl h
      · exact Or.inr ⟨trivial, h⟩

theorem dir_add_is_dir (g : Bool) (fs : Disk) (d : dir) (name : List Char) (s k : Nat) :
    ((dir_add g fs d name s).2 k).is_dir = (fs k).is_dir := by
  rcases dir_add_snd g fs d name s with h | ⟨-, h⟩
  · rw [h]
  · rw [h, store_entry_is_dir]

/-- A valid name that is not in use is entered by `dir_add`, and the call
returns true, when the free slot lies inside the file or the file can grow. -/
theorem dir_add_eq (g : Bool) (fs : Disk) (d : dir) (name : List Char) (s : Nat)
    (hne : name ≠ []) (hlen : name.length ≤ NAME_MAX) (hl : lookup fs d name = none)
    (hw : free_slot_from (fs d.inode).entries 0 < (fs d.inode).entries.length ∨ g = true) :
    dir_add g fs d name s =
      (true, store_entry fs d.inode (free_slot_from (fs d.inode).entries 0) ⟨s, name, true⟩) := by
  unfold dir_add
  have h1 : ¬ (name = [] ∨ NAME_MAX < name.length) := by
    intro h
    rcases h with h | h
    · exact hne h
    · omega
  simp only [h1, if_false, hl, Option.isSome_none, Bool.false_eq_true,
    inode_write_at_complete g fs d.inode _ _ hw, decide_True]

/-- An in-use entry of any directory survives `dir_add` by value. -/
theorem dir_add_preserves (g : Bool) (fs : Disk) (d : dir) (name : List Char) (s k : Nat)
    (x : dir_entry) (hx : x ∈ (fs k).entries) (hu : x.in_use = true) :
    x ∈ ((dir_add g fs d name s).2 k).entries := by
  rcases dir_add_snd g fs d name s with h | ⟨-, h⟩
  · rw [h]
    exact hx
  · rw [h]
    by_cases hk : k = d.inode
    · subst hk
      simp only [store_entry_same]
      exact mem_write_free_old _ _ _ hx hu
    · simp only [store_entry_other _ _ _ _ _ hk]
      exact hx

/-- A valid name that is not yet in use is entered by `dir_add` when the free
slot lies inside the file or the file can grow. -/
theorem dir_add_adds (g : Bool) (fs : Disk) (d : dir) (name : List Char) (s : Nat)
    (hne : name ≠ []) (hlen : name.length ≤ NAME_MAX) (hl : lookup fs d name = none)
    (hw : free_slot_from (fs d.inode).entries 0 < (fs d.inode).entries.length ∨ g = true) :
    (⟨s, name, true⟩ : dir_entry) ∈ ((dir_add g fs d name s).2 d.inode).entries := by
  rw [dir_add_eq g fs d name s hne hlen hl hw]
  simp only [store_entry_same]
  exact mem_write_free_new _ _

theorem lookup_fresh (n : Nat) (name : List Char) (ofs : Nat) :
    lookup_from name (List.replicate n (⟨0, [], false⟩ : dir_entry)) ofs = none := by
  rw [lookup_from_none_iff, mem_in_use_names]
  rintro ⟨e, he, hu, -⟩
  rw [List.eq_of_mem_replicate he] at hu
  cases hu

/-- When every write that `dir_create` makes for "." and ".." is complete (the
slot lies inside the file created with `entry_cnt` slots, or the file can
grow), a true result means that the inode at `sector` is a directory with an
in-use entry "." for `sector` and an in-use entry ".." for `prev`. -/
theorem dir_create_dot_entries (alloc_ok : Bool) (grow_ok : Nat → Bool) (fs fs' : Disk)
    (sector prev : Nat) (name : List Char) (entry_cnt : Nat)
    (h : dir_create alloc_ok grow_ok fs sector prev name entry_cnt = some (true, fs'))
    (h1 : 1 ≤ (entry_cnt * sizeof_dir_entry) % 2 ^ 32 / sizeof_dir_entry ∨ grow_ok 0 = true)
    (h2 : 2 ≤ (entry_cnt * sizeof_dir_entry) % 2 ^ 32 / sizeof_dir_entry ∨ grow_ok 1 = true) :
    (fs' sector).is_dir = true ∧
    (∃ e ∈ (fs' sector).entries, e.in_use = true ∧ e.name = ['.'] ∧ e.inode_sector = sector) ∧
    (∃ e ∈ (fs' sector).entries, e.in_use = true ∧ e.name = ['.', '.'] ∧
      e.inode_sector = prev) := by
  unfold dir_create inode_create at h
  cases alloc_ok with
  | false => simp at h
  | true =>
    simp only [if_true] at h
    generalize hn : (entry_cnt * sizeof_dir_entry) % 2 ^ 32 / sizeof_dir_entry = n at h h1 h2
    generalize hfs1 : fs.set sector ⟨true, List.replicate n ⟨0, [], false⟩⟩ = fs1 at h
    have hdir1 : (fs1 sector).is_dir = true := by simp [← hfs1, Disk.set]
    have hent1 : (fs1 sector).entries = List.replicate n ⟨0, [], false⟩ := by
      simp [← hfs1, Disk.set]
    have hopen : dir_open fs1 sector = some ⟨sector, 0⟩ := by simp [dir_open, hdir1]
    rw [hopen] at h
    simp only at h
    -- the first `dir_add` enters "."
    have hl1 : lookup fs1 ⟨sector, 0⟩ ['.'] = none := by
      simp only [lookup, hent1]
      exact lookup_fresh n _ 0
    have hw1 : free_slot_from (fs1 sector).entries 0 < (fs1 sector).entries.length ∨
        grow_ok 0 = true := by
      rcases h1 with h1 | h1
      · left
        rw [hent1]
        obtain ⟨m, rfl⟩ : ∃ m, n = m + 1 := ⟨n - 1, by omega⟩
        simp [List.replicate_succ, free_slot_from]
      · exact Or.inr h1
    have e2 := dir_add_eq (grow_ok 0) fs1 ⟨sector, 0⟩ ['.'] sector (by decide) (by decide)
      hl1 hw1
    have hdot := dir_add_adds (grow_ok 0) fs1 ⟨sector, 0⟩ ['.'] sector (by decide) (by decide)
      hl1 hw1
    have hdir2 : ((dir_add (grow_ok 0) fs1 ⟨sector, 0⟩ ['.'] sector).2 sector).is_dir = true := by
      rw [dir_add_is_dir]
      exact hdir1
    have hent2 : ((dir_add (grow_ok 0) fs1 ⟨sector, 0⟩ ['.'] sector).2 sector).entries =
        write_slot (fs1 sector).entries (free_slot_from (fs1 sector).entries 0)
          ⟨sector, ['.'], true⟩ := by
      rw [e2]
      simp only [store_entry_same]
    generalize hfs2 : (dir_add (grow_ok 0) fs1 ⟨sector, 0⟩ ['.'] sector).2 = fs2
      at h hdot hdir2 hent2
    -- every in-use entry after the first `dir_add` is named "."
    have hnames2 : in_use_names (fs2 sector).entries = [['.']] := by
      rw [hent2]
      have hp := in_use_names_add (fs1 sector).entries ⟨sector, ['.'], true⟩ rfl
      have h0 : in_use_names (fs1 sector).entries = [] := by
        rw [hent1]
        apply List.eq_nil_iff_forall_not_mem.mpr
        intro a ha
        rw [mem_in_use_names] at ha
        obtain ⟨e, he, hu, -⟩ := ha
        rw [List.eq_of_mem_replicate he] at hu
        cases hu
      rw [h0] at hp
      exact List.perm_singleton.mp hp
    have hl2 : lookup fs2 ⟨sector, 0⟩ ['.', '.'] = none := by
      simp only [lookup]
      rw [lookup_from_none_iff, hnames2]
      decide
    have hw2 : free_slot_from (fs2 sector).entries 0 < (fs2 sector).entries.length ∨
        grow_ok 1 = true := by
      rcases h2 with h2 | h2
      · left
        rw [hent2, hent1]
        obtain ⟨m, rfl⟩ : ∃ m, n = m + 2 := ⟨n - 2, by omega⟩
        simp [List.replicate_succ, free_slot_from, write_slot]
      · exact Or.inr h2
    have hdotdot := dir_add_adds (grow_ok 1) fs2 ⟨sector, 0⟩ ['.', '.'] prev (by decide)
      (by decide) hl2 hw2
    have hdot3 := dir_add_preserves (grow_ok 1) fs2 ⟨sector, 0⟩ ['.', '.'] prev sector _ hdot rfl
    have hdir3 : ((dir_add (grow_ok 1) fs2 ⟨sector, 0⟩ ['.', '.'] prev).2 sector).is_dir =
        true := by
      rw [dir_add_is_dir]
      exact hdir2
    generalize hfs3 : (dir_add (grow_ok 1) fs2 ⟨sector, 0⟩ ['.', '.'] prev).2 = fs3
      at h hdotdot hdot3 hdir3
    cases hp : dir_open fs1 prev with
    | none => simp [hp] at h
    | some pd =>
      simp only [hp, Option.some.injEq, Prod.mk.injEq, true_and] at h
      subst h
      refine ⟨?_,
        ⟨_, dir_add_preserves (grow_ok 2) fs3 pd name sector sector _ hdot3 rfl, rfl, rfl, rfl⟩,
        ⟨_, dir_add_preserves (grow_ok 2) fs3 pd name sector sector _ hdotdot rfl, rfl, rfl,
          rfl⟩⟩
      rw [dir_add_is_dir]
      exact hdir3

/-- Witness of `dir_create_dot_entries`: a directory "n" with 16 preallocated
slots, as `syscall_mkdir` asks for, is created at sector 9 under the root of
the sample disk while no file can grow. -/
theorem dir_create_dot_entries_witness :
    ∃ fs', dir_create true (fun _ => false) sample_disk 9 1 ['n'] 16 = some (true, fs') ∧
      (fs' 9).is_dir = true ∧
      (∃ e ∈ (fs' 9).entries, e.in_use = true ∧ e.name = ['.'] ∧ e.inode_sector = 9) ∧
      (∃ e ∈ (fs' 9).entries, e.in_use = true ∧ e.name = ['.', '.'] ∧ e.inode_sector = 1) :=
  ⟨((dir_create true (fun _ => false) sample_disk 9 1 ['n'] 16).getD (false, sample_disk)).2,
    rfl,
    dir_create_dot_entries true (fun _ => false) sample_disk
      ((dir_create true (fun _ => false) sample_disk 9 1 ['n'] 16).getD (false, sample_disk)).2
      9 1 ['n'] 16 rfl (by decide) (by decide)⟩

/-- C4 (as the code behaves): `dir_create` drops the results of its three
`dir_add` calls and returns true. With `entry_cnt = 0` the inode is created
with no slot, so the write of "." is made at the end of the file; when the file
cannot grow (no free sector) `inode_write_at` is short and `dir_add` returns
false, and so for "..". `dir_create` still returns true, and the directory at
sector 9 has no entry at all, neither "." nor "..". -/
theorem dir_create_true_without_dot_entries :
    (inode_create true sample_disk 9 ((0 * sizeof_dir_entry) % 2 ^ 32) true).1 = true ∧
    (dir_add false (inode_create true sample_disk 9 ((0 * sizeof_dir_entry) % 2 ^ 32) true).2
      ⟨9, 0⟩ ['.'] 9).1 = false ∧
    ∃ fs', dir_create true (fun _ => false) sample_disk 9 1 ['n'] 0 = some (true, fs') ∧
      (fs' 9).is_dir = true ∧ (fs' 9).entries = [] :=
  ⟨rfl, rfl, _, rfl, rfl, rfl⟩

/-- C5: name uniqueness is an invariant of every directory: if no two in-use
entries of the directory at sector `k` share a name, the same holds after any
`dir_add` and after any `dir_remove`, whether or not their writes are
complete; and `dir_add (dir, name, s)` returns false and leaves the disk
unchanged when `name` is the name of an in-use entry of `dir`. -/
theorem names_unique_invariant (g : Bool) (fs : Disk) (d : dir) (name : List Char) (s k : Nat)
    (h : names_unique (fs k).entries) :
    names_unique ((dir_add g fs d name s).2 k).entries ∧
    names_unique ((dir_remove g fs d name).2 k).entries ∧
    ((∃ e ∈ (fs d.inode).entries, e.in_use = true ∧ e.name = name) →
      dir_add g fs d name s = (false, fs)) := by
  refine ⟨?_, ?_, ?_⟩
  · rcases dir_add_snd g fs d name s with h1 | ⟨hl, h1⟩
    · rw [h1]
      exact h
    · rw [h1]
      by_cases hk : k = d.inode
      · subst hk
        simp only [store_entry_same]
        unfold names_unique at h ⊢
        have hp := in_use_names_add (fs d.inode).entries ⟨s, name, true⟩ rfl
        rw [hp.nodup_iff, List.nodup_cons]
        exact ⟨(lookup_from_none_iff name _ 0).mp hl, h⟩
      · rw [store_entry_other _ _ _ _ _ hk]
        exact h
  · rw [dir_remove_eq]
    cases hl : lookup fs d name with
    | none => exact h
    | some r =>
      obtain ⟨x, i⟩ := r
      simp only
      by_cases hk : k = d.inode
      · subst hk
        simp only [store_entry_same]
        exact List.Nodup.sublist (in_use_names_remove name _ x i hl) h
      · rw [store_entry_other _ _ _ _ _ hk]
        exact h
  · intro hex
    have hm : name ∈ in_use_names (fs d.inode).entries := (mem_in_use_names name _).mpr hex
    have hl : (lookup fs d name).isSome = true := by
      cases hl : lookup fs d name with
      | some r => rfl
      | none => exact absurd hm ((lookup_from_none_iff name _ 0).mp hl)
    unfold dir_add
    split
    · rfl
    · simp [hl]

/-- Witness of `names_unique_invariant`: the root directory of the sample disk,
to which "a" (already there) is added and from which "a" is removed, on a disk
that cannot grow. -/
theorem names_unique_invariant_witness :
    names_unique ((dir_add false sample_disk ⟨1, 0⟩ ['a'] 7).2 1).entries ∧
    names_unique ((dir_remove false sample_disk ⟨1, 0⟩ ['a']).2 1).entries ∧
    ((∃ e ∈ (sample_disk 1).entries, e.in_use = true ∧ e.name = ['a']) →
      dir_add false sample_disk ⟨1, 0⟩ ['a'] 7 = (false, sample_disk)) :=
  names_unique_invariant false sample_disk ⟨1, 0⟩ ['a'] 7 1 (by unfold names_unique; decide)

/-! ## Theorems: priority donation -/

theorem donate_step_threads (p : Int) (u : Nat) (K : Kernel) (t : Nat) :
    (donate_step p u K).threads t =
      if t = u then { K.threads u with priority := max (K.threads u).priority p }
      else K.threads t := by
  unfold donate_step thread_receive_donation
  by_cases hp : p > (K.threads u).priority
  · have hmax : max (K.threads u).priority p = p := max_eq_right (le_of_lt hp)
    simp only [hp, if_true, hmax]
    cases hw : (K.threads u).lock_waiting <;> simp [Kernel.set_thread, Kernel.set_lock, hw]
  · have hmax : max (K.threads u).priority p = (K.threads u).priority :=
      max_eq_left (not_lt.mp hp)
    simp only [hp, if_false, hmax]
    by_cases ht : t = u
    · subst ht; simp
    · simp [ht]

theorem donate_step_holder (p : Int) (u : Nat) (K : Kernel) (l : Nat) :
    ((donate_step p u K).locks l).holder = (K.locks l).holder := by
  unfold donate_step thread_receive_donation
  by_cases hp : p > (K.threads u).priority
  · simp only [hp, if_true]
    cases hw : (K.threads u).lock_waiting with
    | none => simp [Kernel.set_thread]
    | some m =>
      by_cases hl : l = m
      · subst hl; simp [Kernel.set_thread, Kernel.set_lock]
      · simp [Kernel.set_thread, Kernel.set_lock, hl]
  · simp [hp]

theorem donate_step_ready_list (p : Int) (u : Nat) (K : Kernel) :
    (donate_step p u K).ready_list = K.ready_list := by
  unfold donate_step thread_receive_donation
  by_cases hp : p > (K.threads u).priority
  · simp only [hp, if_true]
    cases hw : (K.threads u).lock_waiting <;> simp [Kernel.set_thread, Kernel.set_lock]
  · simp [hp]

theorem donate_step_lock_waiting (p : Int) (u : Nat) (K : Kernel) (t : Nat) :
    ((donate_step p u K).threads t).lock_waiting = (K.threads t).lock_waiting := by
  rw [donate_step_threads]
  by_cases ht : t = u
  · subst ht; simp
  · simp [ht]

theorem donate_step_base (p : Int) (u : Nat) (K : Kernel) (t : Nat) :
    ((donate_step p u K).threads t).base_priority = (K.threads t).base_priority := by
  rw [donate_step_threads]
  by_cases ht : t = u
  · subst ht; simp
  · simp [ht]

theorem donate_step_priority_le (p : Int) (u : Nat) (K : Kernel) (t : Nat) :
    (K.threads t).priority ≤ ((donate_step p u K).threads t).priority := by
  rw [donate_step_threads]
  by_cases ht : t = u
  · subst ht; simp
  · simp [ht]

theorem wait_chain_congr (K K1 : Kernel)
    (hw : ∀ t, (K1.threads t).lock_waiting = (K.threads t).lock_waiting)
    (hh : ∀ l, (K1.locks l).holder = (K.locks l).holder) :
    ∀ (chain : List Nat) (u : Nat), wait_chain K u chain → wait_chain K1 u chain := by
  intro chain
  induction chain with
  | nil => intro u h; simpa [wait_chain, hw] using h
  | cons v rest ih =>
    intro u h
    obtain ⟨⟨l, h1, h2⟩, h3⟩ := h
    exact ⟨⟨l, by rw [hw, h1], by rw [hh, h2]⟩, ih v h3⟩

/-- Along a wait chain without repetition the loop of
`thread_recursive_set_priority` ends, raises every thread of the chain to the
donated priority when that is greater, and leaves every other thread as it
is. -/
theorem donate_loop_chain (p : Int) :
    ∀ (chain : List Nat) (u : Nat) (K : Kernel) (fuel : Nat),
      wait_chain K u chain → (u :: chain).Nodup → chain.length + 1 ≤ fuel →
      ∃ K', donate_loop fuel p (some u) K = some K' ∧
        (∀ t ∈ u :: chain, K'.threads t =
          { K.threads t with priority := max (K.threads t).priority p }) ∧
        (∀ t, t ∉ u :: chain → K'.threads t = K.threads t) := by
  intro chain
  induction chain with
  | nil =>
    intro u K fuel hc _ hf
    obtain ⟨f, rfl⟩ : ∃ f, fuel = f + 1 := ⟨fuel - 1, by omega⟩
    have hw : ((donate_step p u K).threads u).lock_waiting = none := by
      rw [donate_step_lock_waiting]; exact hc
    refine ⟨donate_step p u K, by simp [donate_loop, hw], ?_, ?_⟩
    · intro t ht
      have : t = u := by simpa using ht
      subst this
      simp [donate_step_threads]
    · intro t ht
      have : t ≠ u := by simpa using ht
      simp [donate_step_threads, this]
  | cons v rest ih =>
    intro u K fuel hc hnd hf
    obtain ⟨f, rfl⟩ : ∃ f, fuel = f + 1 := ⟨fuel - 1, by simp at hf; omega⟩
    obtain ⟨⟨l, h1, h2⟩, h3⟩ := hc
    have hw : ((donate_step p u K).threads u).lock_waiting = some l := by
      rw [donate_step_lock_waiting]; exact h1
    have hh : ((donate_step p u K).locks l).holder = some v := by
      rw [donate_step_holder]; exact h2
    have hc1 : wait_chain (donate_step p u K) v rest :=
      wait_chain_congr K _ (donate_step_lock_waiting p u K) (donate_step_holder p u K) rest v h3
    have hnd1 : (v :: rest).Nodup := (List.nodup_cons.mp hnd).2
    have hu : u ∉ v :: rest := (List.nodup_cons.mp hnd).1
    obtain ⟨K', hK', hin, hout⟩ := ih v (donate_step p u K) f hc1 hnd1 (by simp at hf ⊢; omega)
    refine ⟨K', by simp [donate_loop, hw, hh, hK'], ?_, ?_⟩
    · intro t ht
      rcases List.mem_cons.mp ht with h | h
      · subst h
        rw [hout t hu]
        simp [donate_step_threads]
      · have htu : t ≠ u := fun e => hu (e ▸ h)
        rw [hin t h]
        simp [donate_step_threads, htu]
    · intro t ht
      have htu : t ≠ u := fun e => ht (e ▸ List.mem_cons_self _ _)
      have ht' : t ∉ v :: rest := fun e => ht (List.mem_cons_of_mem _ e)
      rw [hout t ht']
      simp [donate_step_threads, htu]

/-- Whenever the loop of `thread_recursive_set_priority` ends, the ready list
is the same list, every base priority is unchanged and no priority is lower. -/
theorem donate_loop_frame (p : Int) :
    ∀ (fuel : Nat) (u : Option Nat) (K K' : Kernel), donate_loop fuel p u K = some K' →
      K'.ready_list = K.ready_list ∧
      (∀ t, (K'.threads t).base_priority = (K.threads t).base_priority) ∧
      (∀ t, (K.threads t).priority ≤ (K'.threads t).priority) := by
  intro fuel
  induction fuel with
  | zero =>
    intro u K K' h
    cases u with
    | none =>
      simp only [donate_loop, Option.some.injEq] at h
      subst h
      exact ⟨rfl, fun _ => rfl, fun _ => le_refl _⟩
    | some t => simp [donate_loop] at h
  | succ f ih =>
    intro u K K' h
    cases u with
    | none =>
      simp only [donate_loop, Option.some.injEq] at h
      subst h
      exact ⟨rfl, fun _ => rfl, fun _ => le_refl _⟩
    | some t =>
      simp only [donate_loop] at h
      cases hw : ((donate_step p t K).threads t).lock_waiting with
      | none =>
        simp only [hw, Option.some.injEq] at h
        subst h
        exact ⟨donate_step_ready_list p t K, donate_step_base p t K,
          donate_step_priority_le p t K⟩
      | some l =>
        simp only [hw] at h
        obtain ⟨h1, h2, h3⟩ := ih _ _ _ h
        exact ⟨h1.trans (donate_step_ready_list p t K),
          fun x => (h2 x).trans (donate_step_base p t K x),
          fun x => le_trans (donate_step_priority_le p t K x) (h3 x)⟩

/-- C7: for every wait chain cur -> t1 -> ... -> tn without repetition (cur
waits on a lock held by t1, each ti waits on a lock held by the next, tn waits
on no lock), `thread_recursive_set_priority (p)` returns, every thread ti of the
chain then has effective priority max (its previous effective priority, p), no
thread has a lower priority than before, and no thread outside the chain is
modified. -/
theorem donation_along_chain (K : Kernel) (p : Int) (chain : List Nat) (fuel : Nat)
    (hchain : wait_chain K K.running chain) (hnodup : chain.Nodup)
    (hfuel : chain.length ≤ fuel) :
    ∃ K', thread_recursive_set_priority fuel p K = some K' ∧
      (∀ t ∈ chain, (K'.threads t).priority = max (K.threads t).priority p) ∧
      (∀ t, (K.threads t).priority ≤ (K'.threads t).priority) ∧
      (∀ t, t ∉ chain → K'.threads t = K.threads t) := by
  cases chain with
  | nil =>
    have hw : (K.threads K.running).lock_waiting = none := hchain
    exact ⟨K, by simp [thread_recursive_set_priority, hw], by simp, fun _ => le_refl _,
      fun _ _ => rfl⟩
  | cons v rest =>
    obtain ⟨⟨l, h1, h2⟩, h3⟩ := hchain
    obtain ⟨K', hK', hin, hout⟩ := donate_loop_chain p rest v K fuel h3 hnodup (by simpa using hfuel)
    have hrun : thread_recursive_set_priority fuel p K = some K' := by
      simp [thread_recursive_set_priority, h1, h2, hK']
    refine ⟨K', hrun, ?_, (donate_loop_frame p fuel (some v) K K' hK').2.2, hout⟩
    intro t ht
    rw [hin t ht]

/-- Witness of `donation_along_chain`: in the sample kernel thread 1 donates
priority 50 along the chain 2, 3. -/
theorem donation_along_chain_witness :
    ∃ K', thread_recursive_set_priority 2 50 sample_kernel = some K' ∧
      (∀ t ∈ [2, 3], (K'.threads t).priority = max (sample_kernel.threads t).priority 50) ∧
      (∀ t, (sample_kernel.threads t).priority ≤ (K'.threads t).priority) ∧
      (∀ t, t ∉ [2, 3] → K'.threads t = sample_kernel.threads t) :=
  donation_along_chain sample_kernel 50 [2, 3] 2
    ⟨⟨10, rfl, rfl⟩, ⟨11, rfl, rfl⟩, rfl⟩ (by decide) (by decide)

/-! ## Theorems: releasing a lock -/

theorem mem_held_locks (th : thread) (x : Option Nat) :
    x ∈ held_locks th ↔ ∃ i, i < th.lock_cnt ∧ th.lock_holding i = x := by
  simp [held_locks, List.mem_map, List.mem_range]

theorem held_locks_eq_nil (th : thread) : held_locks th = [] ↔ th.lock_cnt = 0 := by
  simp [held_locks]

theorem restore_remove_loop_no_match (lock : Nat) :
    ∀ (fuel j : Nat) (h : Nat → Option Nat) (cnt : Nat) (found : Bool),
      cnt - j < fuel → (∀ i, j ≤ i → i < cnt → h i ≠ some lock) →
      restore_remove_loop lock fuel j h cnt found = some (h, cnt, found) := by
  intro fuel
  induction fuel with
  | zero => intro j h cnt found hf; omega
  | succ f ih =>
    intro j h cnt found hf hno
    unfold restore_remove_loop
    by_cases hj : j < cnt
    · have hne : h j ≠ some lock := hno j (le_refl _) hj
      simp only [hj, if_true, hne, if_false]
      exact ih (j + 1) h cnt found (by omega) (fun i h1 h2 => hno i (by omega) h2)
    · simp [hj]

/-- When `lock` sits in exactly one cell `k` of the held-lock list, the first
loop of `thread_restore_priority` ends with the last held lock moved into cell
`k`, the last cell cleared and the count decremented. -/
theorem restore_remove_loop_once (lock : Nat) :
    ∀ (fuel j : Nat) (h : Nat → Option Nat) (cnt : Nat) (found : Bool) (k : Nat),
      j ≤ k → k < cnt → h k = some lock → (∀ i, i < cnt → i ≠ k → h i ≠ some lock) →
      cnt - j < fuel →
      restore_remove_loop lock fuel j h cnt found =
        some (fun i => if i = cnt - 1 then none else if i = k then h (cnt - 1) else h i,
          cnt - 1, true) := by
  intro fuel
  induction fuel with
  | zero => intro j h cnt found k _ _ _ _ hf; omega
  | succ f ih =>
    intro j h cnt found k hjk hk hlock honce hf
    unfold restore_remove_loop
    have hj : j < cnt := by omega
    simp only [hj, if_true]
    by_cases hjk' : j = k
    · subst hjk'
      simp only [hlock, if_true]
      apply restore_remove_loop_no_match lock f (j + 1) _ (cnt - 1) true (by omega)
      intro i h1 h2
      have e1 : i ≠ cnt - 1 := by omega
      have e2 : i ≠ j := by omega
      simp only [e1, e2, if_false]
      exact honce i (by omega) e2
    · have hne : h j ≠ some lock := honce j hj hjk'
      simp only [hne, if_false]
      exact ih (j + 1) h cnt found k (by omega) hk hlock honce (by omega)

/-- Whatever the held-lock list, every cell of the list the first loop leaves
is a cell of the list it started from. -/
theorem restore_remove_loop_cells (lock : Nat) :
    ∀ (fuel j : Nat) (h : Nat → Option Nat) (cnt : Nat) (found : Bool)
      (h' : Nat → Option Nat) (cnt' : Nat) (found' : Bool),
      restore_remove_loop lock fuel j h cnt found = some (h', cnt', found') →
      ∀ i, i < cnt' → ∃ i0, i0 < cnt ∧ h' i = h i0 := by
  intro fuel
  induction fuel with
  | zero => intro j h cnt found h' cnt' found' hr; simp [restore_remove_loop] at hr
  | succ f ih =>
    intro j h cnt found h' cnt' found' hr
    unfold restore_remove_loop at hr
    by_cases hj : j < cnt
    · simp only [hj, if_true] at hr
      by_cases hm : h j = some lock
      · simp only [hm, if_true] at hr
        intro i hi
        obtain ⟨i0, h0, h1⟩ := ih _ _ _ _ _ _ _ hr i hi
        have e1 : i0 ≠ cnt - 1 := by omega
        rw [h1]
        simp only [e1, if_false]
        by_cases e2 : i0 = j
        · exact ⟨cnt - 1, by omega, by simp [e2]⟩
        · exact ⟨i0, by omega, by simp [e2]⟩
      · simp only [hm, if_false] at hr
        exact ih _ _ _ _ _ _ _ hr
    · simp only [hj, if_false, Option.some.injEq, Prod.mk.injEq] at hr
      obtain ⟨r1, r2, -⟩ := hr
      subst r1 r2
      intro i hi
      exact ⟨i, hi, rfl⟩

theorem max_priority_loop_ge (locks : Nat → lock) :
    ∀ (l : List (Option Nat)) (m r : Int), max_priority_loop locks l m = some r → m ≤ r := by
  intro l
  induction l with
  | nil => intro m r h; simp only [max_priority_loop, Option.some.injEq] at h; omega
  | cons x xs ih =>
    intro m r h
    cases x with
    | none => simp [max_priority_loop] at h
    | some k =>
      simp only [max_priority_loop] at h
      have := ih _ _ h
      split at this <;> omega

theorem max_priority_loop_max (locks : Nat → lock) :
    ∀ (l : List (Option Nat)) (m : Int), (∀ x ∈ l, x ≠ none) →
      ∃ r, max_priority_loop locks l m = some r ∧ m ≤ r ∧
        (∀ k, some k ∈ l → (locks k).priority ≤ r) ∧
        (r = m ∨ ∃ k, some k ∈ l ∧ (locks k).priority = r) := by
  intro l
  induction l with
  | nil => intro m _; exact ⟨m, rfl, le_refl _, by simp, Or.inl rfl⟩
  | cons x xs ih =>
    intro m hnn
    cases x with
    | none => exact absurd rfl (hnn none (List.mem_cons_self _ _))
    | some k =>
      obtain ⟨r, h1, h2, h3, h4⟩ :=
        ih (if (locks k).priority > m then (locks k).priority else m)
          (fun x hx => hnn x (List.mem_cons_of_mem _ hx))
      refine ⟨r, by simp only [max_priority_loop]; exact h1, ?_, ?_, ?_⟩
      · split at h2 <;> omega
      · intro k' hk'
        rcases List.mem_cons.mp hk' with e | e
        · cases e
          split at h2 <;> omega
        · exact h3 k' e
      · rcases h4 with e | ⟨k', e1, e2⟩
        · by_cases hgt : (locks k).priority > m
          · rw [if_pos hgt] at e
            exact Or.inr ⟨k, List.mem_cons_self _ _, e.symm⟩
          · rw [if_neg hgt] at e
            exact Or.inl e
        · exact Or.inr ⟨k', List.mem_cons_of_mem _ e1, e2⟩

theorem set_thread_same (K : Kernel) (t : Nat) (th : thread) :
    (K.set_thread t th).threads t = th := by
  simp [Kernel.set_thread]

theorem set_thread_other (K : Kernel) (t u : Nat) (th : thread) (h : u ≠ t) :
    (K.set_thread t th).threads u = K.threads u := by
  simp [Kernel.set_thread, h]

/-- C8 (amended): for a thread `t` whose held-lock list holds `lock` in exactly
one cell and no null cell, `thread_restore_priority (t, lock)` returns; `lock`
is then no longer in the held-lock list of `t`, every other lock is held
exactly if it was held before, and the effective priority of `t` is its base
priority when no lock remains and otherwise the maximum of the priorities of
the locks still held (the base priority does not enter that maximum). -/
theorem restore_priority_of_held_locks (K : Kernel) (t lock k : Nat)
    (hk : k < (K.threads t).lock_cnt)
    (hlock : (K.threads t).lock_holding k = some lock)
    (honce : ∀ i, i < (K.threads t).lock_cnt → i ≠ k →
      (K.threads t).lock_holding i ≠ some lock)
    (hnn : ∀ i, i < (K.threads t).lock_cnt → (K.threads t).lock_holding i ≠ none)
    (_hcap : (K.threads t).lock_cnt ≤ MAX_LOCKS) :
    ∃ K', thread_restore_priority K t lock = some K' ∧
      some lock ∉ held_locks (K'.threads t) ∧
      (∀ l, l ≠ lock →
        (some l ∈ held_locks (K'.threads t) ↔ some l ∈ held_locks (K.threads t))) ∧
      (held_locks (K'.threads t) = [] →
        (K'.threads t).priority = (K.threads t).base_priority) ∧
      (held_locks (K'.threads t) ≠ [] →
        (∀ l, some l ∈ held_locks (K'.threads t) →
          (K.locks l).priority ≤ (K'.threads t).priority) ∧
        ∃ l, some l ∈ held_locks (K'.threads t) ∧
          (K.locks l).priority = (K'.threads t).priority) := by
  generalize hth : K.threads t = th at hk hlock honce hnn
  obtain ⟨st, pr, base, lw, h, cnt, nice, rc⟩ := th
  simp only at hk hlock honce hnn
  -- the array after the first loop
  let h2 : Nat → Option Nat :=
    fun i => if i = cnt - 1 then none else if i = k then h (cnt - 1) else h i
  have hloop : restore_remove_loop lock (cnt + 1) 0 h cnt false = some (h2, cnt - 1, true) :=
    restore_remove_loop_once lock (cnt + 1) 0 h cnt false k (Nat.zero_le _) hk hlock honce
      (by omega)
  have hcell : ∀ i, i < cnt - 1 → h2 i = if i = k then h (cnt - 1) else h i := by
    intro i hi
    have e : i ≠ cnt - 1 := by omega
    simp only [h2, e, if_false]
  have hB : ∀ i, i < cnt - 1 → h2 i ≠ some lock := by
    intro i hi
    rw [hcell i hi]
    by_cases e : i = k
    · simp only [e, if_true]
      exact honce (cnt - 1) (by omega) (by omega)
    · simp only [e, if_false]
      exact honce i (by omega) e
  have hD : ∀ i, i < cnt - 1 → h2 i ≠ none := by
    intro i hi
    rw [hcell i hi]
    by_cases e : i = k
    · simp only [e, if_true]
      exact hnn (cnt - 1) (by omega)
    · simp only [e, if_false]
      exact hnn i (by omega)
  have hC : ∀ l, l ≠ lock →
      ((∃ i, i < cnt - 1 ∧ h2 i = some l) ↔ (∃ i, i < cnt ∧ h i = some l)) := by
    intro l hl
    constructor
    · rintro ⟨i, hi, e⟩
      rw [hcell i hi] at e
      by_cases e2 : i = k
      · simp only [e2, if_true] at e
        exact ⟨cnt - 1, by omega, e⟩
      · simp only [e2, if_false] at e
        exact ⟨i, by omega, e⟩
    · rintro ⟨i, hi, e⟩
      have hik : i ≠ k := by
        intro e2
        rw [e2, hlock] at e
        exact hl (Option.some.inj e).symm
      by_cases e3 : i = cnt - 1
      · have hk1 : k < cnt - 1 := by omega
        refine ⟨k, hk1, ?_⟩
        rw [hcell k hk1, if_pos rfl, ← e3]
        exact e
      · have hi1 : i < cnt - 1 := by omega
        refine ⟨i, hi1, ?_⟩
        rw [hcell i hi1, if_neg hik]
        exact e
  have hcnt : cnt ≠ 0 := by omega
  by_cases hz : cnt - 1 = 0
  · -- no lock remains
    refine ⟨K.set_thread t ⟨st, base, base, lw, h2, cnt - 1, nice, rc⟩, ?_, ?_, ?_, ?_, ?_⟩
    · unfold thread_restore_priority
      simp only [hth, hcnt, if_false, hloop, Bool.not_true, Bool.false_eq_true, hz, if_true]
    · rw [set_thread_same, mem_held_locks]
      rintro ⟨i, hi, e⟩
      exact hB i hi e
    · intro l hl
      rw [set_thread_same, mem_held_locks, mem_held_locks]
      exact hC l hl
    · intro _
      rw [set_thread_same]
    · intro hne
      rw [set_thread_same, Ne, held_locks_eq_nil] at hne
      exact absurd hz hne
  · -- some lock remains
    have h0 : 0 < cnt - 1 := by omega
    obtain ⟨l0, hl0⟩ : ∃ l0, h2 0 = some l0 := by
      cases e : h2 0 with
      | none => exact absurd e (hD 0 h0)
      | some l0 => exact ⟨l0, rfl⟩
    have hall : ∀ x ∈ (List.range (cnt - 1)).map h2, x ≠ none := by
      intro x hx
      obtain ⟨i, hi, e⟩ := List.mem_map.mp hx
      rw [← e]
      exact hD i (List.mem_range.mp hi)
    obtain ⟨r, hr, hmr, hle, hex⟩ :=
      max_priority_loop_max K.locks ((List.range (cnt - 1)).map h2) (K.locks l0).priority hall
    have hmem : ∀ x, x ∈ (List.range (cnt - 1)).map h2 ↔ ∃ i, i < cnt - 1 ∧ h2 i = x := by
      intro x
      simp [List.mem_map, List.mem_range]
    refine ⟨K.set_thread t ⟨st, r, base, lw, h2, cnt - 1, nice, rc⟩, ?_, ?_, ?_, ?_, ?_⟩
    · unfold thread_restore_priority
      simp only [hth, hcnt, if_false, hloop, Bool.not_true, Bool.false_eq_true, hz, hl0, hr]
    · rw [set_thread_same, mem_held_locks]
      rintro ⟨i, hi, e⟩
      exact hB i hi e
    · intro l hl
      rw [set_thread_same, mem_held_locks, mem_held_locks]
      exact hC l hl
    · intro he
      rw [set_thread_same, held_locks_eq_nil] at he
      exact absurd he hz
    · intro _
      rw [set_thread_same]
      constructor
      · intro l hl
        rw [mem_held_locks] at hl
        exact hle l ((hmem _).mpr hl)
      · rcases hex with e | ⟨l, e1, e2⟩
        · exact ⟨l0, (mem_held_locks _ _).mpr ⟨0, h0, hl0⟩, e.symm⟩
        · exact ⟨l, (mem_held_locks _ _).mpr ((hmem _).mp e1), e2⟩

/-- Witness of `restore_priority_of_held_locks`: thread 5 of the sample kernel
releases lock 12 and keeps lock 13. -/
theorem restore_priority_of_held_locks_witness :
    ∃ K', thread_restore_priority sample_kernel 5 12 = some K' ∧
      some 12 ∉ held_locks (K'.threads 5) ∧
      (∀ l, l ≠ 12 →
        (some l ∈ held_locks (K'.threads 5) ↔ some l ∈ held_locks (sample_kernel.threads 5))) ∧
      (held_locks (K'.threads 5) = [] →
        (K'.threads 5).priority = (sample_kernel.threads 5).base_priority) ∧
      (held_locks (K'.threads 5) ≠ [] →
        (∀ l, some l ∈ held_locks (K'.threads 5) →
          (sample_kernel.locks l).priority ≤ (K'.threads 5).priority) ∧
        ∃ l, some l ∈ held_locks (K'.threads 5) ∧
          (sample_kernel.locks l).priority = (K'.threads 5).priority) :=
  restore_priority_of_held_locks sample_kernel 5 12 0 (by decide) (by decide) (by decide)
    (by decide) (by decide)

/-- C8 fails as stated: thread 5 of the sample kernel has base priority 31 and
holds the locks 12 and 13, both of priority 20. After
`thread_restore_priority (5, 12)` it still holds lock 13 and its effective
priority is 20, not max (31, 20) = 31. -/
theorem restore_priority_below_base :
    (sample_kernel.threads 5).base_priority = 31 ∧
    held_locks (sample_kernel.threads 5) = [some 12, some 13] ∧
    (sample_kernel.locks 13).priority = 20 ∧
    (thread_restore_priority sample_kernel 5 12).map
      (fun K' => ((K'.threads 5).priority, held_locks (K'.threads 5))) = some (20, [some 13]) ∧
    (20 : Int) ≠ max 31 20 := by
  decide

/-! ## Theorems: effective priority against base priority -/

theorem next_thread_to_run_snd (K : Kernel) :
    (next_thread_to_run K).2 = { K with ready_list := K.ready_list.tail } := by
  obtain ⟨th, lk, rl, al, run, idle, m, ps⟩ := K
  cases rl with
  | nil => rfl
  | cons a as => rfl

theorem next_thread_to_run_PriSch_snd (K : Kernel) :
    (next_thread_to_run_PriSch K).2 = { K with ready_list := K.ready_list.tail } := by
  obtain ⟨th, lk, rl, al, run, idle, m, ps⟩ := K
  cases rl with
  | nil => rfl
  | cons a as =>
    simp only [next_thread_to_run_PriSch, List.tail_cons]
    split <;> rfl

theorem schedule_pick_snd (K : Kernel) :
    (if K.thread_pri_sch then next_thread_to_run_PriSch K else next_thread_to_run K).2 =
      { K with ready_list := K.ready_list.tail } := by
  split
  · exact next_thread_to_run_PriSch_snd K
  · exact next_thread_to_run_snd K

theorem schedule_eq (K K' : Kernel) (h : schedule K = some K') :
    ∃ next, K' = ({ K with ready_list := K.ready_list.tail, running := next }).set_thread next
      { K.threads next with status := thread_status.THREAD_RUNNING } := by
  unfold schedule at h
  split at h
  · cases h
  · split at h
    · cases h
    · rename_i next K1 heq
      simp only [Option.some.injEq] at h
      subst h
      have hK1 := congrArg Prod.snd heq
      rw [schedule_pick_snd] at hK1
      simp only at hK1
      subst hK1
      exact ⟨next, rfl⟩

theorem schedule_priorities (K K' : Kernel) (h : schedule K = some K') (t : Nat) :
    (K'.threads t).priority = (K.threads t).priority ∧
    (K'.threads t).base_priority = (K.threads t).base_priority := by
  obtain ⟨next, rfl⟩ := schedule_eq K K' h
  by_cases e : t = next
  · subst e
    simp [Kernel.set_thread]
  · simp [Kernel.set_thread, e]

theorem thread_yield_priorities (K K' : Kernel) (h : thread_yield K = some K') (t : Nat) :
    (K'.threads t).priority = (K.threads t).priority ∧
    (K'.threads t).base_priority = (K.threads t).base_priority := by
  unfold thread_yield at h
  split at h
  · cases h
  · have hs := schedule_priorities _ _ h t
    rw [hs.1, hs.2]
    by_cases e : t = K.running
    · subst e
      split <;> simp [Kernel.set_thread]
    · split <;> simp [Kernel.set_thread, e]

theorem thread_yield_on_priority_priorities (K K' : Kernel)
    (h : thread_yield_on_priority K = some K') (t : Nat) :
    (K'.threads t).priority = (K.threads t).priority ∧
    (K'.threads t).base_priority = (K.threads t).base_priority := by
  unfold thread_yield_on_priority at h
  split at h
  · cases h
  · split at h
    · exact thread_yield_priorities K K' h t
    · cases h
      exact ⟨rfl, rfl⟩

/-- C9 (amended): in strict-priority mode, if every thread has effective
priority at least its base priority, this still holds for every thread after
`thread_recursive_set_priority`; after `thread_set_priority (new_priority)` when
the running thread holds no donation (its priority equals its base) or
`new_priority` is at most its priority; and after
`thread_restore_priority (t, lock)` when every lock `t` holds has a priority of
at least the base priority of `t`. -/
theorem priority_ge_base_preserved (K : Kernel) (hstrict : K.thread_mlfqs = false)
    (hinv : priority_ge_base K) :
    (∀ fuel p K', thread_recursive_set_priority fuel p K = some K' → priority_ge_base K') ∧
    (∀ new_priority K',
      ((K.threads K.running).priority = (K.threads K.running).base_priority ∨
        new_priority ≤ (K.threads K.running).priority) →
      thread_set_priority K new_priority = some K' → priority_ge_base K') ∧
    (∀ t lock K',
      (∀ l, some l ∈ held_locks (K.threads t) →
        (K.threads t).base_priority ≤ (K.locks l).priority) →
      thread_restore_priority K t lock = some K' → priority_ge_base K') := by
  refine ⟨?_, ?_, ?_⟩
  · intro fuel p K' h t
    unfold thread_recursive_set_priority at h
    split at h
    · cases h
      exact hinv t
    · obtain ⟨-, h2, h3⟩ := donate_loop_frame p fuel _ K K' h
      rw [h2 t]
      exact le_trans (hinv t) (h3 t)
  · intro new_priority K' hcond h t
    unfold thread_set_priority at h
    simp only [hstrict, Bool.not_false, if_true] at h
    split at h
    · cases h
    · obtain ⟨h1, h2⟩ := thread_yield_on_priority_priorities _ _ h t
      rw [h1, h2]
      by_cases e : t = K.running
      · subst e
        rw [set_thread_same]
        by_cases hb : (K.threads K.running).base_priority = (K.threads K.running).priority
        · simp [hb]
        · simp only [hb, if_false]
          rcases hcond with hc | hc
          · exact absurd hc.symm hb
          · exact hc
      · rw [set_thread_other _ _ _ _ e]
        exact hinv t
  · intro t lock K' hlocks h u
    unfold thread_restore_priority at h
    simp only at h
    split at h
    · cases h
    · split at h
      · cases h
      · rename_i h' cnt' found' hloop
        split at h
        · cases h
        · split at h
          · cases h
            by_cases e : u = t
            · subst e
              rw [set_thread_same]
            · rw [set_thread_other _ _ _ _ e]
              exact hinv u
          · rename_i hcnt
            split at h
            · cases h
            · rename_i l0 hl0
              split at h
              · cases h
              · rename_i m hm
                cases h
                by_cases e : u = t
                · subst e
                  rw [set_thread_same]
                  simp only
                  obtain ⟨i0, hi0, hc⟩ :=
                    restore_remove_loop_cells lock _ _ _ _ _ _ _ _ hloop 0 (by omega)
                  have hmem : some l0 ∈ held_locks (K.threads u) :=
                    (mem_held_locks _ _).mpr ⟨i0, hi0, by rw [← hc, hl0]⟩
                  exact le_trans (hlocks l0 hmem) (max_priority_loop_ge _ _ _ _ hm)
                · rw [set_thread_other _ _ _ _ e]
                  exact hinv u

theorem sample_kernel_donated_ge_base : priority_ge_base sample_kernel_donated := by
  intro t
  simp only [sample_kernel_donated, sample_kernel, mk_thread]
  split_ifs <;> decide

/-- Witness of `priority_ge_base_preserved`: in the sample kernel with thread 6
running (base 31, donated priority 40), the donation walk of thread 6, then
`thread_set_priority (35)`, then thread 6 releasing its lock 14. -/
theorem priority_ge_base_preserved_witness :
    (∃ K', thread_recursive_set_priority 1 45 sample_kernel_donated = some K' ∧
      priority_ge_base K') ∧
    (∃ K', thread_set_priority sample_kernel_donated 35 = some K' ∧ priority_ge_base K') ∧
    (∃ K', thread_restore_priority sample_kernel_donated 6 14 = some K' ∧
      priority_ge_base K') :=
  ⟨⟨_, rfl, (priority_ge_base_preserved sample_kernel_donated rfl
      sample_kernel_donated_ge_base).1 1 45 _ rfl⟩,
    ⟨_, rfl, (priority_ge_base_preserved sample_kernel_donated rfl
      sample_kernel_donated_ge_base).2.1 35 _ (Or.inr (by decide)) rfl⟩,
    ⟨_, rfl, (priority_ge_base_preserved sample_kernel_donated rfl
      sample_kernel_donated_ge_base).2.2 6 14 _
        (fun l hl => by
          have e : l = 14 := by
            simpa [held_locks, sample_kernel_donated, mk_thread, List.range_succ] using hl
          subst e
          decide) rfl⟩⟩

/-- C9 fails as stated: in the sample kernel with thread 6 running (strict
priority mode, base 31, donated priority 40, every thread at or above its base)
`thread_set_priority (50)` leaves thread 6 with base 50 above its effective
priority 40, and `thread_restore_priority (5, 12)` leaves thread 5 (base 31)
with effective priority 20. -/
theorem priority_below_base_after_call :
    sample_kernel_donated.thread_mlfqs = false ∧
    priority_ge_base sample_kernel_donated ∧
    (∃ K', thread_set_priority sample_kernel_donated 50 = some K' ∧
      ¬ priority_ge_base K') ∧
    (∃ K', thread_restore_priority sample_kernel_donated 5 12 = some K' ∧
      ¬ priority_ge_base K') :=
  ⟨rfl, sample_kernel_donated_ge_base,
    ⟨(thread_set_priority sample_kernel_donated 50).getD sample_kernel, rfl,
      fun h => absurd (h 6) (by decide)⟩,
    ⟨(thread_restore_priority sample_kernel_donated 5 12).getD sample_kernel, rfl,
      fun h => absurd (h 5) (by decide)⟩⟩

/-! ## Theorems: order of the ready list -/

theorem mem_list_insert_ordered (less : Nat → Nat → Bool) (t x : Nat) (l : List Nat) :
    x ∈ list_insert_ordered less t l ↔ x = t ∨ x ∈ l := by
  induction l with
  | nil => simp [list_insert_ordered]
  | cons e es ih =>
    unfold list_insert_ordered
    split
    · simp
    · simp only [List.mem_cons, ih]
      tauto

/-- Inserting with `thread_compare_priority` keeps a list sorted by priority,
descending. -/
theorem list_insert_ordered_sorted (K : Kernel) (t : Nat) (l : List Nat)
    (h : l.Pairwise (fun a b => (K.threads b).priority ≤ (K.threads a).priority)) :
    (list_insert_ordered (thread_compare_priority K) t l).Pairwise
      (fun a b => (K.threads b).priority ≤ (K.threads a).priority) := by
  induction l with
  | nil => simp [list_insert_ordered]
  | cons e es ih =>
    obtain ⟨h1, h2⟩ := List.pairwise_cons.mp h
    unfold list_insert_ordered
    by_cases hl : thread_compare_priority K t e = true
    · simp only [hl, if_true]
      have hlt : (K.threads e).priority < (K.threads t).priority := by
        simpa [thread_compare_priority] using hl
      refine List.pairwise_cons.mpr ⟨?_, h⟩
      intro x hx
      rcases List.mem_cons.mp hx with e1 | e1
      · subst e1; omega
      · have := h1 x e1
        omega
    · simp only [hl, if_false]
      have hge : (K.threads t).priority ≤ (K.threads e).priority := by
        simpa [thread_compare_priority] using hl
      refine List.pairwise_cons.mpr ⟨?_, ih h2⟩
      intro x hx
      rcases (mem_list_insert_ordered _ t x es).mp hx with e1 | e1
      · subst e1; exact hge
      · exact h1 x e1

theorem ready_sorted_of_eq (K K' : Kernel)
    (hp : ∀ t, (K'.threads t).priority = (K.threads t).priority)
    (h : K'.ready_list.Pairwise (fun a b => (K.threads b).priority ≤ (K.threads a).priority)) :
    ready_sorted K' := by
  unfold ready_sorted
  have e : (fun a b => (K'.threads b).priority ≤ (K'.threads a).priority) =
      (fun a b => (K.threads b).priority ≤ (K.threads a).priority) := by
    funext a b
    rw [hp a, hp b]
  rw [e]
  exact h

theorem schedule_sorted (K K' : Kernel) (hs : ready_sorted K) (h : schedule K = some K') :
    ready_sorted K' := by
  have hp := fun t => (schedule_priorities K K' h t).1
  obtain ⟨next, rfl⟩ := schedule_eq K K' h
  apply ready_sorted_of_eq K _ hp
  exact List.Pairwise.sublist (List.tail_sublist _) hs

theorem thread_calc_all_priority_ready_list (K : Kernel) :
    (thread_calc_all_priority K).ready_list = K.ready_list := by
  unfold thread_calc_all_priority
  generalize K.all_list = l
  induction l generalizing K with
  | nil => rfl
  | cons a as ih =>
    rw [List.foldl_cons, ih]
    rfl

/-- C10 (amended): sortedness of the ready list by effective priority,
descending, is preserved by `thread_unblock`, by `thread_yield` and by the
scheduler popping the next thread. `thread_recursive_set_priority` and
`thread_calc_all_priority` change priorities in place and leave the ready list
in the order it had: they never re-sort it. -/
theorem ready_list_order (K : Kernel) (hs : ready_sorted K) :
    (∀ t K', thread_unblock K t = some K' → ready_sorted K') ∧
    (∀ K', thread_yield K = some K' → ready_sorted K') ∧
    (ready_sorted (next_thread_to_run K).2 ∧ ready_sorted (next_thread_to_run_PriSch K).2 ∧
      ∀ K', schedule K = some K' → ready_sorted K') ∧
    (∀ fuel p K', thread_recursive_set_priority fuel p K = some K' →
      K'.ready_list = K.ready_list) ∧
    (thread_calc_all_priority K).ready_list = K.ready_list := by
  refine ⟨?_, ?_, ⟨?_, ?_, ?_⟩, ?_, ?_⟩
  · intro t K' h
    unfold thread_unblock at h
    split at h
    · cases h
    · cases h
      apply ready_sorted_of_eq K
      · intro u
        by_cases e : u = t
        · subst e; simp [Kernel.set_thread]
        · simp [Kernel.set_thread, e]
      · exact list_insert_ordered_sorted K t K.ready_list hs
  · intro K' h
    unfold thread_yield at h
    split at h
    · cases h
    · refine schedule_sorted _ K' ?_ h
      apply ready_sorted_of_eq K
      · intro u
        by_cases e : u = K.running
        · subst e
          split <;> simp [Kernel.set_thread]
        · split <;> simp [Kernel.set_thread, e]
      · split
        · exact list_insert_ordered_sorted K K.running K.ready_list hs
        · exact hs
  · rw [next_thread_to_run_snd]
    exact List.Pairwise.sublist (List.tail_sublist _) hs
  · rw [next_thread_to_run_PriSch_snd]
    exact List.Pairwise.sublist (List.tail_sublist _) hs
  · intro K' h
    exact schedule_sorted K K' hs h
  · intro fuel p K' h
    unfold thread_recursive_set_priority at h
    split at h
    · cases h; rfl
    · exact (donate_loop_frame p fuel _ K K' h).1
  · exact thread_calc_all_priority_ready_list K

theorem sample_kernel_ready_sorted : ready_sorted sample_kernel := by
  unfold ready_sorted
  decide

/-- Witness of `ready_list_order`: the sample kernel, whose ready list holds
thread 4 (priority 40) before thread 2 (priority 30); the blocked thread 3 is
unblocked, the running thread 1 yields, the scheduler pops. -/
theorem ready_list_order_witness :
    (∃ K', thread_unblock sample_kernel 3 = some K' ∧ K'.ready_list = [4, 2, 3] ∧
      ready_sorted K') ∧
    (∃ K', thread_yield sample_kernel = some K' ∧ ready_sorted K') ∧
    (ready_sorted (next_thread_to_run sample_kernel).2 ∧
      ready_sorted (next_thread_to_run_PriSch sample_kernel).2) ∧
    (∃ K', thread_recursive_set_priority 2 50 sample_kernel = some K' ∧
      K'.ready_list = sample_kernel.ready_list) ∧
    (thread_calc_all_priority sample_kernel).ready_list = sample_kernel.ready_list :=
  ⟨⟨_, rfl, rfl, (ready_list_order sample_kernel sample_kernel_ready_sorted).1 3 _ rfl⟩,
    ⟨_, rfl, (ready_list_order sample_kernel sample_kernel_ready_sorted).2.1 _ rfl⟩,
    ⟨(ready_list_order sample_kernel sample_kernel_ready_sorted).2.2.1.1,
      (ready_list_order sample_kernel sample_kernel_ready_sorted).2.2.1.2.1⟩,
    ⟨_, rfl, (ready_list_order sample_kernel sample_kernel_ready_sorted).2.2.2.1 2 50 _ rfl⟩,
    (ready_list_order sample_kernel sample_kernel_ready_sorted).2.2.2.2⟩

/-- C10 fails as stated: the ready list of the sample kernel is sorted (thread
4 of priority 40, then thread 2 of priority 30); the running thread 1 waits on
a lock held by thread 2, and after `thread_recursive_set_priority (50)` thread 2
has priority 50 behind thread 4 of priority 40: the ready list is no longer
sorted. -/
theorem donation_unsorts_ready_list :
    ready_sorted sample_kernel ∧
    ∃ K', thread_recursive_set_priority 2 50 sample_kernel = some K' ∧
      K'.ready_list = [4, 2] ∧ (K'.threads 4).priority = 40 ∧ (K'.threads 2).priority = 50 ∧
      ¬ ready_sorted K' :=
  ⟨sample_kernel_ready_sorted,
    (thread_recursive_set_priority 2 50 sample_kernel).getD sample_kernel, rfl,
    by decide, by decide, by decide, by unfold ready_sorted; decide⟩

/-! ## Theorems: yielding to a thread of higher priority -/

/-- On a list sorted by priority, descending, the scan of
`thread_yield_on_priority` answers true exactly when some thread of the list
has a priority strictly greater than `p`. -/
theorem yield_scan_iff (K : Kernel) (p : Int) (l : List Nat)
    (hs : l.Pairwise (fun a b => (K.threads b).priority ≤ (K.threads a).priority)) :
    yield_scan K p l = true ↔ ∃ t ∈ l, p < (K.threads t).priority := by
  induction l with
  | nil => simp [yield_scan]
  | cons t ts ih =>
    obtain ⟨h1, h2⟩ := List.pairwise_cons.mp hs
    unfold yield_scan
    by_cases hgt : (K.threads t).priority > p
    · simp only [hgt, if_true, true_iff]
      exact ⟨t, List.mem_cons_self _ _, hgt⟩
    · simp only [hgt, if_false]
      by_cases heq : (K.threads t).priority = p
      · simp only [heq, if_true, Bool.false_eq_true, false_iff]
        rintro ⟨u, hu, hp⟩
        rcases List.mem_cons.mp hu with e | e
        · subst e; omega
        · have := h1 u e
          omega
      · simp only [heq, if_false]
        rw [ih h2]
        constructor
        · rintro ⟨u, hu, hp⟩
          exact ⟨u, List.mem_cons_of_mem _ hu, hp⟩
        · rintro ⟨u, hu, hp⟩
          rcases List.mem_cons.mp hu with e | e
          · subst e; omega
          · exact ⟨u, e, hp⟩

theorem schedule_to_head (K : Kernel) (H : Nat)
    (hst : (K.threads K.running).status ≠ thread_status.THREAD_RUNNING)
    (hl : ∃ rest, K.ready_list = H :: rest)
    (hp : (K.threads K.running).priority ≤ (K.threads H).priority) :
    ∃ K', schedule K = some K' ∧ K'.running = H := by
  obtain ⟨th, lk, rl, al, run, idle, m, ps⟩ := K
  obtain ⟨rest, hl⟩ := hl
  simp only at hst hl hp
  subst hl
  unfold schedule
  simp only [hst, if_false]
  cases ps with
  | true =>
    have hc : (th H).priority ≥ (th run).priority ∨
        (th run).status = thread_status.THREAD_DYING ∨
        (th run).status = thread_status.THREAD_BLOCKED := Or.inl hp
    simp only [if_true, next_thread_to_run_PriSch, hc]
    exact ⟨_, rfl, rfl⟩
  | false =>
    simp only [Bool.false_eq_true, if_false, next_thread_to_run]
    exact ⟨_, rfl, rfl⟩

/-- When the head of the ready list has a priority above the running thread,
`thread_yield` returns with that head as the running thread. -/
theorem thread_yield_to_head (K : Kernel) (H : Nat) (rest : List Nat)
    (hrun : (K.threads K.running).status = thread_status.THREAD_RUNNING)
    (hl : K.ready_list = H :: rest)
    (hp : (K.threads K.running).priority < (K.threads H).priority) :
    ∃ K', thread_yield K = some K' ∧ K'.running = H := by
  have hless : thread_compare_priority K K.running H = false := by
    simp only [thread_compare_priority, decide_eq_false_iff_not, not_lt]
    omega
  unfold thread_yield
  rw [if_neg (by simp [hrun])]
  apply schedule_to_head
  · split <;> simp [Kernel.set_thread]
  · split
    · exact ⟨list_insert_ordered (thread_compare_priority K) K.running rest, by
        simp [Kernel.set_thread, hl, list_insert_ordered, hless]⟩
    · exact ⟨rest, by simp [Kernel.set_thread, hl]⟩
  · have hH : H ≠ K.running := by
      intro e
      rw [e] at hp
      omega
    split <;> simp [Kernel.set_thread, hH] <;> omega

/-- C11: when the ready list is sorted by effective priority, descending,
`thread_yield_on_priority` (called by the running thread) yields the CPU
exactly when some thread on the ready list has an effective priority strictly
greater than the current thread: in that case it runs `thread_yield` and the
head of the ready list, which has a greater priority, becomes the running
thread; otherwise, with equal or lower priorities only, it returns with the
state unchanged. -/
theorem yield_on_priority_iff (K : Kernel)
    (hrun : (K.threads K.running).status = thread_status.THREAD_RUNNING)
    (hs : ready_sorted K) :
    ((∃ t ∈ K.ready_list, (K.threads K.running).priority < (K.threads t).priority) →
      thread_yield_on_priority K = thread_yield K ∧
      ∃ K' H rest, K.ready_list = H :: rest ∧ thread_yield_on_priority K = some K' ∧
        K'.running = H ∧ (K.threads K.running).priority < (K.threads H).priority) ∧
    ((¬ ∃ t ∈ K.ready_list, (K.threads K.running).priority < (K.threads t).priority) →
      thread_yield_on_priority K = some K) := by
  have hscan := yield_scan_iff K (K.threads K.running).priority K.ready_list hs
  constructor
  · intro hex
    have hy : thread_yield_on_priority K = thread_yield K := by
      unfold thread_yield_on_priority
      simp [hrun, hscan.mpr hex]
    refine ⟨hy, ?_⟩
    obtain ⟨t, ht, hp⟩ := hex
    cases hl : K.ready_list with
    | nil => rw [hl] at ht; cases ht
    | cons H rest =>
      have hH : (K.threads K.running).priority < (K.threads H).priority := by
        rw [hl] at ht
        rcases List.mem_cons.mp ht with e | e
        · subst e; exact hp
        · have hs' : (H :: rest).Pairwise
              (fun a b => (K.threads b).priority ≤ (K.threads a).priority) := by
            unfold ready_sorted at hs
            rw [hl] at hs
            exact hs
          have := (List.pairwise_cons.mp hs').1 t e
          omega
      obtain ⟨K', hK', hr⟩ := thread_yield_to_head K H rest hrun hl hH
      exact ⟨K', H, rest, rfl, by rw [hy, hK'], hr, hH⟩
  · intro hno
    have hf : yield_scan K (K.threads K.running).priority K.ready_list = false := by
      cases h : yield_scan K (K.threads K.running).priority K.ready_list with
      | false => rfl
      | true => exact absurd (hscan.mp h) hno
    unfold thread_yield_on_priority
    simp [hrun, hf]

/-- Witness of `yield_on_priority_iff`: in the sample kernel with thread 7
running at priority 35 the head of the ready list, thread 4 of priority 40,
takes the CPU. -/
theorem yield_on_priority_iff_witness :
    thread_yield_on_priority sample_kernel_low = thread_yield sample_kernel_low ∧
    ∃ K' H rest, sample_kernel_low.ready_list = H :: rest ∧
      thread_yield_on_priority sample_kernel_low = some K' ∧ K'.running = H ∧
      (sample_kernel_low.threads sample_kernel_low.running).priority <
        (sample_kernel_low.threads H).priority :=
  (yield_on_priority_iff sample_kernel_low rfl (by unfold ready_sorted; decide)).1
    ⟨4, by decide, by decide⟩

/-! ## Theorems: the mlfqs priority -/

/-- C12 (as the code behaves): `thread_calc_priority` stores
`PRI_MAX - recent_cpu / 4 - 2 * nice` in the priority field without clamping;
the range test that follows only selects the return value. For thread 4 of the
sample kernel with nice -20 and `recent_cpu` 0 the field becomes 103, above
`PRI_MAX` = 63, while the clamped value is 63 and the function returns 0. -/
theorem calc_priority_not_clamped :
    (∀ (K : Kernel) (t : Nat), ((thread_calc_priority K t).threads t).priority =
      PRI_MAX - fp_convert_to_int_rdn (fp_divide_by_int (K.threads t).recent_cpu_fp 4)
        - (K.threads t).nice * 2) ∧
    (sample_kernel_nice.threads 4).nice = -20 ∧
    (sample_kernel_nice.threads 4).recent_cpu_fp = 0 ∧
    ((thread_calc_priority sample_kernel_nice 4).threads 4).priority = 103 ∧
    clamp_priority (PRI_MAX - 0 - (-20) * 2) = 63 ∧
    thread_calc_priority_result sample_kernel_nice 4 = 0 := by
  refine ⟨?_, by decide, by decide, by decide, by decide, by decide⟩
  intro K t
  simp [thread_calc_priority, Kernel.set_thread]

/-! ## Theorems: waiting twice for the same child -/

theorem find_pwait_node_set (pid : Nat) (v : Nat) :
    ∀ (l : List pwait_node_) (ofs i : Nat) (node : pwait_node_), l.get? i = some node →
      find_pwait_node pid (l.set i { node with sema := v }) ofs = find_pwait_node pid l ofs := by
  intro l
  induction l with
  | nil => intro ofs i node h; simp at h
  | cons x xs ih =>
    intro ofs i node h
    cases i with
    | zero =>
      simp only [List.get?_cons_zero, Option.some.injEq] at h
      subst h
      simp [find_pwait_node]
    | succ j =>
      simp only [List.get?_cons_succ] at h
      simp only [List.set_cons_succ, find_pwait_node]
      rw [ih (ofs + 1) j node h]

theorem find_pwait_node_lt (pid : Nat) :
    ∀ (l : List pwait_node_) (ofs i : Nat), find_pwait_node pid l ofs = some i →
      ofs ≤ i ∧ i - ofs < l.length := by
  intro l
  induction l with
  | nil => intro ofs i h; simp [find_pwait_node] at h
  | cons x xs ih =>
    intro ofs i h
    unfold find_pwait_node at h
    split at h
    · cases h
      simp
    · obtain ⟨h1, h2⟩ := ih (ofs + 1) i h
      simp only [List.length_cons]
      omega

/-- C13 (as the code behaves): when the child `pid` has exited (the semaphore
of its wait node was upped once), the first `process_wait (pid)` returns the
exit status and leaves the semaphore at 0; a second `process_wait (pid)` finds
the same node, never looks at `waited`, and blocks in `sema_down` instead of
returning -1. -/
theorem second_wait_blocks (l : List pwait_node_) (pid i : Nat) (node : pwait_node_)
    (hfind : find_pwait_node pid l 0 = some i) (hget : l.get? i = some node)
    (hsema : node.sema = 1) :
    process_wait l pid = call_result.returned (node.status, l.set i { node with sema := 0 }) ∧
    process_wait (l.set i { node with sema := 0 }) pid = call_result.blocked := by
  have hlt := (find_pwait_node_lt pid l 0 i hfind).2
  have hget' : l[i]? = some node := by rw [← List.get?_eq_getElem?]; exact hget
  constructor
  · unfold process_wait
    simp only [hfind, List.get?_eq_getElem?, hget', sema_down, hsema]
    rfl
  · have hf2 := find_pwait_node_set pid 0 l 0 i node hget
    have hg2 : (l.set i { node with sema := 0 })[i]? = some { node with sema := 0 } := by
      simp only [List.getElem?_set]
      simp at hlt
      simp [hlt]
    unfold process_wait
    simp only [hf2, hfind, List.get?_eq_getElem?, hg2, sema_down]
    rfl

/-- Witness of `second_wait_blocks`: the child 7 has exited with status 5. -/
theorem second_wait_blocks_witness :
    process_wait [child_exit ⟨7, -2, false, 0⟩ 5] 7 =
      call_result.returned (5, [⟨7, 5, false, 0⟩]) ∧
    process_wait [⟨7, 5, false, 0⟩] 7 = call_result.blocked :=
  second_wait_blocks [child_exit ⟨7, -2, false, 0⟩ 5] 7 0 (child_exit ⟨7, -2, false, 0⟩ 5)
    rfl rfl rfl

/-! ## Theorems: the semaphore of exec -/

/-- C14 (as the code behaves): when `load` fails `start_process` ends in
`thread_exit` without upping the `exec_sema` of the parent (zero ups); only on
the path of a successful load the semaphore is upped once. The parent of a
failed load, blocked in `sema_down` of `syscall_exec` on a semaphore of value
0, is therefore not released. -/
theorem start_process_failed_load (exec_sema : Nat) :
    start_process false exec_sema = (exec_sema, start_outcome.thread_exits) ∧
    start_process true exec_sema = (exec_sema + 1, start_outcome.runs_user_code) ∧
    (∀ pid load_failed,
      syscall_exec pid load_failed (start_process false 0).1 = call_result.blocked) ∧
    (∀ pid, syscall_exec pid false (start_process true 0).1 =
      call_result.returned (if pid = -1 then -1 else pid)) := by
  refine ⟨rfl, rfl, ?_, ?_⟩
  · intro pid lf
    simp [syscall_exec, start_process, sema_down]
  · intro pid
    simp [syscall_exec, start_process, sema_down, sema_up]

/-! ## Theorems: memory mappings -/

/-- C15 (as the code behaves): whenever the code segment is laid out with
`code_seg_begin <= code_seg_end` and the range `addr .. addr + n` of a file of
n > 0 bytes does not wrap around, the first test of `page_mmap_overlap`, which
asks for `begin >= code_seg_end` and `end <= code_seg_begin` at once, cannot be
met: `page_mmap_map` returns -1 and leaves the process as it is, also for a
range that meets neither the code segment nor any mapping. -/
theorem mmap_map_always_fails (t : vm_thread) (fd n addr : Nat)
    (hcode : t.vma.code_seg_begin ≤ t.vma.code_seg_end) (hn : 0 < n)
    (hwrap : addr + n < 2 ^ 32) :
    page_mmap_overlap t addr n = false ∧ page_mmap_map t fd n addr = (-1, t) := by
  have hmod : (addr + n) % 2 ^ 32 = addr + n := Nat.mod_eq_of_lt hwrap
  have hov : page_mmap_overlap t addr n = false := by
    unfold page_mmap_overlap
    rw [hmod]
    have hc : ¬ (addr ≥ t.vma.code_seg_end ∧ addr + n ≤ t.vma.code_seg_begin) := by
      rintro ⟨h1, h2⟩
      omega
    simp [hc]
  refine ⟨hov, ?_⟩
  unfold page_mmap_map
  split
  · rfl
  · split
    · rfl
    · simp [hov]

/-- Witness of `mmap_map_always_fails`: a file of 4097 bytes mapped at the
page-aligned address 0x10000000 in the sample process without mappings, whose
code segment is 0x08048000 .. 0x08049000. -/
theorem mmap_map_always_fails_witness :
    (pg_ofs 0x10000000 = 0 ∧ (0x10000000 : Nat) ≠ 0 ∧
      sample_vm_fresh.vma.code_seg_end ≤ 0x10000000 ∧
      sample_vm_fresh.vma.mmap_vma_list = []) ∧
    page_mmap_overlap sample_vm_fresh 0x10000000 4097 = false ∧
    page_mmap_map sample_vm_fresh 3 4097 0x10000000 = (-1, sample_vm_fresh) :=
  ⟨by decide, mmap_map_always_fails sample_vm_fresh 3 4097 0x10000000 (by decide) (by decide)
    (by decide)⟩

theorem pg_round_down_aligned (a : Nat) : pg_round_down a % PGSIZE = 0 := by
  unfold pg_round_down PGSIZE
  omega

theorem pg_round_down_of_aligned (a : Nat) (h : a % PGSIZE = 0) : pg_round_down a = a := by
  unfold pg_round_down
  omega

/-- When some page of the range has no entry in the page list, the loop of
`page_free_multiple` stops at an `ASSERT` of `page_free_page`. -/
theorem page_free_loop_missing (e : Nat) :
    ∀ (fuel : Nat) (page_list : List Nat) (b i : Nat), b % PGSIZE = 0 → i < fuel →
      b + i * PGSIZE < e → b + i * PGSIZE ∉ page_list →
      page_free_loop fuel page_list b e = Except.error kernel_fault.assertion_failed := by
  intro fuel
  induction fuel with
  | zero => intro page_list b i _ hi; omega
  | succ f ih =>
    intro page_list b i hal hi hlt hmiss
    unfold page_free_loop
    have hbe : b < e := by
      have : b ≤ b + i * PGSIZE := Nat.le_add_right _ _
      omega
    simp only [hbe, if_true]
    unfold page_free_page
    rw [pg_round_down_of_aligned b hal]
    by_cases hin : b ∈ page_list
    · simp only [hin, if_true]
      have hi0 : i ≠ 0 := by
        intro e0
        subst e0
        simp at hmiss
        exact hmiss hin
      obtain ⟨j, rfl⟩ : ∃ j, i = j + 1 := ⟨i - 1, by omega⟩
      have hsum : b + PGSIZE + j * PGSIZE = b + (j + 1) * PGSIZE := by
        rw [Nat.add_mul]
        omega
      apply ih (page_list.erase b) (b + PGSIZE) j
      · unfold PGSIZE at hal ⊢
        omega
      · omega
      · rw [hsum]; exact hlt
      · rw [hsum]
        exact fun h => hmiss (List.mem_of_mem_erase h)
    · simp [hin]

/-- On a mapping found by `page_mmap_seek`, `page_mmap_unmap` does not return
as soon as one page of the region has no entry in the supplemental page table,
that is whenever a page of the region was never faulted in: `page_free_page`
asserts `page_node != NULL`. (A region that begins below its end is what
`page_mmap_map` is meant to create; with its present overlap test it creates
none.) -/
theorem unmap_untouched_page_asserts (t : vm_thread) (mapid : Int) (mnode : mmap_vma_node)
    (i : Nat) (hseek : page_mmap_seek t mapid USE_MAPID = some mnode)
    (hlt : pg_round_down mnode.mmap_seg_begin + i * PGSIZE < mnode.mmap_seg_end)
    (hmiss : pg_round_down mnode.mmap_seg_begin + i * PGSIZE ∉ t.page_list) :
    page_mmap_unmap t mapid = Except.error kernel_fault.assertion_failed := by
  unfold page_mmap_unmap
  simp only [hseek]
  have hfree : page_free_multiple t.page_list mnode.mmap_seg_begin mnode.mmap_seg_end =
      Except.error kernel_fault.assertion_failed := by
    unfold page_free_multiple
    split
    · rfl
    · apply page_free_loop_missing _ _ _ _ i (pg_round_down_aligned _) _ hlt hmiss
      have h1 : i * PGSIZE < mnode.mmap_seg_end - pg_round_down mnode.mmap_seg_begin := by
        omega
      have h2 : i ≤ (mnode.mmap_seg_end - pg_round_down mnode.mmap_seg_begin) / PGSIZE := by
        rw [Nat.le_div_iff_mul_le (by decide)]
        omega
      omega
  rw [hfree]

/-- Witness of `unmap_untouched_page_asserts`: the mapping with map-id 1 of the
sample process, none of whose two pages was ever accessed. -/
theorem unmap_untouched_page_asserts_witness :
    page_mmap_seek sample_vm 1 USE_MAPID = some ⟨3, 1, 0x10000000, 0x10001001⟩ ∧
    (0x10000000 : Nat) ∉ sample_vm.page_list ∧ (0x10001000 : Nat) ∉ sample_vm.page_list ∧
    page_mmap_unmap sample_vm 1 = Except.error kernel_fault.assertion_failed :=
  ⟨by decide, by decide, by decide,
    unmap_untouched_page_asserts sample_vm 1 ⟨3, 1, 0x10000000, 0x10001001⟩ 0 (by decide)
      (by decide) (by decide)⟩

/-- What `page_mmap_map` does when it accepts a mapping: the node appended has
the new map-id and ends at or below its begin, because the overlap test asks
for `begin >= code_seg_end` and `end <= code_seg_begin`. -/
theorem mmap_map_accepted (t : vm_thread) (fd filesize addr : Nat)
    (hcode : t.vma.code_seg_begin ≤ t.vma.code_seg_end)
    (hmap : (page_mmap_map t fd filesize addr).1 ≠ -1) :
    (page_mmap_map t fd filesize addr).2.vma.mmap_vma_list =
        t.vma.mmap_vma_list ++
          [⟨fd, (page_mmap_map t fd filesize addr).1, addr, (addr + filesize) % 2 ^ 32⟩] ∧
      ¬ addr < (addr + filesize) % 2 ^ 32 := by
  unfold page_mmap_map at hmap ⊢
  split at hmap
  · exact absurd rfl hmap
  · split at hmap
    · exact absurd rfl hmap
    · next h1 h2 =>
      cases hov : page_mmap_overlap t addr filesize with
      | false =>
        rw [hov] at hmap
        exact absurd rfl hmap
      | true =>
        simp only [h1, h2, hov, if_false, if_true]
        refine ⟨rfl, ?_⟩
        unfold page_mmap_overlap at hov
        split at hov
        · cases hov
        · next hc =>
          have hc2 : addr ≥ t.vma.code_seg_end ∧
              (addr + filesize) % 2 ^ 32 ≤ t.vma.code_seg_begin := by
            by_contra hn
            exact hc hn
          omega

/-- The mappings of a process all end at or below their begin once they were
all made by `page_mmap_map`: the property holds for the empty list and every
call keeps it. -/
theorem mmap_map_keeps_wrapped (t : vm_thread) (fd filesize addr : Nat)
    (hcode : t.vma.code_seg_begin ≤ t.vma.code_seg_end)
    (hinv : ∀ n ∈ t.vma.mmap_vma_list, ¬ n.mmap_seg_begin < n.mmap_seg_end) :
    ∀ n ∈ (page_mmap_map t fd filesize addr).2.vma.mmap_vma_list,
      ¬ n.mmap_seg_begin < n.mmap_seg_end := by
  by_cases hmap : (page_mmap_map t fd filesize addr).1 = -1
  · have hsame : (page_mmap_map t fd filesize addr).2 = t := by
      unfold page_mmap_map at hmap ⊢
      split
      · rfl
      · split
        · rfl
        · split
          · next hov =>
            simp only [hov, if_true] at hmap
            rw [if_neg (by assumption), if_neg (by assumption)] at hmap
            simp only [page_allocate_mapid] at hmap
            omega
          · rfl
    rw [hsame]
    exact hinv
  · obtain ⟨hlist, hwrap⟩ := mmap_map_accepted t fd filesize addr hcode hmap
    intro n hn
    rw [hlist, List.mem_append, List.mem_singleton] at hn
    rcases hn with hn | hn
    · exact hinv n hn
    · rw [hn]
      exact hwrap

/-- C16 (as the code behaves): every mapping that `page_mmap_map` creates ends
at or below its begin (the range wraps around the address space; the overlap
test of the function accepts no other range, the defect of C15). For every
process whose code segment has `code_seg_begin <= code_seg_end` and whose
mappings were all made that way, for every mapping that `page_mmap_map`
accepts and for every set of pages in the supplemental page table,
`page_mmap_unmap` with the map-id just returned finds a mapping and does not
complete: `page_free_multiple` stops at its `ASSERT (begin < end)` and the mmap
node is not removed. -/
theorem unmap_created_mapping_asserts (t : vm_thread) (fd filesize addr : Nat)
    (page_list : List Nat)
    (hcode : t.vma.code_seg_begin ≤ t.vma.code_seg_end)
    (hinv : ∀ n ∈ t.vma.mmap_vma_list, ¬ n.mmap_seg_begin < n.mmap_seg_end)
    (hmap : (page_mmap_map t fd filesize addr).1 ≠ -1) :
    (page_mmap_seek ⟨(page_mmap_map t fd filesize addr).2.vma, page_list⟩
      (page_mmap_map t fd filesize addr).1 USE_MAPID).isSome = true ∧
    page_mmap_unmap ⟨(page_mmap_map t fd filesize addr).2.vma, page_list⟩
      (page_mmap_map t fd filesize addr).1 = Except.error kernel_fault.assertion_failed := by
  obtain ⟨hlist, hwrap⟩ := mmap_map_accepted t fd filesize addr hcode hmap
  generalize (page_mmap_map t fd filesize addr).1 = id at hlist ⊢
  generalize (page_mmap_map t fd filesize addr).2 = t1 at hlist ⊢
  have hall : ∀ n ∈ t1.vma.mmap_vma_list, ¬ n.mmap_seg_begin < n.mmap_seg_end := by
    intro n hn
    rw [hlist, List.mem_append, List.mem_singleton] at hn
    rcases hn with hn | hn
    · exact hinv n hn
    · rw [hn]
      exact hwrap
  have hsome : (page_mmap_seek ⟨t1.vma, page_list⟩ id USE_MAPID).isSome = true := by
    unfold page_mmap_seek
    rw [List.find?_isSome]
    refine ⟨⟨fd, id, addr, (addr + filesize) % 2 ^ 32⟩, ?_, ?_⟩
    · show _ ∈ t1.vma.mmap_vma_list
      rw [hlist]
      simp
    · simp [mmap_seek_match]
  refine ⟨hsome, ?_⟩
  obtain ⟨mnode, hm⟩ := Option.isSome_iff_exists.mp hsome
  have hmem : mnode ∈ t1.vma.mmap_vma_list := by
    unfold page_mmap_seek at hm
    exact List.mem_of_find?_eq_some hm
  have hfree : page_free_multiple page_list mnode.mmap_seg_begin mnode.mmap_seg_end =
      Except.error kernel_fault.assertion_failed := by
    unfold page_free_multiple
    rw [if_pos (hall mnode hmem)]
  unfold page_mmap_unmap
  simp only [hm, hfree]

/-- Witness of `unmap_created_mapping_asserts`: in the sample process without
mappings a file of 4096 bytes is mapped at 0xfffff000; the call returns map-id
1 for the region from 0xfffff000 to 0, and unmapping it, with no page of the
region faulted in, stops at the assertion. -/
theorem unmap_created_mapping_asserts_witness :
    ((page_mmap_map sample_vm_fresh 3 4096 0xfffff000).1 = 1 ∧
      (page_mmap_map sample_vm_fresh 3 4096 0xfffff000).2.vma.mmap_vma_list =
        [⟨3, 1, 0xfffff000, 0⟩]) ∧
    (page_mmap_seek ⟨(page_mmap_map sample_vm_fresh 3 4096 0xfffff000).2.vma, []⟩
      (page_mmap_map sample_vm_fresh 3 4096 0xfffff000).1 USE_MAPID).isSome = true ∧
    page_mmap_unmap ⟨(page_mmap_map sample_vm_fresh 3 4096 0xfffff000).2.vma, []⟩
      (page_mmap_map sample_vm_fresh 3 4096 0xfffff000).1 =
        Except.error kernel_fault.assertion_failed :=
  ⟨by decide,
    unmap_created_mapping_asserts sample_vm_fresh 3 4096 0xfffff000 [] (by decide) (by decide)
      (by decide)⟩

theorem page_allocate_mapid_seq_get (n : Nat) :
    ∀ (t : vm_thread) (i : Nat), i < n →
      (page_allocate_mapid_seq n t).get? i = some (((t.vma.mapid + i + 1) % 256 : Nat) : Int) := by
  induction n with
  | zero => intro t i h; omega
  | succ n ih =>
    intro t i h
    cases i with
    | zero => simp [page_allocate_mapid_seq, page_allocate_mapid]
    | succ j =>
      simp only [page_allocate_mapid_seq, List.get?_cons_succ]
      rw [ih _ j (by omega)]
      simp only [page_allocate_mapid]
      congr 2
      omega

/-- C17 (as the code behaves): the counter behind `page_allocate_mapid` is a
`uint8_t`; call number i + 1 returns `(mapid + i + 1) mod 256`. In a process
that starts with the counter at 0 the call number 257 returns 1, the map-id
that the first call returned (and call number 256 returns 0). -/
theorem mapid_reused_after_wrap :
    (∀ (n i : Nat) (t : vm_thread), i < n →
      (page_allocate_mapid_seq n t).get? i =
        some (((t.vma.mapid + i + 1) % 256 : Nat) : Int)) ∧
    sample_vm_fresh.vma.mapid = 0 ∧
    (page_allocate_mapid_seq 257 sample_vm_fresh).get? 0 = some 1 ∧
    (page_allocate_mapid_seq 257 sample_vm_fresh).get? 255 = some 0 ∧
    (page_allocate_mapid_seq 257 sample_vm_fresh).get? 256 = some 1 := by
  refine ⟨fun n i t h => page_allocate_mapid_seq_get n t i h, rfl, ?_, ?_, ?_⟩
  · rw [page_allocate_mapid_seq_get 257 _ 0 (by decide)]; rfl
  · rw [page_allocate_mapid_seq_get 257 _ 255 (by decide)]; rfl
  · rw [page_allocate_mapid_seq_get 257 _ 256 (by decide)]; rfl

/-- C18 (amended): for every address `a` outside the code segment,
`page_check_role` answers Stack exactly when `a` is at or above 0xbf800000
(`PHYS_BASE - 8 MiB`) and below `stack_seg_end`; neither `stack_seg_begin` nor
the user stack pointer is consulted. -/
theorem check_role_stack_iff (t : vm_thread) (a : Nat)
    (hcode : ¬ (a ≥ t.vma.code_seg_begin ∧ a < t.vma.code_seg_end)) :
    page_check_role t a = role.SEG_STACK ↔
      (a ≥ PHYS_BASE - 8 * 1024 * 1024 ∧ a < t.vma.stack_seg_end) := by
  have hc : PHYS_BASE - 8 * 1024 * 1024 = 0xbf800000 := by decide
  rw [hc]
  unfold page_check_role
  simp only [hcode, if_false]
  by_cases hs : a ≥ 0xbf800000 ∧ a < t.vma.stack_seg_end
  · simp [hs]
  · simp only [hs, if_false, iff_false]
    split <;> simp

/-- Witness of `check_role_stack_iff`: the lowest address of the 8 MiB below
`PHYS_BASE` in the sample process. -/
theorem check_role_stack_iff_witness :
    page_check_role sample_vm 0xbf800000 = role.SEG_STACK ↔
      ((0xbf800000 : Nat) ≥ PHYS_BASE - 8 * 1024 * 1024 ∧
        0xbf800000 < sample_vm.vma.stack_seg_end) :=
  check_role_stack_iff sample_vm 0xbf800000 (by decide)

/-- C18 fails as stated: in the sample process (stack extent 0xbffff000 ..
0xc0000000) with the user stack pointer at 0xbffffff0, the address 0xbf800000
is outside the code segment, outside the stack extent and far more than 32
bytes below the stack pointer, and `page_check_role` answers Stack. -/
theorem check_role_stack_without_esp :
    ¬ ((0xbf800000 : Nat) ≥ sample_vm.vma.code_seg_begin ∧
      0xbf800000 < sample_vm.vma.code_seg_end) ∧
    page_check_role sample_vm 0xbf800000 = role.SEG_STACK ∧
    ¬ stack_by_spec sample_vm 0xbffffff0 0xbf800000 := by
  unfold stack_by_spec
  decide

/-! ## Theorems: growing a file -/

theorem index_extend_loop_true :
    ∀ (fuel : Nat) (st : index_disk) (data : inode_disk_map) (now_length new_length : Nat)
      (r : Bool × inode_disk_map × index_disk),
      index_extend_loop fuel st data now_length new_length = Except.ok r → r.1 = true := by
  intro fuel
  induction fuel with
  | zero => intro st data nl new r h; simp [index_extend_loop] at h
  | succ f ih =>
    intro st data nl new r h
    unfold index_extend_loop at h
    split at h
    · split at h
      · cases h
      · split at h
        · cases h
        · exact ih _ _ _ _ _ h
    · cases h
      rfl

/-- C20 (as the code behaves): `index_extend` drops the result of every
`index_allocate_single_sector` call and has no `return false`: whenever it
returns, it returns true. On a disk without a free sector, growing the empty
inode to 512 bytes returns true although the allocation failed and the direct
slot 0 is still 0. -/
theorem index_extend_reports_success :
    (∀ (st : index_disk) (data : inode_disk_map) (new_length : Nat)
      (r : Bool × inode_disk_map × index_disk),
      index_extend st data new_length = Except.ok r → r.1 = true) ∧
    (index_allocate_single_sector full_disk 0).1 = false ∧
    ∃ data' st', index_extend full_disk empty_inode 512 = Except.ok (true, data', st') ∧
      data'.direct 0 = 0 := by
  refine ⟨?_, rfl, ?_⟩
  · intro st data new r h
    unfold index_extend at h
    split at h
    · cases h
      rfl
    · exact index_extend_loop_true _ _ _ _ _ _ h
  · exact ⟨_, _, rfl, rfl⟩

/-! ## Theorems: the argument stack -/

theorem tokens_of_nil (d : Char) : tokens_of d [] = [] := by
  simp [tokens_of, split_on_delim]

theorem tokens_of_cons_delim (d : Char) (cs : List Char) :
    tokens_of d (d :: cs) = tokens_of d cs := by
  simp [tokens_of, split_on_delim]

theorem split_on_delim_take_token (d : Char) (s : List Char) :
    ∃ Y, split_on_delim d s = (take_token_of d s).1 :: Y ∧
      Y.filter (fun t => decide (t ≠ [])) = tokens_of d (take_token_of d s).2 := by
  induction s with
  | nil => exact ⟨[], by simp [split_on_delim, take_token_of], by simp [take_token_of, tokens_of_nil]⟩
  | cons c cs ih =>
    by_cases hc : c = d
    · subst hc
      exact ⟨split_on_delim c cs, by simp [split_on_delim, take_token_of],
        by simp [take_token_of, tokens_of]⟩
    · obtain ⟨Y, hY, hf⟩ := ih
      refine ⟨Y, ?_, ?_⟩
      · simp [split_on_delim, take_token_of, hc, hY]
      · simpa [take_token_of, hc] using hf

theorem tokens_of_take_token (d c : Char) (cs : List Char) (hc : c ≠ d) :
    tokens_of d (c :: cs) =
      (take_token_of d (c :: cs)).1 :: tokens_of d (take_token_of d (c :: cs)).2 := by
  obtain ⟨Y, hY, hf⟩ := split_on_delim_take_token d (c :: cs)
  have h1 : (take_token_of d (c :: cs)).1 ≠ [] := by simp [take_token_of, hc]
  unfold tokens_of at hf ⊢
  rw [hY, List.filter_cons, hf]
  simp [h1]

theorem tokens_of_skip_delims (d : Char) (s : List Char) :
    tokens_of d (skip_delims_of d s) = tokens_of d s := by
  induction s with
  | nil => simp [skip_delims_of]
  | cons c cs ih =>
    by_cases hc : c = d
    · subst hc
      simp [skip_delims_of, tokens_of_cons_delim, ih]
    · simp [skip_delims_of, hc]

theorem skip_delims_of_head (d : Char) (s : List Char) (c : Char) (cs : List Char)
    (h : skip_delims_of d s = c :: cs) : c ≠ d := by
  induction s with
  | nil => simp [skip_delims_of] at h
  | cons a as ih =>
    by_cases ha : a = d
    · subst ha
      simp only [skip_delims_of, if_true] at h
      exact ih h
    · simp only [skip_delims_of, ha, if_false] at h
      cases h
      exact ha

theorem skip_delims_of_length (d : Char) (s : List Char) :
    (skip_delims_of d s).length ≤ s.length := by
  induction s with
  | nil => simp [skip_delims_of]
  | cons a as ih =>
    by_cases ha : a = d
    · subst ha
      simp only [skip_delims_of, if_true, List.length_cons]
      omega
    · simp [skip_delims_of, ha]

theorem take_token_of_length (d : Char) (s : List Char) :
    (take_token_of d s).2.length ≤ s.length := by
  induction s with
  | nil => simp [take_token_of]
  | cons a as ih =>
    by_cases ha : a = d
    · subst ha
      simp [take_token_of]
    · simp only [take_token_of, ha, if_false, List.length_cons]
      omega

theorem take_token_of_length_cons (d c : Char) (cs : List Char) :
    (take_token_of d (c :: cs)).2.length ≤ cs.length := by
  by_cases hc : c = d
  · subst hc
    simp [take_token_of]
  · simp only [take_token_of, hc, if_false]
    exact take_token_of_length d cs

/-- With more fuel than bytes in the text, the first loop of
`process_push_arguments` ends and does what the push of the tokens of the text
does. -/
theorem push_tokens_loop_eq :
    ∀ (fuel : Nat) (s : List Char) (esp : Nat) (m : Memory) (argv : List Nat),
      s.length < fuel →
      push_tokens_loop fuel s esp m argv = push_strings (tokens_of ' ' s) esp m argv := by
  intro fuel
  induction fuel with
  | zero => intro s esp m argv h; omega
  | succ n ih =>
    intro s esp m argv h
    unfold push_tokens_loop strtok_r_of
    cases hs : skip_delims_of ' ' s with
    | nil =>
      have : tokens_of ' ' s = [] := by rw [← tokens_of_skip_delims, hs, tokens_of_nil]
      simp [this, push_strings]
    | cons c cs =>
      have hc := skip_delims_of_head ' ' s c cs hs
      have hcomp : tokens_of ' ' s =
          (take_token_of ' ' (c :: cs)).1 :: tokens_of ' ' (take_token_of ' ' (c :: cs)).2 := by
        rw [← tokens_of_skip_delims, hs, tokens_of_take_token ' ' c cs hc]
      have hlen : (take_token_of ' ' (c :: cs)).2.length < n := by
        have h1 := take_token_of_length_cons ' ' c cs
        have h2 := skip_delims_of_length ' ' s
        rw [hs, List.length_cons] at h2
        omega
      rw [hcomp]
      simp only [push_strings]
      split
      · rfl
      · exact ih _ _ _ _ hlen

theorem sub32_eq (a b : Nat) (hb : b ≤ a) (ha : a < 2 ^ 32) : sub32 a b = a - b := by
  unfold sub32
  have h1 : b % 2 ^ 32 = b := Nat.mod_eq_of_lt (by omega)
  rw [h1]
  omega

theorem write_word_frame (m : Memory) (a v x : Nat) (h : x < a ∨ a + 4 ≤ x) :
    write_word m a v x = m x := by
  unfold write_word
  have h0 : x ≠ a := by omega
  have h1 : x ≠ a + 1 := by omega
  have h2 : x ≠ a + 2 := by omega
  have h3 : x ≠ a + 3 := by omega
  simp [h0, h1, h2, h3]

theorem read_word_write_word (m : Memory) (a v : Nat) (hv : v < 2 ^ 32) :
    read_word (write_word m a v) a = v := by
  unfold read_word write_word
  simp
  omega

theorem read_word_congr (m m' : Memory) (a : Nat) (h : ∀ x, a ≤ x → m' x = m x) :
    read_word m' a = read_word m a := by
  unfold read_word
  rw [h a (le_refl _), h (a + 1) (by omega), h (a + 2) (by omega), h (a + 3) (by omega)]

theorem write_string_frame (m : Memory) (a x : Nat) (token : List Char)
    (h : x < a ∨ a + token.length + 1 ≤ x) : write_string m a token x = m x := by
  unfold write_string
  have h0 : ¬ (a ≤ x ∧ x < a + token.length) := by omega
  have h1 : x ≠ a + token.length := by omega
  simp [h0, h1]

theorem string_at_write_string (m : Memory) (a : Nat) (token : List Char) :
    string_at (write_string m a token) a token := by
  constructor
  · intro j hj
    unfold write_string
    have h0 : a ≤ a + j ∧ a + j < a + token.length := by omega
    simp [h0]
  · unfold write_string
    simp

theorem string_at_congr (m m' : Memory) (p : Nat) (s : List Char) (h : ∀ x, p ≤ x → m' x = m x)
    (hs : string_at m p s) : string_at m' p s := by
  constructor
  · intro j hj
    rw [h (p + j) (by omega)]
    exact hs.1 j hj
  · rw [h (p + s.length) (by omega)]
    exact hs.2

theorem strings_size_cons (t : List Char) (ts : List (List Char)) :
    strings_size (t :: ts) = t.length + 1 + strings_size ts := by
  simp [strings_size]

/-- The push of the token strings: the stack pointer goes down by the size of
the strings, `argv` receives one address per token, each address holds a
NUL-terminated copy of its token between the new and the old stack pointer,
and the memory from the old stack pointer on is unchanged. -/
theorem push_strings_spec :
    ∀ (toks : List (List Char)) (esp : Nat) (m : Memory) (argv : List Nat),
      esp < 2 ^ 32 → strings_size toks ≤ esp → argv.length + toks.length ≤ MAX_CMDLINE_TOKENS →
      ∃ m' addrs, push_strings toks esp m argv =
          some (esp - strings_size toks, m', argv ++ addrs) ∧
        addrs.length = toks.length ∧
        (∀ i, i < toks.length →
          esp - strings_size toks ≤ addrs.getD i 0 ∧
          addrs.getD i 0 + (toks.getD i []).length + 1 ≤ esp ∧
          string_at m' (addrs.getD i 0) (toks.getD i [])) ∧
        (∀ x, esp ≤ x → m' x = m x) := by
  intro toks
  induction toks with
  | nil =>
    intro esp m argv _ _ _
    exact ⟨m, [], by simp [push_strings, strings_size], rfl, by simp, fun _ _ => rfl⟩
  | cons tok rest ih =>
    intro esp m argv hesp hsize hcnt
    rw [strings_size_cons] at hsize
    simp only [List.length_cons] at hcnt
    have hsub : sub32 esp (tok.length + 1) = esp - (tok.length + 1) :=
      sub32_eq _ _ (by omega) hesp
    obtain ⟨m', addrs, hres, hlen, hidx, hframe⟩ :=
      ih (esp - (tok.length + 1)) (write_string m (esp - (tok.length + 1)) tok)
        (argv ++ [esp - (tok.length + 1)]) (by omega) (by omega)
        (by simp only [List.length_append, List.length_singleton]; omega)
    refine ⟨m', (esp - (tok.length + 1)) :: addrs, ?_, by simp [hlen], ?_, ?_⟩
    · unfold push_strings
      have hc : ¬ argv.length ≥ MAX_CMDLINE_TOKENS := by omega
      simp only [hc, if_false, hsub, hres, strings_size_cons]
      simp only [List.append_assoc, List.singleton_append, Option.some.injEq, Prod.mk.injEq,
        and_true]
      omega
    · intro i hi
      rw [strings_size_cons]
      cases i with
      | zero =>
        simp only [List.getD_cons_zero]
        refine ⟨by omega, by omega, ?_⟩
        exact string_at_congr _ _ _ _ hframe (string_at_write_string m _ tok)
      | succ j =>
        simp only [List.getD_cons_succ]
        simp only [List.length_cons] at hi
        obtain ⟨h1, h2, h3⟩ := hidx j (by omega)
        exact ⟨by omega, by omega, h3⟩
    · intro x hx
      rw [hframe x (by omega)]
      exact write_string_frame m _ x tok (by omega)

theorem align_stack_eq :
    ∀ (fuel esp : Nat), esp < 2 ^ 32 → esp % 4 ≤ fuel → align_stack fuel esp = esp - esp % 4 := by
  intro fuel
  induction fuel with
  | zero =>
    intro esp _ h
    simp only [align_stack]
    omega
  | succ f ih =>
    intro esp hesp h
    unfold align_stack
    by_cases hz : esp % 4 = 0
    · simp only [hz, ne_eq, not_true_eq_false, if_false]
      omega
    · simp only [hz, ne_eq, not_false_eq_true, if_true]
      rw [sub32_eq esp 1 (by omega) hesp, ih (esp - 1) (by omega) (by omega)]
      omega

theorem push_argv_loop_skip (argv : List Nat) (esp : Nat) (m : Memory) :
    ∀ d, push_argv_loop argv (argv.length + d) esp m = push_argv_loop argv argv.length esp m := by
  intro d
  induction d with
  | zero => rfl
  | succ e ih =>
    have hz : argv.getD (argv.length + e) 0 = 0 := List.getD_eq_default _ _ (by omega)
    rw [← Nat.add_assoc]
    simp only [push_argv_loop, hz, if_true]
    exact ih

/-- The push of the first `n` entries of `argv`, all of them non-null: the
stack pointer goes down by `4 * n`, entry `i` is stored in word `i` above the
new stack pointer, and the memory from the old stack pointer on is
unchanged. -/
theorem push_argv_loop_spec (argv : List Nat) (hnz : ∀ a ∈ argv, a ≠ 0 ∧ a < 2 ^ 32) :
    ∀ (n esp : Nat) (m : Memory), n ≤ argv.length → 4 * n ≤ esp → esp < 2 ^ 32 →
      ∃ m', push_argv_loop argv n esp m = (esp - 4 * n, m') ∧
        (∀ i, i < n → read_word m' (esp - 4 * n + 4 * i) = argv.getD i 0) ∧
        (∀ x, esp ≤ x → m' x = m x) := by
  intro n
  induction n with
  | zero =>
    intro esp m _ _ _
    exact ⟨m, rfl, fun i hi => absurd hi (Nat.not_lt_zero _), fun _ _ => rfl⟩
  | succ k ih =>
    intro esp m hn hroom hesp
    have hmem : argv.getD k 0 ∈ argv := by
      rw [List.getD_eq_getElem _ _ (by omega)]
      exact List.getElem_mem _
    obtain ⟨hne, hlt⟩ := hnz _ hmem
    have hsub : sub32 esp 4 = esp - 4 := sub32_eq _ _ (by omega) hesp
    obtain ⟨m', hres, hreads, hframe⟩ :=
      ih (esp - 4) (write_word m (esp - 4) (argv.getD k 0)) (by omega) (by omega) (by omega)
    refine ⟨m', ?_, ?_, ?_⟩
    · simp only [push_argv_loop, hne, if_false, hsub, hres, Prod.mk.injEq, and_true]
      omega
    · intro i hi
      by_cases hik : i = k
      · subst hik
        have ha : esp - 4 * (i + 1) + 4 * i = esp - 4 := by omega
        rw [ha, read_word_congr _ _ _ hframe, read_word_write_word _ _ _ hlt]
      · have ha : esp - 4 * (k + 1) + 4 * i = esp - 4 - 4 * k + 4 * i := by omega
        rw [ha]
        exact hreads i (by omega)
    · intro x hx
      rw [hframe x (by omega)]
      exact write_word_frame _ _ _ _ (by omega)

/-- The frame that `process_push_arguments` builds below the strings. -/
theorem push_frame_spec (esp1 : Nat) (m1 : Memory) (argv : List Nat)
    (hesp : esp1 < 2 ^ 32) (hroom : 4 * argv.length + 19 ≤ esp1)
    (hk : argv.length ≤ MAX_CMDLINE_TOKENS) (hnz : ∀ a ∈ argv, a ≠ 0 ∧ a < 2 ^ 32) :
    ∃ esp m7, push_frame esp1 m1 argv = (esp, m7) ∧ esp % 4 = 0 ∧
      esp + 12 + 4 * (argv.length + 1) ≤ esp1 ∧
      read_word m7 esp = 0 ∧ read_word m7 (esp + 4) = argv.length ∧
      read_word m7 (esp + 8) = esp + 12 ∧
      (∀ i, i < argv.length → read_word m7 (esp + 12 + 4 * i) = argv.getD i 0) ∧
      read_word m7 (esp + 12 + 4 * argv.length) = 0 ∧
      (∀ x, esp + 12 + 4 * (argv.length + 1) ≤ x → m7 x = m1 x) := by
  have h2 : align_stack 4 esp1 = esp1 - esp1 % 4 := align_stack_eq 4 esp1 hesp (by omega)
  have h3 : sub32 (align_stack 4 esp1) 4 = esp1 - esp1 % 4 - 4 := by
    rw [h2]
    exact sub32_eq _ _ (by omega) (by omega)
  have hskip : push_argv_loop argv MAX_CMDLINE_TOKENS (esp1 - esp1 % 4 - 4)
      (write_word m1 (esp1 - esp1 % 4 - 4) 0) =
      push_argv_loop argv argv.length (esp1 - esp1 % 4 - 4)
        (write_word m1 (esp1 - esp1 % 4 - 4) 0) := by
    have := push_argv_loop_skip argv (esp1 - esp1 % 4 - 4)
      (write_word m1 (esp1 - esp1 % 4 - 4) 0) (MAX_CMDLINE_TOKENS - argv.length)
    rw [Nat.add_sub_cancel' hk] at this
    exact this
  obtain ⟨m4, h4, hreads, hframe4⟩ := push_argv_loop_spec argv hnz argv.length
    (esp1 - esp1 % 4 - 4) (write_word m1 (esp1 - esp1 % 4 - 4) 0) (le_refl _) (by omega)
    (by omega)
  have h5 : sub32 (esp1 - esp1 % 4 - 4 - 4 * argv.length) 4 =
      esp1 - esp1 % 4 - 4 - 4 * argv.length - 4 := sub32_eq _ _ (by omega) (by omega)
  have h6 : sub32 (esp1 - esp1 % 4 - 4 - 4 * argv.length - 4) 4 =
      esp1 - esp1 % 4 - 4 - 4 * argv.length - 8 := by
    rw [sub32_eq _ _ (by omega) (by omega)]
    omega
  have h7 : sub32 (esp1 - esp1 % 4 - 4 - 4 * argv.length - 8) 4 =
      esp1 - esp1 % 4 - 4 - 4 * argv.length - 12 := by
    rw [sub32_eq _ _ (by omega) (by omega)]
    omega
  have hv : (esp1 - esp1 % 4 - 4 - 4 * argv.length - 4 + 4) % 2 ^ 32 =
      esp1 - esp1 % 4 - 4 - 4 * argv.length := by
    rw [Nat.mod_eq_of_lt (by omega)]
    omega
  have hpf : push_frame esp1 m1 argv =
      (esp1 - esp1 % 4 - 4 - 4 * argv.length - 12,
        write_word (write_word (write_word m4 (esp1 - esp1 % 4 - 4 - 4 * argv.length - 4)
          (esp1 - esp1 % 4 - 4 - 4 * argv.length))
          (esp1 - esp1 % 4 - 4 - 4 * argv.length - 8) argv.length)
          (esp1 - esp1 % 4 - 4 - 4 * argv.length - 12) 0) := by
    unfold push_frame
    simp only [h3, hskip, h4, h5, h6, h7, hv]
  generalize hE : esp1 - esp1 % 4 - 4 - 4 * argv.length - 12 = E at hpf
  have e4 : esp1 - esp1 % 4 - 4 - 4 * argv.length = E + 12 := by omega
  have e5 : esp1 - esp1 % 4 - 4 - 4 * argv.length - 4 = E + 8 := by omega
  have e6 : esp1 - esp1 % 4 - 4 - 4 * argv.length - 8 = E + 4 := by omega
  have e3 : esp1 - esp1 % 4 - 4 = E + 12 + 4 * argv.length := by omega
  rw [e5, e6, e4] at hpf
  rw [e3] at hframe4 hreads h4
  -- the three words below `argv` leave everything from `E + 12` on as it is
  have hF : ∀ x, E + 12 ≤ x →
      write_word (write_word (write_word m4 (E + 8) (E + 12)) (E + 4) argv.length) E 0 x
        = m4 x := by
    intro x hx
    rw [write_word_frame _ _ _ _ (by omega), write_word_frame _ _ _ _ (by omega),
      write_word_frame _ _ _ _ (by omega)]
  refine ⟨E, _, hpf, by omega, by omega, ?_, ?_, ?_, ?_, ?_, ?_⟩
  · exact read_word_write_word _ _ _ (by decide)
  · rw [read_word_congr (write_word (write_word m4 (E + 8) (E + 12)) (E + 4) argv.length) _
      (E + 4) (fun x hx => write_word_frame _ _ _ _ (by omega))]
    exact read_word_write_word _ _ _ (by unfold MAX_CMDLINE_TOKENS at hk; omega)
  · rw [read_word_congr (write_word m4 (E + 8) (E + 12)) _ (E + 8) (fun x hx => by
      rw [write_word_frame _ _ _ _ (by omega), write_word_frame _ _ _ _ (by omega)])]
    exact read_word_write_word _ _ _ (by omega)
  · intro i hi
    rw [read_word_congr m4 _ _ (fun x hx => hF x (by omega))]
    have := hreads i hi
    have ha : E + 12 + 4 * argv.length - 4 * argv.length + 4 * i = E + 12 + 4 * i := by omega
    rw [ha] at this
    exact this
  · rw [read_word_congr m4 _ _ (fun x hx => hF x (by omega)),
      read_word_congr _ _ _ hframe4]
    exact read_word_write_word _ _ _ (by decide)
  · intro x hx
    rw [hF x (by omega), hframe4 x (by omega)]
    exact write_word_frame _ _ _ _ (by omega)

/-- C19: for every argument string with k <= 32 space-separated tokens (on a
stack with room for the strings and the frame), `process_push_arguments`
returns a 4-byte-aligned stack pointer `esp` such that the word at `esp` is 0
(the dummy return address), the word at `esp + 4` is k (`argc`), the word at
`esp + 8` is `esp + 12` (`argv`), for each i < k the word at `esp + 12 + 4 i`
is the address of a NUL-terminated copy of token i that lies above the array,
and the word at `esp + 12 + 4 k` is 0. -/
theorem push_arguments_layout (args : List Char) (esp0 : Nat) (m : Memory)
    (hk : (tokens_of ' ' args).length ≤ 32) (hesp : esp0 < 2 ^ 32)
    (hroom : strings_size (tokens_of ' ' args) + 4 * (tokens_of ' ' args).length + 19 ≤ esp0) :
    ∃ esp m', process_push_arguments esp0 args m = some (esp, m') ∧ esp % 4 = 0 ∧
      read_word m' esp = 0 ∧
      read_word m' (esp + 4) = (tokens_of ' ' args).length ∧
      read_word m' (esp + 8) = esp + 12 ∧
      (∀ i, i < (tokens_of ' ' args).length →
        esp + 12 + 4 * ((tokens_of ' ' args).length + 1) ≤ read_word m' (esp + 12 + 4 * i) ∧
        string_at m' (read_word m' (esp + 12 + 4 * i)) ((tokens_of ' ' args).getD i [])) ∧
      read_word m' (esp + 12 + 4 * (tokens_of ' ' args).length) = 0 := by
  obtain ⟨m1, addrs, hres, hlen, hidx, -⟩ :=
    push_strings_spec (tokens_of ' ' args) esp0 m [] hesp (by omega)
      (by simp only [List.length_nil, MAX_CMDLINE_TOKENS]; omega)
  rw [List.nil_append] at hres
  have hnz : ∀ a ∈ addrs, a ≠ 0 ∧ a < 2 ^ 32 := by
    intro a ha
    obtain ⟨i, hi, rfl⟩ := List.getElem_of_mem ha
    have h := hidx i (by omega)
    rw [List.getD_eq_getElem _ _ hi] at h
    constructor <;> omega
  obtain ⟨esp, m7, hpf, hal, hbound, hr0, hr1, hr2, hri, hrk, hframe⟩ :=
    push_frame_spec (esp0 - strings_size (tokens_of ' ' args)) m1 addrs (by omega)
      (by omega) (by simp only [MAX_CMDLINE_TOKENS]; omega) hnz
  rw [hlen] at hr1 hri hrk hbound hframe
  refine ⟨esp, m7, ?_, hal, hr0, hr1, hr2, ?_, hrk⟩
  · unfold process_push_arguments
    rw [push_tokens_loop_eq _ _ _ _ _ (Nat.lt_succ_self _), hres]
    simp only [hpf]
  · intro i hi
    rw [hri i hi]
    obtain ⟨h1, h2, h3⟩ := hidx i hi
    refine ⟨by omega, ?_⟩
    exact string_at_congr _ _ _ _ (fun x hx => hframe x (by omega)) h3

/-- Witness of `push_arguments_layout`: the command line "echo  x yz" pushed
below `PHYS_BASE`. -/
theorem push_arguments_layout_witness :
    ∃ esp m', process_push_arguments 0xc0000000
        ['e', 'c', 'h', 'o', ' ', ' ', 'x', ' ', 'y', 'z'] (fun _ => 0) = some (esp, m') ∧
      esp % 4 = 0 ∧ read_word m' esp = 0 ∧
      read_word m' (esp + 4) =
        (tokens_of ' ' ['e', 'c', 'h', 'o', ' ', ' ', 'x', ' ', 'y', 'z']).length ∧
      read_word m' (esp + 8) = esp + 12 ∧
      (∀ i, i < (tokens_of ' ' ['e', 'c', 'h', 'o', ' ', ' ', 'x', ' ', 'y', 'z']).length →
        esp + 12 + 4 * ((tokens_of ' ' ['e', 'c', 'h', 'o', ' ', ' ', 'x', ' ', 'y', 'z']).length
          + 1) ≤ read_word m' (esp + 12 + 4 * i) ∧
        string_at m' (read_word m' (esp + 12 + 4 * i))
          ((tokens_of ' ' ['e', 'c', 'h', 'o', ' ', ' ', 'x', ' ', 'y', 'z']).getD i [])) ∧
      read_word m' (esp + 12 +
        4 * (tokens_of ' ' ['e', 'c', 'h', 'o', ' ', ' ', 'x', ' ', 'y', 'z']).length) = 0 :=
  push_arguments_layout ['e', 'c', 'h', 'o', ' ', ' ', 'x', ' ', 'y', 'z'] 0xc0000000
    (fun _ => 0) (by decide) (by decide) (by decide)

/-! ## Theorems: the position of a sector in the index tree -/

/-- The position returned for a length of `s` sectors, `1 ≤ s < 16524`. The
branch of level 2 subtracts `DIRECT_BLOCKS + INDIRECT_PER_BLOCK` after
`DIRECT_BLOCKS` was already subtracted: from 153 sectors on the position is
that of sector `s - 153` of the double-indirect area, and for 141 to 152
sectors the 32-bit count wraps below zero and the stored bytes are 255 and
`s - 25`. -/
theorem index_where_the_sector_eq (length s : Nat) (hs : s = (length + 511) / 512)
    (h1 : 1 ≤ s) (h2 : s < 16524) :
    index_where_the_sector length = some
      (if s ≤ 12 then ⟨0, s - 1, 255⟩
       else if s ≤ 140 then ⟨1, s - 13, 255⟩
       else if s ≤ 152 then ⟨2, 255, s - 25⟩
       else ⟨2, (s - 153) / 128, (s - 153) % 128⟩) := by
  have e : (length + BLOCK_SECTOR_SIZE - 1) / BLOCK_SECTOR_SIZE % 2 ^ 32 = s := by
    simp only [BLOCK_SECTOR_SIZE]
    omega
  simp only [index_where_the_sector, e]
  clear e hs
  simp only [MAX_FILE_SECTORS, DIRECT_BLOCKS, INDIRECT_PER_BLOCK, BLOCK_SECTOR_SIZE, sub32]
  norm_num
  split_ifs <;> simp only [Option.some.injEq, index_position.mk.injEq]
  all_goals first
    | (exfalso; omega)
    | (simp only [true_and, and_true]; omega)

/-- C21 (as the code behaves): the test before the `PANIC` is
`sectors >= MAX_FILE_SECTORS`, so `index_where_the_sector` panics exactly when
the sector count is at least 16524, not when it exceeds 16524: a length of
exactly 16524 sectors (8460288 bytes), the full capacity of the index tree, is
refused. -/
theorem index_where_the_sector_panics_at_capacity :
    MAX_FILE_SECTORS = 16524 ∧
    (∀ length : Nat, length < 2 ^ 31 →
      (index_where_the_sector length = none ↔ 16524 ≤ (length + 511) / 512)) ∧
    (16524 * 512 + 511) / 512 = 16524 ∧
    index_where_the_sector (16524 * 512) = none := by
  refine ⟨rfl, ?_, rfl, rfl⟩
  intro length hl
  have e : (length + BLOCK_SECTOR_SIZE - 1) / BLOCK_SECTOR_SIZE % 2 ^ 32 =
      (length + 511) / 512 := by
    simp only [BLOCK_SECTOR_SIZE]
    omega
  have hm : MAX_FILE_SECTORS = 16524 := rfl
  constructor
  · intro h
    by_contra hc
    simp only [index_where_the_sector, e, hm] at h
    rw [if_neg (by omega)] at h
    split_ifs at h
  · intro h
    simp only [index_where_the_sector, e, hm]
    rw [if_pos (by omega)]

/-- C22 (as the code behaves): for a length of `s` sectors the function returns
(level 0, `s - 1`) for `1 ≤ s ≤ 12` and (level 1, `s - 13`) for
`13 ≤ s ≤ 140`, as claimed; in level 2 it returns idx1 255 and idx2 `s - 25`
for `141 ≤ s ≤ 152` and the position of sector `s - 153`, not `s - 141`, from
153 sectors on. For 141 sectors the result is (2, 255, 116) where the claim has
(2, 0, 0), and idx1 255 is outside a 128-entry index block; the position
(2, 0, 0) is returned for 153 sectors. -/
theorem index_where_the_sector_positions :
    (∀ length s : Nat, s = (length + 511) / 512 → 1 ≤ s → s ≤ 12 →
      index_where_the_sector length = some ⟨0, s - 1, 255⟩) ∧
    (∀ length s : Nat, s = (length + 511) / 512 → 13 ≤ s → s ≤ 140 →
      index_where_the_sector length = some ⟨1, s - 13, 255⟩) ∧
    (∀ length s : Nat, s = (length + 511) / 512 → 141 ≤ s → s ≤ 152 →
      index_where_the_sector length = some ⟨2, 255, s - 25⟩) ∧
    (∀ length s : Nat, s = (length + 511) / 512 → 153 ≤ s → s < 16524 →
      index_where_the_sector length = some ⟨2, (s - 153) / 128, (s - 153) % 128⟩) ∧
    index_where_the_sector (141 * 512) = some ⟨2, 255, 116⟩ ∧
    index_where_the_sector (153 * 512) = some ⟨2, 0, 0⟩ := by
  refine ⟨?_, ?_, ?_, ?_, rfl, rfl⟩
  · intro length s hs h1 h2
    rw [index_where_the_sector_eq length s hs (by omega) (by omega), if_pos h2]
  · intro length s hs h1 h2
    rw [index_where_the_sector_eq length s hs (by omega) (by omega), if_neg (by omega),
      if_pos h2]
  · intro length s hs h1 h2
    rw [index_where_the_sector_eq length s hs (by omega) (by omega), if_neg (by omega),
      if_neg (by omega), if_pos h2]
  · intro length s hs h1 h2
    rw [index_where_the_sector_eq length s hs (by omega) h2, if_neg (by omega),
      if_neg (by omega), if_neg (by omega)]

/-- C28: `index_where_the_sector` is injective on the sector counts from 1 to
16523: two lengths whose sector counts differ get different triples
(level, idx1, idx2), each component being the byte that the function stores
(below 256). -/
theorem index_where_the_sector_injective (l1 l2 : Nat)
    (h1 : 1 ≤ (l1 + 511) / 512) (h1' : (l1 + 511) / 512 < 16524)
    (h2 : 1 ≤ (l2 + 511) / 512) (h2' : (l2 + 511) / 512 < 16524)
    (hne : (l1 + 511) / 512 ≠ (l2 + 511) / 512) :
    ∃ p1 p2, index_where_the_sector l1 = some p1 ∧ index_where_the_sector l2 = some p2 ∧
      p1.level < 256 ∧ p1.idx1 < 256 ∧ p1.idx2 < 256 ∧
      p2.level < 256 ∧ p2.idx1 < 256 ∧ p2.idx2 < 256 ∧ p1 ≠ p2 := by
  refine ⟨_, _, index_where_the_sector_eq l1 _ rfl h1 h1',
    index_where_the_sector_eq l2 _ rfl h2 h2', ?_⟩
  generalize (l1 + 511) / 512 = s1 at h1 h1' hne
  generalize (l2 + 511) / 512 = s2 at h2 h2' hne
  refine ⟨?_, ?_, ?_, ?_, ?_, ?_, ?_⟩
  · split_ifs <;> simp
  · split_ifs <;> simp only [] <;> omega
  · split_ifs <;> simp only [] <;> omega
  · split_ifs <;> simp
  · split_ifs <;> simp only [] <;> omega
  · split_ifs <;> simp only [] <;> omega
  · intro h
    split_ifs at h <;> simp only [index_position.mk.injEq] at h <;> omega

/-- The injectivity at 141 sectors (where the 32-bit count wraps) against
16523 sectors. -/
theorem index_where_the_sector_injective_witness :
    ∃ p1 p2, index_where_the_sector (141 * 512) = some p1 ∧
      index_where_the_sector (16523 * 512) = some p2 ∧
      p1.level < 256 ∧ p1.idx1 < 256 ∧ p1.idx2 < 256 ∧
      p2.level < 256 ∧ p2.idx1 < 256 ∧ p2.idx2 < 256 ∧ p1 ≠ p2 :=
  index_where_the_sector_injective (141 * 512) (16523 * 512) (by decide) (by decide)
    (by decide) (by decide) (by decide)

/-! ## Theorems: the sectors allocated by an extension -/

/-- C23 (as the code behaves): the loop of `index_extend` starts at the length
itself, not at the length rounded up to a sector, and adds 512 until it reaches
`new_length`. Growing an inode of 100 bytes (one sector, in direct slot 0) to
1000 bytes, which are 2 sectors, allocates two sectors: sector 50 for direct
slot 1 and sector 51 for direct slot 2, that is for the third sector of the
file. -/
theorem index_extend_allocates_past_new_length :
    (1000 + 511) / 512 = 2 ∧
    ∃ data' st', index_extend sample_index_disk inode_100 1000 = Except.ok (true, data', st') ∧
      data'.direct 0 = 10 ∧ data'.direct 1 = 50 ∧ data'.direct 2 = 51 ∧
      st'.free = [52, 53] :=
  ⟨rfl, _, _, rfl, rfl, rfl, rfl, rfl⟩

/-- One turn of the loop of `index_extend` in level 2 when the double-indirect
block and the first-level table of `idx1` exist: the first-level table written
back holds the new sector at `idx2` and zero everywhere else. -/
theorem index_extend_step_second_level (st : index_disk) (data : inode_disk_map)
    (idx1 idx2 : Nat) (hd : data.double_indirect ≠ 0)
    (ht : st.blocks data.double_indirect idx1 ≠ 0) :
    index_extend_step st data ⟨2, idx1, idx2⟩ = Except.ok (data,
      cache_write
        (cache_write (index_allocate_single_sector st 0).2.2 data.double_indirect
          (st.blocks data.double_indirect))
        (st.blocks data.double_indirect idx1)
        (fun i => if i = idx2 then (index_allocate_single_sector st 0).2.1 else 0)) := by
  have e : (fun i => if i = idx1 then st.blocks data.double_indirect idx1
      else st.blocks data.double_indirect i) = st.blocks data.double_indirect := by
    funext i
    split
    · next h => rw [h]
    · rfl
  simp [index_extend_step, hd, ht, e]

/-- C27 (as the code behaves): in level 2 `index_extend` never reads the
first-level table from disk; it writes a fresh zeroed table that holds only the
new sector. For every inode of 153 sectors whose double-indirect block exists
and names a first-level table in entry 0, growing the file to 154 sectors
returns true and leaves that first-level table with zero in every entry other
than entry 1: the pointer to sector 153 in entry 0 is gone. -/
theorem index_extend_discards_first_level_table (st : index_disk) (data : inode_disk_map)
    (hlen : data.length = 153 * 512) (hd : data.double_indirect ≠ 0)
    (ht : st.blocks data.double_indirect 0 ≠ 0) :
    ∃ data' st', index_extend st data (154 * 512) = Except.ok (true, data', st') ∧
      data'.double_indirect = data.double_indirect ∧
      ∀ i, i ≠ 1 → st'.blocks (st.blocks data.double_indirect 0) i = 0 := by
  have hp : index_where_the_sector (153 * 512 + BLOCK_SECTOR_SIZE) = some ⟨2, 0, 1⟩ := rfl
  have hr : ¬ round_up_sector (153 * 512) ≥ 154 * 512 := by decide
  have hf : 154 * 512 / BLOCK_SECTOR_SIZE + 2 = 154 + 1 + 1 := rfl
  have hlt : 153 * 512 < 154 * 512 := by decide
  have hnl : ¬ 153 * 512 + BLOCK_SECTOR_SIZE < 154 * 512 := by decide
  unfold index_extend
  rw [hlen, if_neg hr, hf]
  unfold index_extend_loop
  rw [if_pos hlt, hp]
  simp only [index_extend_step_second_level st data 0 1 hd ht]
  unfold index_extend_loop
  rw [if_neg hnl]
  refine ⟨_, _, rfl, rfl, ?_⟩
  intro i hi
  simp [cache_write, hi]

/-- The loss on the sample tree: before the call entry 0 of the first-level
table in sector 21 names the data sector 22, afterwards it is 0. -/
theorem index_extend_discards_first_level_table_witness :
    inode_153.length = 153 * 512 ∧ sample_tree_disk.blocks 20 0 = 21 ∧
    sample_tree_disk.blocks 21 0 = 22 ∧
    ∃ data' st', index_extend sample_tree_disk inode_153 (154 * 512) =
        Except.ok (true, data', st') ∧
      data'.double_indirect = inode_153.double_indirect ∧
      ∀ i, i ≠ 1 → st'.blocks (sample_tree_disk.blocks inode_153.double_indirect 0) i = 0 :=
  ⟨rfl, rfl, rfl,
    index_extend_discards_first_level_table sample_tree_disk inode_153 rfl (by decide)
      (by decide)⟩

/-! ## Theorems: waking sleeping threads -/

/-- A value in the range of `int32_t` is not changed by the conversion. -/
theorem to_int32_of_range (x : Int) (h1 : -2 ^ 31 ≤ x) (h2 : x < 2 ^ 31) : to_int32 x = x := by
  unfold to_int32
  norm_num at h1 h2 ⊢
  omega

/-- What `thread_unblock` does to a blocked thread. -/
theorem thread_unblock_blocked (K : Kernel) (t : Nat)
    (h : (K.threads t).status = thread_status.THREAD_BLOCKED) :
    ∃ K1, thread_unblock K t = some K1 ∧
      (K1.threads t).status = thread_status.THREAD_READY ∧
      (∀ u, u ≠ t → K1.threads u = K.threads u) ∧
      (∀ u, u ∈ K1.ready_list ↔ u = t ∨ u ∈ K.ready_list) := by
  have e : thread_unblock K t =
      some ({ K with ready_list :=
          list_insert_ordered (thread_compare_priority K) t K.ready_list }.set_thread t
        { K.threads t with status := thread_status.THREAD_READY }) := by
    unfold thread_unblock
    rw [if_neg (by simp [h])]
  refine ⟨_, e, ?_, ?_, ?_⟩
  · simp [Kernel.set_thread]
  · intro u hu
    simp [Kernel.set_thread, hu]
  · intro u
    simp only [Kernel.set_thread]
    exact mem_list_insert_ordered _ _ _ _

/-- The loop of `thread_wakeUp` on a list without repetition whose threads due
at `w` are blocked: it returns, the threads due at `w` leave the list and
become ready, the other thread objects are untouched, and the minima are those
of the fold of `wakeUp_minima`. -/
theorem thread_wakeUp_loop_spec (wt : Nat → Int) (w : Int) :
    ∀ (l : List Nat) (K : Kernel) (m : Int × Int), l.Nodup →
      (∀ t ∈ l, wt t = w → (K.threads t).status = thread_status.THREAD_BLOCKED) →
      ∃ K', thread_wakeUp_loop wt w l K m =
          some (K', l.filter (fun t => decide (wt t ≠ w)),
            l.foldl (fun a t => wakeUp_minima (wt t) a) m) ∧
        (∀ t ∈ l, wt t = w → (K'.threads t).status = thread_status.THREAD_READY ∧
          t ∈ K'.ready_list) ∧
        (∀ t, ¬ (t ∈ l ∧ wt t = w) → K'.threads t = K.threads t) ∧
        (∀ t ∈ K.ready_list, t ∈ K'.ready_list) := by
  intro l
  induction l with
  | nil =>
    intro K m _ _
    exact ⟨K, rfl, by simp, fun _ _ => rfl, fun _ h => h⟩
  | cons t rest ih =>
    intro K m hnd hbl
    have hnd' := List.nodup_cons.mp hnd
    by_cases htw : wt t = w
    · obtain ⟨K1, e1, s1, o1, r1⟩ :=
        thread_unblock_blocked K t (hbl t (List.mem_cons_self _ _) htw)
      have hbl1 : ∀ u ∈ rest, wt u = w →
          (K1.threads u).status = thread_status.THREAD_BLOCKED := by
        intro u hu huw
        have hut : u ≠ t := fun e => hnd'.1 (e ▸ hu)
        rw [o1 u hut]
        exact hbl u (List.mem_cons_of_mem _ hu) huw
      obtain ⟨K', e2, a2, b2, c2⟩ := ih K1 (wakeUp_minima (wt t) m) hnd'.2 hbl1
      refine ⟨K', ?_, ?_, ?_, ?_⟩
      · simp only [thread_wakeUp_loop, if_pos htw, e1, e2, List.foldl_cons]
        simp [List.filter_cons, htw]
      · intro u hu huw
        rcases List.mem_cons.mp hu with rfl | hu
        · have h3 := b2 u (fun h => hnd'.1 h.1)
          exact ⟨by rw [h3]; exact s1, c2 u ((r1 u).mpr (Or.inl rfl))⟩
        · exact a2 u hu huw
      · intro u hu
        have hut : u ≠ t := fun e => hu ⟨e ▸ List.mem_cons_self _ _, e ▸ htw⟩
        rw [b2 u (fun h => hu ⟨List.mem_cons_of_mem _ h.1, h.2⟩), o1 u hut]
      · intro u hu
        exact c2 u ((r1 u).mpr (Or.inr hu))
    · have hbl1 : ∀ u ∈ rest, wt u = w →
          (K.threads u).status = thread_status.THREAD_BLOCKED :=
        fun u hu huw => hbl u (List.mem_cons_of_mem _ hu) huw
      obtain ⟨K', e2, a2, b2, c2⟩ := ih K (wakeUp_minima (wt t) m) hnd'.2 hbl1
      refine ⟨K', ?_, ?_, ?_, c2⟩
      · simp only [thread_wakeUp_loop, if_neg htw, e2, List.foldl_cons]
        simp [List.filter_cons, htw]
      · intro u hu huw
        rcases List.mem_cons.mp hu with rfl | hu
        · exact absurd huw htw
        · exact a2 u hu huw
      · intro u hu
        exact b2 u (fun h => hu ⟨List.mem_cons_of_mem _ h.1, h.2⟩)

/-- One turn of the loop keeps the invariant of the two minima. -/
theorem minima_inv_step (P : List Int) (m : Int × Int) (x : Int)
    (h1 : -2 ^ 31 ≤ x) (h2 : x < INT32_MAX) (h : minima_inv P m) :
    minima_inv (P ++ [x]) (wakeUp_minima x m) := by
  obtain ⟨a, b, c, d⟩ := h
  have hx : to_int32 x = x := to_int32_of_range x h1 (by unfold INT32_MAX at h2; omega)
  unfold wakeUp_minima
  rw [hx]
  by_cases c1 : x < m.1
  · rw [if_pos c1]
    refine ⟨?_, Or.inr (by simp), ?_, ?_⟩
    · intro y hy
      rcases List.mem_append.mp hy with hy | hy
      · have := a y hy
        show x ≤ y
        omega
      · simp only [List.mem_singleton] at hy
        show x ≤ y
        omega
    · intro y hy hne
      rcases List.mem_append.mp hy with hy | hy
      · exact a y hy
      · simp only [List.mem_singleton] at hy
        exact absurd hy hne
    · rcases b with b | b
      · exact Or.inl b
      · refine Or.inr ⟨List.mem_append_left _ b, ?_⟩
        show m.1 ≠ x
        omega
  · rw [if_neg c1]
    by_cases c2 : x < m.2 ∧ x ≠ m.1
    · rw [if_pos c2]
      refine ⟨?_, ?_, ?_, Or.inr ⟨by simp, c2.2⟩⟩
      · intro y hy
        rcases List.mem_append.mp hy with hy | hy
        · exact a y hy
        · simp only [List.mem_singleton] at hy
          show m.1 ≤ y
          omega
      · rcases b with b | b
        · exact Or.inl b
        · exact Or.inr (List.mem_append_left _ b)
      · intro y hy hne
        rcases List.mem_append.mp hy with hy | hy
        · have := c y hy hne
          show x ≤ y
          omega
        · simp only [List.mem_singleton] at hy
          show x ≤ y
          omega
    · rw [if_neg c2]
      refine ⟨?_, ?_, ?_, ?_⟩
      · intro y hy
        rcases List.mem_append.mp hy with hy | hy
        · exact a y hy
        · simp only [List.mem_singleton] at hy
          omega
      · rcases b with b | b
        · exact Or.inl b
        · exact Or.inr (List.mem_append_left _ b)
      · intro y hy hne
        rcases List.mem_append.mp hy with hy | hy
        · exact c y hy hne
        · simp only [List.mem_singleton] at hy
          subst hy
          by_contra hlt
          exact c2 ⟨by omega, hne⟩
      · rcases d with d | d
        · exact Or.inl d
        · exact Or.inr ⟨List.mem_append_left _ d.1, d.2⟩

/-- The loop keeps the invariant of the two minima. -/
theorem minima_inv_foldl (wt : Nat → Int) :
    ∀ (l : List Nat) (P : List Int) (m : Int × Int),
      (∀ t ∈ l, -2 ^ 31 ≤ wt t ∧ wt t < INT32_MAX) → minima_inv P m →
      minima_inv (P ++ l.map wt) (l.foldl (fun a t => wakeUp_minima (wt t) a) m) := by
  intro l
  induction l with
  | nil => intro P m _ h; simpa using h
  | cons t rest ih =>
    intro P m hr h
    have h1 := hr t (List.mem_cons_self _ _)
    have h2 := ih (P ++ [wt t]) (wakeUp_minima (wt t) m)
      (fun u hu => hr u (List.mem_cons_of_mem _ hu)) (minima_inv_step P m (wt t) h1.1 h1.2 h)
    simpa using h2

/-- C24 (amended): for every non-empty sleep list of distinct blocked threads
whose wake times fit in 32 bits and are below `INT32_MAX`, if `w` is the
minimum wake time on the list then `thread_wakeUp (w)` returns; exactly the
threads with wake time `w` have left the sleep list and are ready (on the ready
list), the others are still on the list and blocked, and `time_to_wake` is -1
when no thread remains and the minimum wake time of the remaining threads
otherwise. -/
theorem thread_wakeUp_minimum (S : Sleep) (w : Int)
    (hne : S.sleep_list ≠ []) (hnd : S.sleep_list.Nodup)
    (hbl : ∀ t ∈ S.sleep_list, (S.kernel.threads t).status = thread_status.THREAD_BLOCKED)
    (hrange : ∀ t ∈ S.sleep_list, -2 ^ 31 ≤ S.wake_time t ∧ S.wake_time t < INT32_MAX)
    (hw : ∃ t ∈ S.sleep_list, S.wake_time t = w)
    (hmin : ∀ t ∈ S.sleep_list, w ≤ S.wake_time t) :
    ∃ S', thread_wakeUp S w = some S' ∧
      S'.wake_time = S.wake_time ∧
      S'.sleep_list = S.sleep_list.filter (fun t => decide (S.wake_time t ≠ w)) ∧
      (∀ t ∈ S.sleep_list, S.wake_time t = w →
        t ∉ S'.sleep_list ∧ (S'.kernel.threads t).status = thread_status.THREAD_READY ∧
          t ∈ S'.kernel.ready_list) ∧
      (∀ t ∈ S.sleep_list, S.wake_time t ≠ w →
        t ∈ S'.sleep_list ∧ (S'.kernel.threads t).status = thread_status.THREAD_BLOCKED) ∧
      (S'.sleep_list = [] → S'.time_to_wake = -1) ∧
      (S'.sleep_list ≠ [] → (∃ t ∈ S'.sleep_list, S.wake_time t = S'.time_to_wake) ∧
        ∀ t ∈ S'.sleep_list, S'.time_to_wake ≤ S.wake_time t) := by
  obtain ⟨K', e, a, b, _⟩ := thread_wakeUp_loop_spec S.wake_time w S.sleep_list S.kernel
    (INT32_MAX, INT32_MAX) hnd (fun t ht _ => hbl t ht)
  have inv := minima_inv_foldl S.wake_time S.sleep_list [] (INT32_MAX, INT32_MAX) hrange
    ⟨by simp, Or.inl rfl, by simp, Or.inl rfl⟩
  rw [List.nil_append] at inv
  generalize hm : S.sleep_list.foldl (fun a t => wakeUp_minima (S.wake_time t) a)
    (INT32_MAX, INT32_MAX) = m at e inv
  obtain ⟨i1, i2, i3, i4⟩ := inv
  obtain ⟨tw, htw, etw⟩ := hw
  have hwP : w ∈ S.sleep_list.map S.wake_time := List.mem_map.mpr ⟨tw, htw, etw⟩
  have hwlt : w < INT32_MAX := etw ▸ (hrange tw htw).2
  have hf : m.1 = w := by
    rcases i2 with i2 | i2
    · have := i1 w hwP
      omega
    · obtain ⟨t, ht, et⟩ := List.mem_map.mp i2
      have h1 := hmin t ht
      have h2 := i1 w hwP
      omega
  have he : thread_wakeUp S w = some ⟨K',
      S.sleep_list.filter (fun t => decide (S.wake_time t ≠ w)), S.wake_time,
      if m.2 ≠ INT32_MAX then m.2
      else if S.sleep_list.filter (fun t => decide (S.wake_time t ≠ w)) = [] then -1
      else S.time_to_wake⟩ := by
    simp only [thread_wakeUp, if_neg hne, e]
  refine ⟨_, he, rfl, rfl, ?_, ?_, ?_, ?_⟩
  · intro t ht hwt
    refine ⟨?_, a t ht hwt⟩
    simp [List.mem_filter, hwt]
  · intro t ht hwt
    refine ⟨?_, ?_⟩
    · simp [List.mem_filter, ht, hwt]
    · show (K'.threads t).status = _
      rw [b t (fun h => hwt h.2)]
      exact hbl t ht
  · intro hk
    simp only at hk
    have hall : ∀ t ∈ S.sleep_list, S.wake_time t = w := by
      intro t ht
      by_contra hc
      have : t ∈ S.sleep_list.filter (fun t => decide (S.wake_time t ≠ w)) := by
        simp [List.mem_filter, ht, hc]
      rw [hk] at this
      cases this
    have h2 : m.2 = INT32_MAX := by
      rcases i4 with i4 | ⟨i4, i5⟩
      · exact i4
      · obtain ⟨t, ht, et⟩ := List.mem_map.mp i4
        rw [hf, ← et, hall t ht] at i5
        exact absurd rfl i5
    simp only [h2, ne_eq, not_true_eq_false, if_false, hk, if_true]
  · intro hk
    simp only at hk
    obtain ⟨t0, ht0⟩ := List.exists_mem_of_ne_nil _ hk
    rw [List.mem_filter] at ht0
    have hne0 : S.wake_time t0 ≠ w := by simpa using ht0.2
    have hP0 : S.wake_time t0 ∈ S.sleep_list.map S.wake_time :=
      List.mem_map.mpr ⟨t0, ht0.1, rfl⟩
    rcases i4 with i4 | ⟨i4, i5⟩
    · have h1 := i3 _ hP0 (by rw [hf]; exact hne0)
      have h2 := (hrange t0 ht0.1).2
      omega
    · obtain ⟨t, ht, et⟩ := List.mem_map.mp i4
      have hlt : m.2 ≠ INT32_MAX := by
        have := (hrange t ht).2
        omega
      simp only [hlt, ne_eq, not_false_eq_true, if_true]
      refine ⟨⟨t, ?_, et⟩, ?_⟩
      · rw [List.mem_filter]
        refine ⟨ht, ?_⟩
        rw [hf, ← et] at i5
        simpa using i5
      · intro u hu
        rw [List.mem_filter] at hu
        have hu2 : S.wake_time u ≠ w := by simpa using hu.2
        exact i3 _ (List.mem_map.mpr ⟨u, hu.1, rfl⟩) (by rw [hf]; exact hu2)

/-- The amended claim on the sample sleep list: the threads 3 and 6, due at tick
100, are woken and thread 5 stays. -/
theorem thread_wakeUp_minimum_witness :
    ∃ S', thread_wakeUp sample_sleep 100 = some S' ∧
      S'.wake_time = sample_sleep.wake_time ∧
      S'.sleep_list = sample_sleep.sleep_list.filter
        (fun t => decide (sample_sleep.wake_time t ≠ 100)) ∧
      (∀ t ∈ sample_sleep.sleep_list, sample_sleep.wake_time t = 100 →
        t ∉ S'.sleep_list ∧ (S'.kernel.threads t).status = thread_status.THREAD_READY ∧
          t ∈ S'.kernel.ready_list) ∧
      (∀ t ∈ sample_sleep.sleep_list, sample_sleep.wake_time t ≠ 100 →
        t ∈ S'.sleep_list ∧ (S'.kernel.threads t).status = thread_status.THREAD_BLOCKED) ∧
      (S'.sleep_list = [] → S'.time_to_wake = -1) ∧
      (S'.sleep_list ≠ [] → (∃ t ∈ S'.sleep_list, sample_sleep.wake_time t = S'.time_to_wake) ∧
        ∀ t ∈ S'.sleep_list, S'.time_to_wake ≤ sample_sleep.wake_time t) :=
  thread_wakeUp_minimum sample_sleep 100 (by decide) (by decide) (by decide) (by decide)
    (by decide) (by decide)

/-- C24 (counterexample): `second_min` starts at `INT32_MAX` and a wake time is
recorded only when it is below `second_min`, so the wake time `INT32_MAX` is
never recorded. With thread 3 due at tick 100 and thread 5 due at tick
2147483647, `thread_wakeUp (100)` removes thread 3 and leaves `time_to_wake`
at 100, not at 2147483647, the wake time of the thread that remains. -/
theorem thread_wakeUp_stale_time_to_wake :
    sample_sleep_late.wake_time 3 = 100 ∧ sample_sleep_late.wake_time 5 = 2147483647 ∧
    ∃ S', thread_wakeUp sample_sleep_late 100 = some S' ∧ S'.sleep_list = [5] ∧
      S'.time_to_wake = 100 :=
  ⟨rfl, rfl, _, rfl, rfl, rfl⟩

/-! ## Theorems: segments of an executable -/

/-- C25: with the sum `p_vaddr + p_memsz` computed modulo 2^32 as in the code,
if `validate_segment` returns true then `p_vaddr` is at least `PGSIZE`,
`p_memsz` is positive, `p_filesz` is at most `p_memsz`, and the sum
`p_vaddr + p_memsz` taken in the integers is below 2^32 (it does not wrap) and
strictly below `PHYS_BASE`. -/
theorem validate_segment_in_user_space (phdr : Elf32_Phdr) (file_length : Int)
    (hv : phdr.p_vaddr < 2 ^ 32) (hm : phdr.p_memsz < 2 ^ 32)
    (h : validate_segment phdr file_length = true) :
    PGSIZE ≤ phdr.p_vaddr ∧ 0 < phdr.p_memsz ∧ phdr.p_filesz ≤ phdr.p_memsz ∧
      phdr.p_vaddr + phdr.p_memsz < 2 ^ 32 ∧ phdr.p_vaddr + phdr.p_memsz < PHYS_BASE := by
  unfold validate_segment at h
  split_ifs at h with h1 h2 h3 h4 h5 h6 h7 h8
  simp only [is_user_vaddr, PHYS_BASE, Bool.not_eq_true', decide_eq_false_iff_not, not_not] at h5 h6
  simp only [PGSIZE, PHYS_BASE] at *
  omega

/-- The sample segment is accepted and lies in user space. -/
theorem validate_segment_in_user_space_witness :
    validate_segment sample_phdr 0x4000 = true ∧
    PGSIZE ≤ sample_phdr.p_vaddr ∧ 0 < sample_phdr.p_memsz ∧
      sample_phdr.p_filesz ≤ sample_phdr.p_memsz ∧
      sample_phdr.p_vaddr + sample_phdr.p_memsz < 2 ^ 32 ∧
      sample_phdr.p_vaddr + sample_phdr.p_memsz < PHYS_BASE :=
  ⟨by decide, validate_segment_in_user_space sample_phdr 0x4000 (by decide) (by decide)
    (by decide)⟩

/-! ## Theorems: the supplemental page table -/

/-- Two page nodes are equal for the hash table exactly when their `upage`
fields are equal. -/
theorem hash_find_eq (h : List page_node) (key : page_node) :
    hash_find h key = h.find? (fun n => decide (n.upage = key.upage)) := by
  unfold hash_find
  congr 1
  funext n
  simp only [page_hash_less]
  by_cases h1 : n.upage = key.upage
  · simp [h1]
  · rcases Nat.lt_or_gt_of_ne h1 with h2 | h2
    · simp [h1, h2]
    · simp [h1, h2]

theorem hash_find_none_iff (h : List page_node) (key : page_node) :
    hash_find h key = none ↔ ∀ n ∈ h, n.upage ≠ key.upage := by
  rw [hash_find_eq, List.find?_eq_none]
  simp

theorem find_page_node_eq (h : List page_node) (uaddr : Nat) :
    find_page_node h uaddr = h.find? (fun n => decide (n.upage = pg_round_down uaddr)) := by
  unfold find_page_node
  rw [hash_find_eq]

/-- C26: let the `ASSERT`s of `page_add_page` hold (the role is not
`SEG_UNUSED`, a page added as `LOC_MEMORY` has a page-table entry, the process
has a `process_node` with at most 1024 pages) and let the pages of the table be
pairwise different. If the table has an entry for `pg_round_down (uaddr)` the
call returns `NULL` and leaves the tables unchanged. Otherwise it returns the
new node; the pages of the table are still pairwise different, `page_seek`
returns the new node for every address of the same page, and its results for
all other pages and all other processes are unchanged. -/
theorem page_add_page_unique (pl : process_list) (t : page_thread) (uaddr sharing : Nat)
    (loc : location) (r : role) (page_list : List page_node)
    (hr : r ≠ role.SEG_UNUSED)
    (hloc : loc = location.LOC_MEMORY → t.pagedir uaddr = true)
    (hp : pl t.tid = some page_list) (hcnt : page_list.length ≤ 1024)
    (hu : pages_unique page_list) :
    (page_seek pl t uaddr ≠ none →
      page_add_page pl t uaddr sharing loc r = Except.ok (none, pl)) ∧
    (page_seek pl t uaddr = none →
      ∃ pl' page_list',
        page_add_page pl t uaddr sharing loc r =
          Except.ok (some ⟨t.tid, pg_round_down uaddr, sharing, loc, none, r⟩, pl') ∧
        pl' t.tid = some page_list' ∧ pages_unique page_list' ∧
        (∀ a, pg_round_down a = pg_round_down uaddr →
          page_seek pl' t a = some ⟨t.tid, pg_round_down uaddr, sharing, loc, none, r⟩) ∧
        (∀ a, pg_round_down a ≠ pg_round_down uaddr → page_seek pl' t a = page_seek pl t a) ∧
        (∀ (u : page_thread) (a : Nat), u.tid ≠ t.tid → page_seek pl' u a = page_seek pl u a)) := by
  have hl : ¬ (loc = location.LOC_MEMORY ∧ t.pagedir uaddr = false) := by
    rintro ⟨h1, h2⟩
    rw [hloc h1] at h2
    cases h2
  have hseek : page_seek pl t uaddr =
      hash_find page_list ⟨t.tid, pg_round_down uaddr, sharing, loc, none, r⟩ := by
    simp only [page_seek, find_process_node, hp, find_page_node, hash_find_eq]
  constructor
  · intro h
    rw [hseek] at h
    obtain ⟨old, hold⟩ := Option.ne_none_iff_exists'.mp h
    simp only [page_add_page, if_neg hr, if_neg hl, find_process_node, hp, hcnt,
      not_true_eq_false, if_false, hash_insert, hold]
  · intro h
    rw [hseek] at h
    refine ⟨fun pid => if pid = t.tid then
        some (⟨t.tid, pg_round_down uaddr, sharing, loc, none, r⟩ :: page_list) else pl pid,
      ⟨t.tid, pg_round_down uaddr, sharing, loc, none, r⟩ :: page_list, ?_, ?_, ?_, ?_, ?_, ?_⟩
    · simp only [page_add_page, if_neg hr, if_neg hl, find_process_node, hp, hcnt,
        not_true_eq_false, if_false, hash_insert, h]
    · simp only [if_true]
    · unfold pages_unique
      rw [List.pairwise_cons]
      refine ⟨?_, hu⟩
      intro n hn
      exact fun e => (hash_find_none_iff _ _).mp h n hn e.symm
    · intro a ha
      simp only [page_seek, find_process_node, if_true, find_page_node_eq, ha]
      simp [List.find?_cons]
    · intro a ha
      simp only [page_seek, find_process_node, if_true, hp, find_page_node_eq]
      rw [List.find?_cons]
      have : decide (pg_round_down uaddr = pg_round_down a) = false := by
        simp only [decide_eq_false_iff_not]
        exact fun e => ha e.symm
      simp only [this]
    · intro u a hu'
      simp only [page_seek, find_process_node, if_neg hu']

/-- The claim on the sample tables: the page of 0x10000123 is new, so the entry
is added and found again. -/
theorem page_add_page_unique_witness :
    (page_seek sample_spt sample_page_thread 0x10000123 ≠ none →
      page_add_page sample_spt sample_page_thread 0x10000123 0 location.LOC_NOT_PRESENT
        role.SEG_MMAP = Except.ok (none, sample_spt)) ∧
    (page_seek sample_spt sample_page_thread 0x10000123 = none →
      ∃ pl' page_list',
        page_add_page sample_spt sample_page_thread 0x10000123 0 location.LOC_NOT_PRESENT
            role.SEG_MMAP =
          Except.ok (some ⟨sample_page_thread.tid, pg_round_down 0x10000123, 0,
            location.LOC_NOT_PRESENT, none, role.SEG_MMAP⟩, pl') ∧
        pl' sample_page_thread.tid = some page_list' ∧ pages_unique page_list' ∧
        (∀ a, pg_round_down a = pg_round_down 0x10000123 →
          page_seek pl' sample_page_thread a =
            some ⟨sample_page_thread.tid, pg_round_down 0x10000123, 0,
              location.LOC_NOT_PRESENT, none, role.SEG_MMAP⟩) ∧
        (∀ a, pg_round_down a ≠ pg_round_down 0x10000123 →
          page_seek pl' sample_page_thread a = page_seek sample_spt sample_page_thread a) ∧
        (∀ (u : page_thread) (a : Nat), u.tid ≠ sample_page_thread.tid →
          page_seek pl' u a = page_seek sample_spt u a)) :=
  page_add_page_unique sample_spt sample_page_thread 0x10000123 0 location.LOC_NOT_PRESENT
    role.SEG_MMAP
    [⟨7, 0x08048000, 0, location.LOC_MEMORY, some 1, role.SEG_CODE⟩,
      ⟨7, 0xbffff000, 0, location.LOC_NOT_PRESENT, none, role.SEG_STACK⟩]
    (by decide) (by decide) rfl (by decide) (by unfold pages_unique; decide)

/-! ## Theorems: empty directories and the working directory -/

/-- The scan of `dir_readdir` finds a name exactly when some slot is in use
under a name other than "." and "..". -/
theorem readdir_from_isSome (es : List dir_entry) :
    ∀ pos : Nat, (readdir_from es pos).1.isSome = true ↔
      ∃ e ∈ es, e.in_use = true ∧ e.name ≠ ['.'] ∧ e.name ≠ ['.', '.'] := by
  induction es with
  | nil => intro pos; simp [readdir_from]
  | cons e es ih =>
    intro pos
    unfold readdir_from
    by_cases h : e.in_use = true ∧ e.name ≠ ['.'] ∧ e.name ≠ ['.', '.']
    · have hc : (e.in_use && !(decide (e.name = ['.']) || decide (e.name = ['.', '.']))) = true := by
        simp [h.1, h.2.1, h.2.2]
      rw [if_pos hc]
      simp only [Option.isSome_some, List.mem_cons, true_iff]
      exact ⟨e, Or.inl rfl, h⟩
    · have hc : ¬ (e.in_use && !(decide (e.name = ['.']) || decide (e.name = ['.', '.']))) = true := by
        intro hc
        apply h
        simp only [Bool.and_eq_true, Bool.not_eq_true', Bool.or_eq_false_iff,
          decide_eq_false_iff_not] at hc
        exact ⟨hc.1, hc.2.1, hc.2.2⟩
      rw [if_neg hc, ih (pos + 1)]
      constructor
      · rintro ⟨x, hx, hp⟩
        exact ⟨x, List.mem_cons_of_mem _ hx, hp⟩
      · rintro ⟨x, hx, hp⟩
        rcases List.mem_cons.mp hx with rfl | hx
        · exact absurd hp h
        · exact ⟨x, hx, hp⟩

/-- C30 (as the code behaves): `dir_is_empty` returns the result of
`dir_readdir`, which is true when it found an entry. For every freshly opened
directory (position 0) `dir_is_empty` is true exactly when the directory has an
in-use entry other than "." and "..": the reverse of the claim. On the sample
disk the directory `b` (sector 3), which holds only "." and "..", is reported
as not empty and the directory `a` (sector 2), which holds `b`, as empty. -/
theorem dir_is_empty_iff_has_entry :
    (∀ (fs : Disk) (inode : Nat), dir_is_empty fs ⟨inode, 0⟩ = true ↔
      ∃ e ∈ (fs inode).entries, e.in_use = true ∧ e.name ≠ ['.'] ∧ e.name ≠ ['.', '.']) ∧
    dir_open sample_disk 3 = some ⟨3, 0⟩ ∧ dir_is_empty sample_disk ⟨3, 0⟩ = false ∧
    dir_open sample_disk 2 = some ⟨2, 0⟩ ∧ dir_is_empty sample_disk ⟨2, 0⟩ = true := by
  refine ⟨?_, rfl, rfl, rfl, rfl⟩
  intro fs inode
  simp only [dir_is_empty, dir_readdir, List.drop_zero]
  exact readdir_from_isSome _ 0

/-- C29 (as the code behaves): `syscall_chdir` stores in `wd` whatever sector
`dir_parse` returns, provided it is not 0, and `dir_parse` returns the sector
of the last component without asking whether it is a directory. On the sample
disk, with the root as working directory, `chdir ("f")` returns true and sets
`wd` to sector 4, the inode of the regular file `f`. When the call returns
false `wd` is unchanged. -/
theorem syscall_chdir_to_regular_file :
    syscall_chdir sample_disk ROOT_DIR_SECTOR (some ['f']) = some (true, 4) ∧
    (sample_disk 4).is_dir = false ∧
    (∀ (fs : Disk) (wd : Nat) (dir : Option (List Char)) (w : Nat),
      syscall_chdir fs wd dir = some (true, w) → dir_parse fs wd dir = some w ∧ w ≠ 0) ∧
    (∀ (fs : Disk) (wd : Nat) (dir : Option (List Char)) (w : Nat),
      syscall_chdir fs wd dir = some (false, w) → w = wd) := by
  refine ⟨by decide, rfl, ?_, ?_⟩
  · intro fs wd dir w h
    unfold syscall_chdir at h
    split at h
    · cases h
    · next s hs =>
      split at h
      · cases h
      · next hne =>
        cases h
        exact ⟨hs, hne⟩
  · intro fs wd dir w h
    unfold syscall_chdir at h
    split at h
    · cases h
    · split at h
      · cases h; rfl
      · cases h

end Pintos
